import Mathlib

/-!
Shallow embedding of the `rust_nn` feedforward-network core
(`src/node.rs`, `src/network.rs`, `src/sigmoid.rs`, `src/util.rs`,
`src/training_data.rs`).

Modelling conventions:
* `f64` is modelled as `ℚ` (exact arithmetic; the claims under study are
  structural/algebraic, not about rounding).  Note that in `ℚ` division by
  zero yields `0` while IEEE-754 yields `±inf`; no positive theorem below
  relies on the value of a division by zero.
* The sigmoid activation and its derivative involve `exp`, which is not
  computable; since none of the claims depend on their analytic values, the
  development is parameterised by an abstract activation `Act` consisting of
  the two functions `sig` and `sigDeriv`.
* Rust panics (failed `assert!`, out-of-bounds indexing, failed
  `try_into_ref::<T>().unwrap()` downcasts, `expect`) are modelled by
  `Option`: `none` means the operation panics.
* Interior mutability through `RefCell` is modelled by explicit state
  passing: operations addressed by `(layer, index)` return the updated
  `Network`.
* The recursive pull evaluation `get_value`/`get_sum` terminates in the
  source because each node pulls only from the previous layer; the
  embedding makes this explicit with a fuel parameter.  Exhausted fuel
  (`none`) corresponds to the unbounded recursion / stack overflow the
  source would exhibit on a malformed graph.  All theorems about
  evaluation either hypothesise a successful run or hold for every fuel.
-/

namespace RustNN

/-- Replace the element at index `i` (no-op when out of bounds), mirroring
in-place mutation of one slot of a `Vec`. -/
def listModify {α : Type} (g : α → α) : ℕ → List α → List α
  | _, [] => []
  | 0, a :: as => g a :: as
  | n + 1, a :: as => a :: listModify g n as

/-- Abstract activation: the `Sigmoid` trait of `src/sigmoid.rs` (the two
methods `sigmoid` and `sig_deriv`), kept abstract because `exp` is not
computable and no claim depends on its analytic values. -/
structure Act where
  sig : ℚ → ℚ
  sigDeriv : ℚ → ℚ

/-- `StartNode` of `src/node.rs`: an input node holding one scalar. -/
structure StartNode where
  value : ℚ
  deriving DecidableEq

/-- `Node` (compute node) of `src/node.rs`, field for field. -/
structure Node where
  bias : ℚ
  inp_w : List ℚ
  layer : ℕ
  sum_cache : Option ℚ
  result_cache : Option ℚ
  bias_nudge_sum : ℚ
  inp_w_nudge_sum : List ℚ
  nudge_cnt : ℕ
  requested_nudge : ℚ
  deriving DecidableEq

/-- `Node::new` of `src/node.rs`: caches empty, accumulators zeroed,
`inp_w_nudge_sum` zero-filled to the length of `inp_w`.  Like the source it
performs NO validation of the weight-vector length. -/
def Node.new (bias : ℚ) (inp_w : List ℚ) (layer : ℕ) : Node :=
  { bias := bias
    inp_w := inp_w
    layer := layer
    sum_cache := none
    result_cache := none
    bias_nudge_sum := 0
    inp_w_nudge_sum := List.replicate inp_w.length 0
    nudge_cnt := 0
    requested_nudge := 0 }

/-- The closed `NodeLike` trait object: exactly two implementers. -/
inductive AnyNode where
  | start (s : StartNode)
  | main (n : Node)
  deriving DecidableEq

/-- `NetworkConfig` of `src/network.rs`. -/
structure NetworkConfig where
  learning_rate : ℚ
  shape : List ℕ
  deriving DecidableEq

/-- `Network` of `src/network.rs`. -/
structure Network where
  layers : List (List AnyNode)
  config : NetworkConfig
  deriving DecidableEq

/-- `TrainingExample` of `src/training_data.rs`. -/
structure TrainingExample where
  inputs : List ℚ
  expected : List ℚ
  deriving DecidableEq

/-- `error_f` of `src/util.rs`. -/
def error_f (a b : ℚ) : ℚ := (a - b) ^ 2

/-- `error_deriv` of `src/util.rs`. -/
def error_deriv (output expected : ℚ) : ℚ := 2 * (output - expected)

/-- `Network::get_node`: `&self.layers[li][ni]`; `none` models the
out-of-bounds panic. -/
def Network.get_node (nw : Network) (li ni : ℕ) : Option AnyNode :=
  nw.layers[li]?.bind (fun l => l[ni]?)

/-- Observer: the compute node at `(li, ni)`, when that slot holds one. -/
def Network.mainAt (nw : Network) (li ni : ℕ) : Option Node :=
  match nw.get_node li ni with
  | some (.main n) => some n
  | _ => none

/-- Lift a compute-node update to `AnyNode` (no-op on a start node). -/
def mapMainNode (g : Node → Node) : AnyNode → AnyNode
  | .start s => .start s
  | .main n => .main (g n)

/-- Apply `g` to the compute node at `(li, ni)` (no-op on a start node or
out of bounds): the shape of every `RefCell` write through a `&Node`. -/
def Network.modifyMain (nw : Network) (li ni : ℕ) (g : Node → Node) : Network :=
  { nw with
    layers := listModify (fun l => listModify (mapMainNode g) ni l) li nw.layers }

/-- `self.sum_cache.replace(v)` on the node at `(li, ni)`. -/
def Network.setSumCache (nw : Network) (li ni : ℕ) (v : Option ℚ) : Network :=
  nw.modifyMain li ni (fun n => { n with sum_cache := v })

/-- `self.result_cache.replace(v)` on the node at `(li, ni)`. -/
def Network.setResultCache (nw : Network) (li ni : ℕ) (v : Option ℚ) : Network :=
  nw.modifyMain li ni (fun n => { n with result_cache := v })

/-- `Network::with_config` of `src/network.rs`: asserts
`shape.len() >= 2`, then builds layer 0 from `StartNode::new(0.)` and every
layer `i != 0` from `Node::new(0., vec![0.; shape[i-1]], i)`. -/
def Network.with_config (config : NetworkConfig) : Option Network :=
  if 2 ≤ config.shape.length then
    some { config := config
           layers := config.shape.enum.map (fun p =>
             (List.range p.2).map (fun _ =>
               if p.1 ≠ 0 then
                 AnyNode.main (Node.new 0 (List.replicate (config.shape.getD (p.1 - 1) 0) 0) p.1)
               else
                 AnyNode.start ⟨0⟩)) }
  else none

/-- `Network::new`: `with_config` with the default learning rate `1.0`. -/
def Network.new (shape : List ℕ) : Option Network :=
  Network.with_config { learning_rate := 1, shape := shape }

/-- `Node::invalidate` (the `NodeLike` impl for `Node`): clear both caches. -/
def Node.invalidate (n : Node) : Node :=
  { n with sum_cache := none, result_cache := none }

/-- `NodeLike::invalidate` dispatch: default no-op for `StartNode`. -/
def AnyNode.invalidate : AnyNode → AnyNode
  | .start s => .start s
  | .main n => .main n.invalidate

/-- `Node::request_nudge`: `*self.requested_nudge.borrow_mut() += nudge`. -/
def Node.request_nudge (n : Node) (nudge : ℚ) : Node :=
  { n with requested_nudge := n.requested_nudge + nudge }

/-- `NodeLike::request_nudge` dispatch: default no-op for `StartNode`. -/
def AnyNode.request_nudge : AnyNode → ℚ → AnyNode
  | .start s, _ => .start s
  | .main n, x => .main (n.request_nudge x)

/-- `Node::clear_nudges`. -/
def Node.clear_nudges (n : Node) : Node :=
  { n with
    nudge_cnt := 0
    bias_nudge_sum := 0
    inp_w_nudge_sum := List.replicate n.inp_w.length 0
    requested_nudge := 0 }

/-- The weight-update loop of `Node::apply_nudges`:
`self.inp_w[i] += inp_w_nudge_sum[i] * inv_cnt` for each index of
`inp_w_nudge_sum`; `none` models the index panic when `inp_w` is shorter
than `inp_w_nudge_sum`. -/
def applyWeightNudges : List ℚ → List ℚ → ℚ → Option (List ℚ)
  | ws, [], _ => some ws
  | [], _ :: _, _ => none
  | w :: ws, wn :: wns, inv => (applyWeightNudges ws wns inv).map (fun r => (w + wn * inv) :: r)

/-- `Node::apply_nudges` of `src/node.rs`: `inv_cnt = 1.0 / nudge_cnt`
(UNGUARDED: the source performs the division even when `nudge_cnt == 0`;
in `f64` that is `+inf`, here in `ℚ` it is `0` — in neither model is any
error raised), then `bias += bias_nudge_sum * inv_cnt` and the weight
loop. -/
def Node.apply_nudges (n : Node) : Option Node :=
  let inv_cnt : ℚ := 1 / (n.nudge_cnt : ℚ)
  (applyWeightNudges n.inp_w n.inp_w_nudge_sum inv_cnt).map (fun ws =>
    { n with bias := n.bias + n.bias_nudge_sum * inv_cnt, inp_w := ws })

/-- The weighted-sum loop of `Node::get_sum`: evaluates
`network.get_node(layer - 1, i).get_value(network) * v` for each weight in
order, threading the cache mutations of the recursive pulls through the
state.  `ev` is the node evaluator (tied to `getValueF` at one fuel less). -/
def sumChildren (ev : Network → ℕ → ℕ → Option (Network × ℚ)) (layer : ℕ) :
    Network → List ℚ → ℕ → Option (Network × ℚ)
  | nw, [], _ => some (nw, 0)
  | nw, v :: rest, i =>
    match ev nw (layer - 1) i with
    | none => none
    | some (nw2, x) =>
      match sumChildren ev layer nw2 rest (i + 1) with
      | none => none
      | some (nw3, s) => some (nw3, x * v + s)

/-- `Node::get_sum` at position `(li, ni)`, parameterised by the child
evaluator: return the cached sum if present, otherwise sum the weighted
previous-layer values, add the bias, memoize into `sum_cache`. -/
def getSumGiven (ev : Network → ℕ → ℕ → Option (Network × ℚ))
    (nw : Network) (li ni : ℕ) : Option (Network × ℚ) :=
  match nw.get_node li ni with
  | some (.main n) =>
    match n.sum_cache with
    | some cached => some (nw, cached)
    | none =>
      match sumChildren ev n.layer nw n.inp_w 0 with
      | none => none
      | some (nw2, s) =>
        let inp_sum := s + n.bias
        some (nw2.setSumCache li ni (some inp_sum), inp_sum)
  | _ => none

/-- `NodeLike::get_value` dispatched on the node at `(li, ni)`:
`StartNode` returns its stored value; `Node` returns `result_cache` on a
hit, otherwise computes `get_sum`, applies the activation, memoizes into
`result_cache`.  Structural recursion on fuel. -/
def getValueF (A : Act) : ℕ → Network → ℕ → ℕ → Option (Network × ℚ)
  | 0, _, _, _ => none
  | fuel + 1, nw, li, ni =>
    match nw.get_node li ni with
    | none => none
    | some (.start s) => some (nw, s.value)
    | some (.main n) =>
      match n.result_cache with
      | some cached => some (nw, cached)
      | none =>
        match getSumGiven (getValueF A fuel) nw li ni with
        | none => none
        | some (nw2, inp_sum) =>
          let val := A.sig inp_sum
          some (nw2.setResultCache li ni (some val), val)

/-- `Node::get_sum` as invoked from outside (`calc_nudge` and the public
node API). -/
def getSumF (A : Act) (fuel : ℕ) (nw : Network) (li ni : ℕ) : Option (Network × ℚ) :=
  getSumGiven (getValueF A fuel) nw li ni

/-- `Network::invalidate`: invalidate every node of every layer except
layer 0 (`iter().skip(1)`). -/
def Network.invalidate (nw : Network) : Network :=
  { nw with
    layers := nw.layers.take 1 ++ (nw.layers.drop 1).map (List.map AnyNode.invalidate) }

/-- The loop body of `Network::set_inputs`: each node of layer 0 is
downcast to `StartNode` (`unwrap` — `none` on a compute node) and
overwritten with the matching input. -/
def setStartValues : List AnyNode → List ℚ → Option (List AnyNode)
  | [], [] => some []
  | .start _ :: rest, v :: vs => (setStartValues rest vs).map (fun r => AnyNode.start ⟨v⟩ :: r)
  | _, _ => none

/-- `Network::set_inputs`: asserts `inputs.len() == layers[0].len()`, then
overwrites the start values in order. -/
def Network.set_inputs (nw : Network) (inputs : List ℚ) : Option Network :=
  match nw.layers with
  | [] => none
  | l0 :: rest =>
    if inputs.length = l0.length then
      (setStartValues l0 inputs).map (fun l0x => { nw with layers := l0x :: rest })
    else none

/-- `Network::set_input`: `get_start_node_mut(i).set_value(value)`,
panicking (`none`) when slot `(0, i)` is absent or not a start node. -/
def Network.set_input (nw : Network) (i : ℕ) (value : ℚ) : Option Network :=
  match nw.get_node 0 i with
  | some (.start _) =>
    some { nw with
           layers := listModify (fun l => listModify (fun _ => AnyNode.start ⟨value⟩) i l) 0 nw.layers }
  | _ => none

/-- Evaluate the nodes `(li, start), (li, start+1), …` for `count` nodes in
index order, threading cache state: the `iter().map(get_value).collect()`
pattern of `get_outputs` / `get_current_cost`. -/
def evalRange (A : Act) (fuel li : ℕ) : Network → ℕ → ℕ → Option (Network × List ℚ)
  | nw, _, 0 => some (nw, [])
  | nw, start, count + 1 =>
    match getValueF A fuel nw li start with
    | none => none
    | some (nw2, v) =>
      match evalRange A fuel li nw2 (start + 1) count with
      | none => none
      | some (nw3, vs) => some (nw3, v :: vs)

/-- `Network::get_outputs`: values of the last layer in index order
(`none` when there are no layers, modelling `last_layer()`'s `expect`). -/
def Network.get_outputs (A : Act) (fuel : ℕ) (nw : Network) : Option (Network × List ℚ) :=
  match nw.layers.length with
  | 0 => none
  | L + 1 => evalRange A fuel L nw 0 ((nw.layers.getD L []).length)

/-- `Network::get_output`: `last_layer()[i].get_value(&self)`. -/
def Network.get_output (A : Act) (fuel : ℕ) (nw : Network) (i : ℕ) : Option (Network × ℚ) :=
  match nw.layers.length with
  | 0 => none
  | L + 1 => getValueF A fuel nw L i

/-- `Network::get_current_cost`: asserts the expected length matches the
last layer, then sums `error_f(expected[i], node.get_value())`. -/
def Network.get_current_cost (A : Act) (fuel : ℕ) (nw : Network) (expected : List ℚ) :
    Option (Network × ℚ) :=
  match nw.layers.length with
  | 0 => none
  | L + 1 =>
    if (nw.layers.getD L []).length = expected.length then
      match evalRange A fuel L nw 0 ((nw.layers.getD L []).length) with
      | none => none
      | some (nw2, outs) => some (nw2, ((expected.zip outs).map (fun p => error_f p.1 p.2)).sum)
    else none

/-- The per-weight loop of `Node::calc_nudge` for the node at `(li, ni)`
whose `layer` field is `layerIdx`: for each weight index `i`, pull the
previous-layer value, add `base * value` to `inp_w_nudge_sum[i]` (`none`
models the index panic when `inp_w_nudge_sum` is too short), and — only
when `layerIdx > 1` — add `base * inp_w[i]` directly into the previous
node's `requested_nudge` after the `try_into_ref::<Node>().unwrap()`
downcast (`none` when that node is not a compute node). -/
def calcNudgeLoop (A : Act) (fuel li ni layerIdx : ℕ) (base : ℚ) :
    Network → List ℚ → ℕ → Option Network
  | nw, [], _ => some nw
  | nw, w :: rest, i =>
    match getValueF A fuel nw (layerIdx - 1) i with
    | none => none
    | some (nw2, v) =>
      match (nw2.mainAt li ni).bind (fun n => n.inp_w_nudge_sum[i]?) with
      | none => none
      | some _ =>
        let nw3 := nw2.modifyMain li ni (fun n =>
          { n with inp_w_nudge_sum := listModify (fun x => x + base * v) i n.inp_w_nudge_sum })
        if 1 < layerIdx then
          match nw3.mainAt (layerIdx - 1) i with
          | none => none
          | some _ =>
            calcNudgeLoop A fuel li ni layerIdx base
              (nw3.modifyMain (layerIdx - 1) i (fun m =>
                { m with requested_nudge := m.requested_nudge + base * w })) rest (i + 1)
        else
          calcNudgeLoop A fuel li ni layerIdx base nw3 rest (i + 1)

/-- `Node::calc_nudge` for the node at `(li, ni)`:
`d_sig = get_sum().sig_deriv()`;
`base = requested_nudge * d_sig * learning_rate`;
`bias_nudge_sum += base`; the per-weight loop; `nudge_cnt += 1`. -/
def calcNudge (A : Act) (fuel : ℕ) (nw : Network) (li ni : ℕ) : Option Network :=
  match getSumF A fuel nw li ni with
  | none => none
  | some (nw1, s) =>
    match nw1.mainAt li ni with
    | none => none
    | some n =>
      let base := n.requested_nudge * A.sigDeriv s * nw1.config.learning_rate
      let nw2 := nw1.modifyMain li ni (fun m =>
        { m with bias_nudge_sum := m.bias_nudge_sum + base })
      match calcNudgeLoop A fuel li ni n.layer base nw2 n.inp_w 0 with
      | none => none
      | some nw3 => some (nw3.modifyMain li ni (fun m => { m with nudge_cnt := m.nudge_cnt + 1 }))

/-- The seeding loop of `Network::request_nudges_end`: for last-layer index
`i`, `want_nudge = error_deriv(outputs[i], expected[i])` negated
(`*= -1.0`), delivered through `request_nudge` on the
`try_into_ref::<Node>().unwrap()` downcast.  `expected[i]` out of bounds
panics (`none`). -/
def seedLoop (L : ℕ) (outputs expected : List ℚ) : Network → ℕ → ℕ → Option Network
  | nw, _, 0 => some nw
  | nw, i, count + 1 =>
    match outputs[i]?, expected[i]? with
    | some o, some e =>
      match nw.mainAt L i with
      | none => none
      | some _ =>
        seedLoop L outputs expected
          (nw.modifyMain L i (fun n => n.request_nudge (error_deriv o e * (-1)))) (i + 1) count
    | _, _ => none

/-- `Network::request_nudges_end`: compute all outputs first, then seed
every last-layer node's pending nudge. -/
def Network.request_nudges_end (A : Act) (fuel : ℕ) (nw : Network) (expected : List ℚ) :
    Option Network :=
  match nw.get_outputs A fuel with
  | none => none
  | some (nw1, outputs) =>
    match nw1.layers.length with
    | 0 => none
    | L + 1 => seedLoop L outputs expected nw1 0 ((nw1.layers.getD L []).length)

/-- One layer of the backward sweep: `calc_nudge` on nodes
`(li, 0), (li, 1), …` in index order. -/
def sweepLayerGo (A : Act) (fuel li : ℕ) : Network → ℕ → ℕ → Option Network
  | nw, _, 0 => some nw
  | nw, ni, count + 1 =>
    match calcNudge A fuel nw li ni with
    | none => none
    | some nw2 => sweepLayerGo A fuel li nw2 (ni + 1) count

/-- The backward sweep of `train_on_current_data`:
`layers.iter().skip(1).rev()` — layers `li, li-1, …, 1`, layer 0 excluded. -/
def sweepDown (A : Act) (fuel : ℕ) : Network → ℕ → Option Network
  | nw, 0 => some nw
  | nw, li + 1 =>
    match sweepLayerGo A fuel (li + 1) nw 0 ((nw.layers.getD (li + 1) []).length) with
    | none => none
    | some nw2 => sweepDown A fuel nw2 li

/-- `Network::train_on_current_data`: `request_nudges_end`, then the
reverse layer sweep calling `calc_nudge` on every compute node. -/
def Network.train_on_current_data (A : Act) (fuel : ℕ) (nw : Network) (expected : List ℚ) :
    Option Network :=
  match nw.request_nudges_end A fuel expected with
  | none => none
  | some nw1 => sweepDown A fuel nw1 (nw1.layers.length - 1)

/-- `Network::train_on_data`: `set_inputs`, `invalidate`,
`train_on_current_data`. -/
def Network.train_on_data (A : Act) (fuel : ℕ) (nw : Network) (data : TrainingExample) :
    Option Network :=
  match nw.set_inputs data.inputs with
  | none => none
  | some nw1 => (nw1.invalidate).train_on_current_data A fuel data.expected

/-- One node of `Network::clear_nudges` / `Network::apply_nudges`:
the `try_into_ref_mut::<Node>().unwrap()` downcast (`none` on a start
node) followed by the node-level operation. -/
def clearNodeStep : AnyNode → Option AnyNode
  | .start _ => none
  | .main n => some (.main n.clear_nudges)

/-- One node of `Network::apply_nudges`: downcast, `apply_nudges`, then
`clear_nudges`. -/
def applyNodeStep : AnyNode → Option AnyNode
  | .start _ => none
  | .main n => (n.apply_nudges).map (fun n2 => AnyNode.main n2.clear_nudges)

/-- Fallible in-order map, mirroring a `for_each` whose body can panic. -/
def mapOptList {α : Type} (g : α → Option α) : List α → Option (List α)
  | [] => some []
  | a :: rest =>
    match g a with
    | none => none
    | some b => (mapOptList g rest).map (fun r => b :: r)

/-- Traverse every node of every layer with a fallible per-node step. -/
def mapNodesM (g : AnyNode → Option AnyNode) (lls : List (List AnyNode)) :
    Option (List (List AnyNode)) :=
  mapOptList (mapOptList g) lls

/-- `Network::clear_nudges`: `clear_nudges` on every node of every layer
except layer 0. -/
def Network.clear_nudges (nw : Network) : Option Network :=
  match nw.layers with
  | [] => some nw
  | l0 :: rest => (mapNodesM clearNodeStep rest).map (fun r => { nw with layers := l0 :: r })

/-- `Network::apply_nudges`: for every node of every layer except layer 0,
`apply_nudges` then `clear_nudges`. -/
def Network.apply_nudges (nw : Network) : Option Network :=
  match nw.layers with
  | [] => some nw
  | l0 :: rest => (mapNodesM applyNodeStep rest).map (fun r => { nw with layers := l0 :: r })

/-- The example loop of `Network::train_on_batch`. -/
def trainFold (A : Act) (fuel : ℕ) : Network → List TrainingExample → Option Network
  | nw, [] => some nw
  | nw, ex :: rest =>
    match nw.train_on_data A fuel ex with
    | none => none
    | some nw1 => trainFold A fuel nw1 rest

/-- `Network::train_on_batch`: `train_on_data` on every example of the
batch in order (no clearing in between), then a single `apply_nudges`. -/
def Network.train_on_batch (A : Act) (fuel : ℕ) (nw : Network) (batch : List TrainingExample) :
    Option Network :=
  match trainFold A fuel nw batch with
  | none => none
  | some nw1 => nw1.apply_nudges

/-- `Network::train_on_batches`. -/
def Network.train_on_batches (A : Act) (fuel : ℕ) :
    Network → List (List TrainingExample) → Option Network
  | nw, [] => some nw
  | nw, b :: rest =>
    match nw.train_on_batch A fuel b with
    | none => none
    | some nw1 => nw1.train_on_batches A fuel rest

/-- `Node::set_weight` on the node at `(li, ni)`: `inp_w[wi] = v`,
panicking (`none`) on an out-of-range weight index. -/
def Network.set_weight (nw : Network) (li ni wi : ℕ) (v : ℚ) : Option Network :=
  match nw.mainAt li ni with
  | none => none
  | some n =>
    match n.inp_w[wi]? with
    | none => none
    | some _ => some (nw.modifyMain li ni (fun m => { m with inp_w := listModify (fun _ => v) wi m.inp_w }))

/-! ## Basic lemmas about the state-update helpers -/

theorem listModify_nil {α : Type} (g : α → α) (i : ℕ) : listModify g i [] = [] := by
  cases i <;> rfl

theorem listModify_getElem? {α : Type} (g : α → α) (i j : ℕ) (l : List α) :
    (listModify g i l)[j]? = if i = j then l[j]?.map g else l[j]? := by
  induction l generalizing i j with
  | nil => rw [listModify_nil]; cases i <;> cases j <;> simp
  | cons a as ih =>
    cases i with
    | zero => cases j <;> simp [listModify]
    | succ i =>
      cases j with
      | zero => simp [listModify]
      | succ j => simpa [listModify] using ih i j

theorem listModify_length {α : Type} (g : α → α) (i : ℕ) (l : List α) :
    (listModify g i l).length = l.length := by
  induction l generalizing i with
  | nil => rw [listModify_nil]
  | cons a as ih => cases i <;> simp [listModify, ih]

theorem map_listModify_eq_of {α β : Type} (f : α → β) (g : α → α)
    (h : ∀ a, f (g a) = f a) (i : ℕ) (l : List α) :
    (listModify g i l).map f = l.map f := by
  induction l generalizing i with
  | nil => rw [listModify_nil]
  | cons a as ih => cases i <;> simp [listModify, h, ih]

theorem get_node_modifyMain (nw : Network) (li ni : ℕ) (g : Node → Node) (lj nj : ℕ) :
    (nw.modifyMain li ni g).get_node lj nj =
      if li = lj ∧ ni = nj then (nw.get_node lj nj).map (mapMainNode g)
      else nw.get_node lj nj := by
  unfold Network.modifyMain Network.get_node
  simp only [listModify_getElem?]
  by_cases h1 : li = lj
  · subst h1
    cases hl : nw.layers[li]? with
    | none => simp [hl]
    | some l =>
      simp only [hl, if_pos rfl, Option.map_some', Option.bind_some, listModify_getElem?]
      by_cases h2 : ni = nj
      · subst h2; simp [listModify_getElem?]
      · simp [listModify_getElem?, h2]
  · simp [h1]

theorem mainAt_modifyMain (nw : Network) (li ni : ℕ) (g : Node → Node) (lj nj : ℕ) :
    (nw.modifyMain li ni g).mainAt lj nj =
      if li = lj ∧ ni = nj then (nw.mainAt lj nj).map g else nw.mainAt lj nj := by
  unfold Network.mainAt
  rw [get_node_modifyMain]
  by_cases h : li = lj ∧ ni = nj
  · simp only [h, if_pos]
    cases hn : nw.get_node lj nj with
    | none => rfl
    | some a => cases a <;> simp [mapMainNode]
  · simp [h]

theorem layers_length_modifyMain (nw : Network) (li ni : ℕ) (g : Node → Node) :
    (nw.modifyMain li ni g).layers.length = nw.layers.length := by
  simp [Network.modifyMain, listModify_length]

theorem config_modifyMain (nw : Network) (li ni : ℕ) (g : Node → Node) :
    (nw.modifyMain li ni g).config = nw.config := rfl

/-! ## The cacheless projection

Evaluation (`get_value` / `get_sum`) writes only the two caches.  The
master frame lemma states that it preserves the network with all caches
erased; every fact about non-cache fields follows. -/

/-- Erase a compute node's caches. -/
def Node.stripCaches (n : Node) : Node := { n with sum_cache := none, result_cache := none }

/-- Erase an arbitrary node's caches. -/
def AnyNode.stripCaches : AnyNode → AnyNode
  | .start s => .start s
  | .main n => .main n.stripCaches

/-- The whole network with every cache erased. -/
def Network.cacheless (nw : Network) : Network :=
  { nw with layers := nw.layers.map (List.map AnyNode.stripCaches) }

theorem cacheless_modifyMain_of (nw : Network) (li ni : ℕ) (g : Node → Node)
    (hg : ∀ n, (g n).stripCaches = n.stripCaches) :
    (nw.modifyMain li ni g).cacheless = nw.cacheless := by
  unfold Network.cacheless Network.modifyMain
  simp only
  congr 1
  apply map_listModify_eq_of
  intro l
  apply map_listModify_eq_of
  intro a
  cases a with
  | start s => rfl
  | main n => simp [mapMainNode, AnyNode.stripCaches, hg]

theorem cacheless_setSumCache (nw : Network) (li ni : ℕ) (v : Option ℚ) :
    (nw.setSumCache li ni v).cacheless = nw.cacheless := by
  apply cacheless_modifyMain_of
  intro n
  rfl

theorem cacheless_setResultCache (nw : Network) (li ni : ℕ) (v : Option ℚ) :
    (nw.setResultCache li ni v).cacheless = nw.cacheless := by
  apply cacheless_modifyMain_of
  intro n
  rfl

theorem sumChildren_cacheless
    (ev : Network → ℕ → ℕ → Option (Network × ℚ))
    (hev : ∀ nw li ni nw' v, ev nw li ni = some (nw', v) → nw'.cacheless = nw.cacheless)
    (layer : ℕ) :
    ∀ (ws : List ℚ) (i : ℕ) (nw nw' : Network) (s : ℚ),
      sumChildren ev layer nw ws i = some (nw', s) → nw'.cacheless = nw.cacheless := by
  intro ws
  induction ws with
  | nil =>
    intro i nw nw' s h
    simp only [sumChildren] at h
    cases h
    rfl
  | cons w rest ih =>
    intro i nw nw' s h
    simp only [sumChildren] at h
    cases h1 : ev nw (layer - 1) i with
    | none => simp only [h1] at h; exact Option.noConfusion h
    | some p =>
      obtain ⟨nw2, x⟩ := p
      simp only [h1] at h
      cases h2 : sumChildren ev layer nw2 rest (i + 1) with
      | none => simp only [h2] at h; exact Option.noConfusion h
      | some q =>
        obtain ⟨nw3, s3⟩ := q
        simp only [h2, Option.some.injEq, Prod.mk.injEq] at h
        obtain ⟨h3, h4⟩ := h
        subst h3
        exact (ih (i + 1) nw2 nw3 s3 h2).trans (hev nw (layer - 1) i nw2 x h1)

theorem getSumGiven_cacheless
    (ev : Network → ℕ → ℕ → Option (Network × ℚ))
    (hev : ∀ nw li ni nw' v, ev nw li ni = some (nw', v) → nw'.cacheless = nw.cacheless)
    (nw : Network) (li ni : ℕ) (nw' : Network) (s : ℚ)
    (h : getSumGiven ev nw li ni = some (nw', s)) : nw'.cacheless = nw.cacheless := by
  unfold getSumGiven at h
  cases hn : nw.get_node li ni with
  | none => simp only [hn] at h; exact Option.noConfusion h
  | some a =>
    cases a with
    | start s0 => simp only [hn] at h; exact Option.noConfusion h
    | main n =>
      simp only [hn] at h
      cases hc : n.sum_cache with
      | some cached =>
        simp only [hc, Option.some.injEq, Prod.mk.injEq] at h
        obtain ⟨h3, h4⟩ := h
        subst h3
        rfl
      | none =>
        simp only [hc] at h
        cases h2 : sumChildren ev n.layer nw n.inp_w 0 with
        | none => simp only [h2] at h; exact Option.noConfusion h
        | some q =>
          obtain ⟨nw2, s2⟩ := q
          simp only [h2, Option.some.injEq, Prod.mk.injEq] at h
          obtain ⟨h3, h4⟩ := h
          subst h3
          exact (cacheless_setSumCache nw2 li ni _).trans
            (sumChildren_cacheless ev hev n.layer n.inp_w 0 nw nw2 s2 h2)

theorem getValueF_cacheless (A : Act) :
    ∀ (fuel : ℕ) (nw : Network) (li ni : ℕ) (nw' : Network) (v : ℚ),
      getValueF A fuel nw li ni = some (nw', v) → nw'.cacheless = nw.cacheless := by
  intro fuel
  induction fuel with
  | zero => intro nw li ni nw' v h; simp only [getValueF] at h; exact Option.noConfusion h
  | succ f ih =>
    intro nw li ni nw' v h
    simp only [getValueF] at h
    cases hn : nw.get_node li ni with
    | none => simp only [hn] at h; exact Option.noConfusion h
    | some a =>
      cases a with
      | start s =>
        simp only [hn, Option.some.injEq, Prod.mk.injEq] at h
        obtain ⟨h3, h4⟩ := h
        subst h3
        rfl
      | main n =>
        simp only [hn] at h
        cases hc : n.result_cache with
        | some cached =>
          simp only [hc, Option.some.injEq, Prod.mk.injEq] at h
          obtain ⟨h3, h4⟩ := h
          subst h3
          rfl
        | none =>
          simp only [hc] at h
          cases h2 : getSumGiven (getValueF A f) nw li ni with
          | none => simp only [h2] at h; exact Option.noConfusion h
          | some q =>
            obtain ⟨nw2, s2⟩ := q
            simp only [h2, Option.some.injEq, Prod.mk.injEq] at h
            obtain ⟨h3, h4⟩ := h
            subst h3
            exact (cacheless_setResultCache nw2 li ni _).trans
              (getSumGiven_cacheless (getValueF A f) ih nw li ni nw2 s2 h2)

theorem getSumF_cacheless (A : Act) (fuel : ℕ) (nw : Network) (li ni : ℕ)
    (nw' : Network) (s : ℚ) (h : getSumF A fuel nw li ni = some (nw', s)) :
    nw'.cacheless = nw.cacheless :=
  getSumGiven_cacheless (getValueF A fuel) (getValueF_cacheless A fuel) nw li ni nw' s h

/-! ## Observers and their congruence under the cacheless projection -/

/-- Observer: `nudge_cnt` of the compute node at a position. -/
def Network.cntAt (nw : Network) (li ni : ℕ) : Option ℕ :=
  (nw.mainAt li ni).map Node.nudge_cnt

/-- Observer: `requested_nudge` (pending nudge) at a position. -/
def Network.reqAt (nw : Network) (li ni : ℕ) : Option ℚ :=
  (nw.mainAt li ni).map Node.requested_nudge

/-- Observer: `bias_nudge_sum` at a position. -/
def Network.biasSumAt (nw : Network) (li ni : ℕ) : Option ℚ :=
  (nw.mainAt li ni).map Node.bias_nudge_sum

/-- Observer: `inp_w_nudge_sum` at a position. -/
def Network.wSumsAt (nw : Network) (li ni : ℕ) : Option (List ℚ) :=
  (nw.mainAt li ni).map Node.inp_w_nudge_sum

/-- Observer: both caches at a position. -/
def Network.cacheAt (nw : Network) (li ni : ℕ) : Option (Option ℚ × Option ℚ) :=
  (nw.mainAt li ni).map (fun n => (n.sum_cache, n.result_cache))

theorem get_node_cacheless (nw : Network) (li ni : ℕ) :
    (nw.cacheless).get_node li ni = (nw.get_node li ni).map AnyNode.stripCaches := by
  unfold Network.cacheless Network.get_node
  simp only [List.getElem?_map]
  cases nw.layers[li]? with
  | none => rfl
  | some l => simp [List.getElem?_map]

theorem get_node_strip_congr {nw nw₂ : Network} (h : nw.cacheless = nw₂.cacheless)
    (li ni : ℕ) :
    (nw.get_node li ni).map AnyNode.stripCaches =
      (nw₂.get_node li ni).map AnyNode.stripCaches := by
  rw [← get_node_cacheless, ← get_node_cacheless, h]

theorem mainAt_strip_congr {nw nw₂ : Network} (h : nw.cacheless = nw₂.cacheless)
    (li ni : ℕ) :
    (nw.mainAt li ni).map Node.stripCaches = (nw₂.mainAt li ni).map Node.stripCaches := by
  have hg := get_node_strip_congr h li ni
  unfold Network.mainAt
  cases h1 : nw.get_node li ni with
  | none =>
    rw [h1] at hg
    cases h2 : nw₂.get_node li ni with
    | none => rfl
    | some a => rw [h2] at hg; exact Option.noConfusion hg
  | some a =>
    rw [h1] at hg
    cases h2 : nw₂.get_node li ni with
    | none => rw [h2] at hg; exact Option.noConfusion hg
    | some b =>
      rw [h2] at hg
      simp only [Option.map_some', Option.some.injEq] at hg
      cases a with
      | start s1 =>
        cases b with
        | start s2 => rfl
        | main n2 => exact AnyNode.noConfusion hg
      | main n1 =>
        cases b with
        | start s2 => exact AnyNode.noConfusion hg
        | main n2 =>
          simp only [AnyNode.stripCaches, AnyNode.main.injEq] at hg
          simp [hg]

theorem mainAt_map_congr {β : Type} {nw nw₂ : Network} (h : nw.cacheless = nw₂.cacheless)
    (li ni : ℕ) (f : Node → β) (hf : ∀ n, f n.stripCaches = f n) :
    (nw.mainAt li ni).map f = (nw₂.mainAt li ni).map f := by
  have hs := mainAt_strip_congr h li ni
  have e1 : ∀ o : Option Node, o.map f = (o.map Node.stripCaches).map f := by
    intro o
    cases o with
    | none => rfl
    | some n => simp [hf]
  calc (nw.mainAt li ni).map f
      = ((nw.mainAt li ni).map Node.stripCaches).map f := e1 _
    _ = ((nw₂.mainAt li ni).map Node.stripCaches).map f := by rw [hs]
    _ = (nw₂.mainAt li ni).map f := (e1 _).symm

theorem cntAt_congr {nw nw₂ : Network} (h : nw.cacheless = nw₂.cacheless) (li ni : ℕ) :
    nw.cntAt li ni = nw₂.cntAt li ni :=
  mainAt_map_congr h li ni Node.nudge_cnt (fun _ => rfl)

theorem reqAt_congr {nw nw₂ : Network} (h : nw.cacheless = nw₂.cacheless) (li ni : ℕ) :
    nw.reqAt li ni = nw₂.reqAt li ni :=
  mainAt_map_congr h li ni Node.requested_nudge (fun _ => rfl)

theorem biasSumAt_congr {nw nw₂ : Network} (h : nw.cacheless = nw₂.cacheless) (li ni : ℕ) :
    nw.biasSumAt li ni = nw₂.biasSumAt li ni :=
  mainAt_map_congr h li ni Node.bias_nudge_sum (fun _ => rfl)

theorem wSumsAt_congr {nw nw₂ : Network} (h : nw.cacheless = nw₂.cacheless) (li ni : ℕ) :
    nw.wSumsAt li ni = nw₂.wSumsAt li ni :=
  mainAt_map_congr h li ni Node.inp_w_nudge_sum (fun _ => rfl)

theorem config_cacheless_congr {nw nw₂ : Network} (h : nw.cacheless = nw₂.cacheless) :
    nw.config = nw₂.config := by
  have : nw.cacheless.config = nw₂.cacheless.config := by rw [h]
  simpa [Network.cacheless] using this

theorem layers_length_cacheless_congr {nw nw₂ : Network} (h : nw.cacheless = nw₂.cacheless) :
    nw.layers.length = nw₂.layers.length := by
  have : nw.cacheless.layers.length = nw₂.cacheless.layers.length := by rw [h]
  simpa [Network.cacheless] using this

theorem layer_length_cacheless_congr {nw nw₂ : Network} (h : nw.cacheless = nw₂.cacheless)
    (li : ℕ) : (nw.layers.map List.length)[li]? = (nw₂.layers.map List.length)[li]? := by
  have e : ∀ m : Network, (m.layers.map List.length)[li]? =
      (m.cacheless.layers.map List.length)[li]? := by
    intro m
    simp only [Network.cacheless, List.map_map, List.getElem?_map]
    cases m.layers[li]? <;> simp
  calc (nw.layers.map List.length)[li]?
      = (nw.cacheless.layers.map List.length)[li]? := e nw
    _ = (nw₂.cacheless.layers.map List.length)[li]? := by rw [h]
    _ = (nw₂.layers.map List.length)[li]? := (e nw₂).symm

/-! ## Claim C2: apply with an empty accumulator -/

/-- C2.  The claim states that invoking `apply_nudges` with
`nudge_count == 0` is an explicitly guarded, reported fatal error.  The
source has NO such guard: `Node::apply_nudges` computes
`inv_cnt = 1.0 / (nudge_cnt as f64)` unconditionally and
`Network::apply_nudges` performs no check either.  This theorem evaluates
the embedded code at the failing input — a freshly constructed `[1, 1]`
network whose single compute node has seen zero training examples
(`nudge_cnt = 0`) — and shows that the network-level `apply_nudges`
SUCCEEDS (returns `some`, i.e. raises no error) instead of failing. -/
theorem C2_zero_count_apply_not_guarded :
    (Network.new [1, 1]).map
      (fun nw => ((nw.mainAt 1 0).map Node.nudge_cnt, nw.apply_nudges.isSome)) =
      some (some 0, true) := by decide

/-! ## Claim C8: construction -/

/-- The layer list prescribed by the spec for `new`/`with_config`: one
layer per shape entry in order; layer 0 holds `shape[0]` input nodes of
value 0; every layer `i ≥ 1` holds `shape[i]` compute nodes with bias 0,
layer index `i` and a zero-filled weight vector of length `shape[i-1]`.
Stated from the spec's words, for comparison with `Network.with_config`. -/
def specLayers (shape : List ℕ) : List (List AnyNode) :=
  (List.range shape.length).map (fun i =>
    if i = 0 then
      List.replicate (shape.getD 0 0) (AnyNode.start ⟨0⟩)
    else
      List.replicate (shape.getD i 0)
        (AnyNode.main (Node.new 0 (List.replicate (shape.getD (i - 1) 0) 0) i)))

theorem range_map_const {β : Type} (n : ℕ) (c : β) :
    (List.range n).map (fun _ => c) = List.replicate n c := by
  induction n with
  | zero => rfl
  | succ n ih =>
    rw [List.range_succ, List.map_append, ih, List.replicate_succ']
    rfl

/-- Characterization of `with_config` as an equality with the spec-side
constructor (shared helper). -/
theorem with_config_eq :
    (∀ shape : List ℕ,
      Network.new shape = Network.with_config { learning_rate := 1, shape := shape }) ∧
    (∀ config : NetworkConfig,
      Network.with_config config =
        if 2 ≤ config.shape.length then
          some { layers := specLayers config.shape, config := config }
        else none) := by
  constructor
  · intro shape
    rfl
  · intro config
    unfold Network.with_config
    by_cases h : 2 ≤ config.shape.length
    · rw [if_pos h, if_pos h]
      congr 2
      apply List.ext_getElem?
      intro i
      unfold specLayers
      simp only [List.getElem?_map, List.getElem?_enum, List.getElem?_range]
      rcases Nat.lt_or_ge i config.shape.length with hi | hi
      · have hsome : config.shape[i]? = some (config.shape.getD i 0) := by
          rw [List.getElem?_eq_getElem hi, List.getD_eq_getElem?_getD,
            List.getElem?_eq_getElem hi]
          rfl
        rw [hsome, List.getElem?_range hi]
        simp only [Option.map_some', Option.some.injEq]
        by_cases h0 : i = 0 <;> simp [h0, range_map_const]
      · have hnone : config.shape[i]? = none := List.getElem?_eq_none hi
        have hrnone : (List.range config.shape.length)[i]? = none :=
          List.getElem?_eq_none (by simpa using hi)
        rw [hnone, hrnone]
        rfl
    · rw [if_neg h, if_neg h]

/-- C8.  `new(shape)` is `with_config` with the default learning rate 1;
`with_config(config)` fails exactly when the shape has fewer than two
entries, and otherwise produces the layer structure the spec prescribes
(`specLayers`): one layer per shape entry in order, layer 0 holding
`shape[0]` input nodes of value 0, every layer `i ≥ 1` holding `shape[i]`
compute nodes with bias 0, layer index `i` and a zero-filled weight vector
of length `shape[i-1]`. -/
theorem C8_with_config_characterization :
    (∀ shape : List ℕ,
      Network.new shape = Network.with_config { learning_rate := 1, shape := shape }) ∧
    (∀ config : NetworkConfig,
      Network.with_config config =
        if 2 ≤ config.shape.length then
          some { layers := specLayers config.shape, config := config }
        else none) :=
  with_config_eq

/-! ## Lemmas about the network-level apply/clear traversal -/

theorem mapOptList_getElem? {α : Type} (g : α → Option α) :
    ∀ (l l' : List α), mapOptList g l = some l' → ∀ j : ℕ, l'[j]? = l[j]?.bind g := by
  intro l
  induction l with
  | nil =>
    intro l' h j
    simp only [mapOptList, Option.some.injEq] at h
    subst h
    rfl
  | cons a rest ih =>
    intro l' h j
    simp only [mapOptList] at h
    cases h1 : g a with
    | none => simp only [h1] at h; exact Option.noConfusion h
    | some b =>
      simp only [h1] at h
      cases h2 : mapOptList g rest with
      | none => simp only [h2] at h; exact Option.noConfusion h
      | some r =>
        simp only [h2, Option.map_some', Option.some.injEq] at h
        subst h
        cases j with
        | zero => simp [h1]
        | succ j => simpa using ih r h2 j

theorem mapOptList_length {α : Type} (g : α → Option α) :
    ∀ (l l' : List α), mapOptList g l = some l' → l'.length = l.length := by
  intro l
  induction l with
  | nil =>
    intro l' h
    simp only [mapOptList, Option.some.injEq] at h
    subst h
    rfl
  | cons a rest ih =>
    intro l' h
    simp only [mapOptList] at h
    cases h1 : g a with
    | none => simp only [h1] at h; exact Option.noConfusion h
    | some b =>
      simp only [h1] at h
      cases h2 : mapOptList g rest with
      | none => simp only [h2] at h; exact Option.noConfusion h
      | some r =>
        simp only [h2, Option.map_some', Option.some.injEq] at h
        subst h
        simp [ih r h2]

/-- Positionwise description of `Network::apply_nudges`: layer 0 is left
alone; the node at `(li+1, ni)` becomes `applyNodeStep` of the old node. -/
theorem apply_nudges_get_node {nw nw' : Network} (h : nw.apply_nudges = some nw') :
    nw'.config = nw.config ∧ nw'.layers.length = nw.layers.length ∧
    (∀ ni, nw'.get_node 0 ni = nw.get_node 0 ni) ∧
    (∀ li ni, nw'.get_node (li + 1) ni = (nw.get_node (li + 1) ni).bind applyNodeStep) := by
  unfold Network.apply_nudges at h
  cases hl : nw.layers with
  | nil =>
    rw [hl] at h
    simp only [Option.some.injEq] at h
    subst h
    refine ⟨rfl, by rw [hl], fun ni => rfl, fun li ni => ?_⟩
    simp [Network.get_node, hl]
  | cons l0 rest =>
    rw [hl] at h
    unfold mapNodesM at h
    cases h2 : mapOptList (mapOptList applyNodeStep) rest with
    | none => simp only [h2] at h; exact Option.noConfusion h
    | some r =>
      simp only [h2, Option.map_some', Option.some.injEq] at h
      subst h
      refine ⟨rfl, ?_, fun ni => ?_, fun li ni => ?_⟩
      · simp [hl, mapOptList_length _ rest r h2]
      · simp [Network.get_node, hl]
      · simp only [Network.get_node, hl]
        have hr := mapOptList_getElem? (mapOptList applyNodeStep) rest r h2 li
        simp only [List.getElem?_cons_succ, hr]
        cases h3 : rest[li]? with
        | none => rfl
        | some l =>
          simp only [Option.some_bind]
          cases h4 : mapOptList applyNodeStep l with
          | none =>
            exfalso
            have hlen := mapOptList_length _ rest r h2
            have hlt : li < rest.length := by
              rcases Nat.lt_or_ge li rest.length with hlt | hge
              · exact hlt
              · rw [List.getElem?_eq_none hge] at h3; exact Option.noConfusion h3
            have hrs : r[li]? = none := by rw [hr, h3, Option.some_bind, h4]
            rw [List.getElem?_eq_getElem (by omega)] at hrs
            exact Option.noConfusion hrs
          | some l2 =>
            simp only [Option.some_bind]
            exact mapOptList_getElem? applyNodeStep l l2 h4 ni

/-- Decidable check that a compute node's gradient-accumulator state is
fully reset. -/
def Node.clearedb (n : Node) : Bool :=
  decide (n.nudge_cnt = 0) && decide (n.bias_nudge_sum = 0) &&
    n.inp_w_nudge_sum.all (fun x => decide (x = 0)) && decide (n.requested_nudge = 0)

theorem clearedb_clear_nudges (n : Node) : n.clear_nudges.clearedb = true := by
  simp [Node.clearedb, Node.clear_nudges, List.all_eq_true, List.mem_replicate]

/-! ## Claim C5: post-apply and post-construction reset -/

/-- C5.  After a successful network-level `apply_nudges`, every compute
node sitting in a layer `li + 1 ≥ 1` (on any constructible network those
are exactly all compute nodes) has `nudge_cnt = 0`, `bias_nudge_sum = 0`,
every `inp_w_nudge_sum` entry `= 0` and `requested_nudge = 0`; the same
holds immediately after construction by `with_config` (hence by `new`). -/
theorem C5_reset_after_apply_and_construction :
    (∀ nw nw' : Network, nw.apply_nudges = some nw' →
      ∀ li ni n, nw'.mainAt (li + 1) ni = some n → n.clearedb = true) ∧
    (∀ (config : NetworkConfig) (nw : Network), Network.with_config config = some nw →
      ∀ li ni n, nw.mainAt li ni = some n → n.clearedb = true) := by
  constructor
  · intro nw nw' h li ni n hm
    have h4 := (apply_nudges_get_node h).2.2.2 li ni
    unfold Network.mainAt at hm
    cases hg : nw'.get_node (li + 1) ni with
    | none => rw [hg] at hm; exact Option.noConfusion hm
    | some a =>
      rw [hg] at hm
      cases a with
      | start s => exact Option.noConfusion hm
      | main m =>
        simp only [Option.some.injEq] at hm
        subst hm
        rw [hg] at h4
        cases hb : nw.get_node (li + 1) ni with
        | none => rw [hb] at h4; exact Option.noConfusion h4
        | some b =>
          rw [hb] at h4
          cases b with
          | start s2 => simp [applyNodeStep] at h4
          | main m2 =>
            simp only [Option.some_bind, applyNodeStep] at h4
            cases h5 : m2.apply_nudges with
            | none => rw [h5] at h4; exact Option.noConfusion h4
            | some m3 =>
              rw [h5] at h4
              simp only [Option.map_some', Option.some.injEq, AnyNode.main.injEq] at h4
              rw [h4]
              exact clearedb_clear_nudges m3
  · intro config nw h li ni n hm
    rw [with_config_eq.2 config] at h
    by_cases hc : 2 ≤ config.shape.length
    · rw [if_pos hc] at h
      simp only [Option.some.injEq] at h
      subst h
      unfold Network.mainAt Network.get_node at hm
      simp only at hm
      cases hl : (specLayers config.shape)[li]? with
      | none => rw [hl] at hm; exact Option.noConfusion hm
      | some l =>
        rw [hl] at hm
        simp only [Option.some_bind] at hm
        cases hn : l[ni]? with
        | none => rw [hn] at hm; exact Option.noConfusion hm
        | some a =>
          rw [hn] at hm
          unfold specLayers at hl
          simp only [List.getElem?_map] at hl
          cases hr : (List.range config.shape.length)[li]? with
          | none => rw [hr] at hl; exact Option.noConfusion hl
          | some i0 =>
            rw [hr] at hl
            simp only [Option.map_some', Option.some.injEq] at hl
            subst hl
            by_cases h0 : i0 = 0
            · subst h0
              simp only [if_pos rfl] at hn
              cases a with
              | start s => exact Option.noConfusion hm
              | main m =>
                have := List.eq_of_mem_replicate (List.getElem?_mem hn)
                exact AnyNode.noConfusion this
            · simp only [if_neg h0] at hn
              cases a with
              | start s => exact Option.noConfusion hm
              | main m =>
                simp only [Option.some.injEq] at hm
                subst hm
                have := List.eq_of_mem_replicate (List.getElem?_mem hn)
                have hmn : m = Node.new 0 (List.replicate (config.shape.getD (i0 - 1) 0) 0) i0 := by
                  injection this
                subst hmn
                simp [Node.clearedb, Node.new, List.all_eq_true, List.mem_replicate]
    · rw [if_neg hc] at h
      exact Option.noConfusion h

/-- Witness for C5 on a concrete `[1, 1]` network. -/
def nw11 : Network :=
  { layers := [[AnyNode.start ⟨0⟩], [AnyNode.main (Node.new 0 [0] 1)]]
    config := { learning_rate := 1, shape := [1, 1] } }

theorem nw11_apply : nw11.apply_nudges = some nw11 := by
  simp [nw11, Network.apply_nudges, mapNodesM, mapOptList, applyNodeStep,
    Node.apply_nudges, applyWeightNudges, Node.clear_nudges, Node.new]

theorem C5_witness :
    nw11.apply_nudges = some nw11 ∧ (Node.new 0 [0] 1).clearedb = true :=
  ⟨nw11_apply, (C5_reset_after_apply_and_construction).1 nw11 nw11 nw11_apply 0 0
    (Node.new 0 [0] 1) (by decide)⟩

/-! ## Claim C10: apply_nudges mutates only bias and weights -/

theorem lt_length_of_getElem?_some {α : Type} {l : List α} {i : ℕ} {a : α}
    (h : l[i]? = some a) : i < l.length := by
  rcases Nat.lt_or_ge i l.length with hlt | hge
  · exact hlt
  · rw [List.getElem?_eq_none hge] at h; exact Option.noConfusion h

/-- Node-level frame of `Node::apply_nudges`: only `bias` and `inp_w`
change. -/
theorem node_apply_frame (n n' : Node) (h : n.apply_nudges = some n') :
    n'.sum_cache = n.sum_cache ∧ n'.result_cache = n.result_cache ∧
    n'.layer = n.layer ∧ n'.bias_nudge_sum = n.bias_nudge_sum ∧
    n'.inp_w_nudge_sum = n.inp_w_nudge_sum ∧ n'.nudge_cnt = n.nudge_cnt ∧
    n'.requested_nudge = n.requested_nudge := by
  simp only [Node.apply_nudges] at h
  cases hw : applyWeightNudges n.inp_w n.inp_w_nudge_sum (1 / (n.nudge_cnt : ℚ)) with
  | none => rw [hw] at h; exact Option.noConfusion h
  | some ws =>
    rw [hw] at h
    simp only [Option.map_some', Option.some.injEq] at h
    subst h
    exact ⟨rfl, rfl, rfl, rfl, rfl, rfl, rfl⟩

/-- Under a successful network-level apply, the per-node step succeeded on
every node of every layer `≥ 1`. -/
theorem apply_nudges_node_success {nw nw' : Network} (h : nw.apply_nudges = some nw')
    {li ni : ℕ} {a : AnyNode} (ha : nw.get_node (li + 1) ni = some a) :
    ∃ b, applyNodeStep a = some b := by
  unfold Network.apply_nudges at h
  cases hl : nw.layers with
  | nil => rw [hl] at h; simp [Network.get_node, hl] at ha
  | cons l0 rest =>
    rw [hl] at h
    unfold mapNodesM at h
    cases h2 : mapOptList (mapOptList applyNodeStep) rest with
    | none => simp only [h2] at h; exact Option.noConfusion h
    | some r =>
      simp only [Network.get_node, hl, List.getElem?_cons_succ] at ha
      cases h3 : rest[li]? with
      | none => rw [h3] at ha; exact Option.noConfusion ha
      | some l =>
        rw [h3, Option.some_bind] at ha
        have hr := mapOptList_getElem? _ rest r h2 li
        rw [h3, Option.some_bind] at hr
        cases h4 : mapOptList applyNodeStep l with
        | none =>
          exfalso
          have hlen := mapOptList_length _ rest r h2
          have hlt : li < rest.length := lt_length_of_getElem?_some h3
          have hrs : r[li]? = none := by rw [hr, h4]
          rw [List.getElem?_eq_getElem (by omega)] at hrs
          exact Option.noConfusion hrs
        | some l2 =>
          have h5 := mapOptList_getElem? applyNodeStep l l2 h4 ni
          rw [ha, Option.some_bind] at h5
          cases h6 : applyNodeStep a with
          | some b => exact ⟨b, rfl⟩
          | none =>
            exfalso
            rw [h6] at h5
            have hlen := mapOptList_length applyNodeStep l l2 h4
            have hni : ni < l.length := lt_length_of_getElem?_some ha
            rw [List.getElem?_eq_getElem (by omega)] at h5
            exact Option.noConfusion h5

/-- C10.  `Node::apply_nudges` mutates only `bias` and the weight vector:
`sum_cache`, `result_cache`, `layer` and all four gradient accumulators are
left untouched; consequently, after a successful network-level
`apply_nudges` (which runs `apply_nudges` then `clear_nudges` on each
compute node, neither of which touches a cache) every node's pair of
caches is exactly what it was before the call — they still hold values
computed from the pre-update parameters until an explicit `invalidate`. -/
theorem C10_apply_frame :
    (∀ n n' : Node, n.apply_nudges = some n' →
      n'.sum_cache = n.sum_cache ∧ n'.result_cache = n.result_cache ∧
      n'.layer = n.layer ∧ n'.bias_nudge_sum = n.bias_nudge_sum ∧
      n'.inp_w_nudge_sum = n.inp_w_nudge_sum ∧ n'.nudge_cnt = n.nudge_cnt ∧
      n'.requested_nudge = n.requested_nudge) ∧
    (∀ nw nw' : Network, nw.apply_nudges = some nw' →
      ∀ li ni, nw'.cacheAt li ni = nw.cacheAt li ni) := by
  refine ⟨node_apply_frame, ?_⟩
  intro nw nw' h li ni
  cases li with
  | zero =>
    have h3 := (apply_nudges_get_node h).2.2.1 ni
    unfold Network.cacheAt Network.mainAt
    rw [h3]
  | succ li =>
    have h4 := (apply_nudges_get_node h).2.2.2 li ni
    unfold Network.cacheAt Network.mainAt
    cases ha : nw.get_node (li + 1) ni with
    | none =>
      rw [ha, Option.none_bind] at h4
      rw [h4]
    | some a =>
      obtain ⟨b, hb⟩ := apply_nudges_node_success h ha
      rw [ha, Option.some_bind, hb] at h4
      rw [h4]
      cases a with
      | start s => simp [applyNodeStep] at hb
      | main m =>
        simp only [applyNodeStep] at hb
        cases h5 : m.apply_nudges with
        | none => rw [h5] at hb; exact Option.noConfusion hb
        | some m3 =>
          rw [h5, Option.map_some'] at hb
          simp only [Option.some.injEq] at hb
          subst hb
          obtain ⟨e1, e2, _⟩ := node_apply_frame m m3 h5
          simp [Node.clear_nudges, e1, e2]

/-- Witness for C10 at a concrete node and network. -/
theorem C10_witness :
    (Node.new 0 [0] 1).apply_nudges = some (Node.new 0 [0] 1) ∧
    nw11.apply_nudges = some nw11 ∧ nw11.cacheAt 1 0 = nw11.cacheAt 1 0 := by
  have hn : (Node.new 0 [0] 1).apply_nudges = some (Node.new 0 [0] 1) := by
    simp [Node.apply_nudges, applyWeightNudges, Node.new]
  exact ⟨hn, nw11_apply, (C10_apply_frame).2 nw11 nw11 nw11_apply 1 0⟩

/-! ## The public operations and the structural skeleton

The spec's invariants quantify over "every sequence of the public
operations".  `PublicOp` enumerates the public mutating/evaluating API of
`Network` and `Node` (state-relevant portion); `applyOp` runs one of them,
projecting away any returned value. -/

inductive PublicOp where
  | opSetInput (i : ℕ) (v : ℚ)
  | opSetInputs (vs : List ℚ)
  | opInvalidate
  | opGetOutput (i : ℕ)
  | opGetOutputs
  | opGetCurrentCost (expected : List ℚ)
  | opRequestNudgesEnd (expected : List ℚ)
  | opTrainOnCurrentData (expected : List ℚ)
  | opTrainOnData (ex : TrainingExample)
  | opTrainOnBatch (batch : List TrainingExample)
  | opTrainOnBatches (batches : List (List TrainingExample))
  | opApplyNudges
  | opClearNudges
  | opNodeGetValue (li ni : ℕ)
  | opNodeGetSum (li ni : ℕ)
  | opNodeCalcNudge (li ni : ℕ)
  | opNodeRequestNudge (li ni : ℕ) (v : ℚ)
  | opNodeInvalidate (li ni : ℕ)
  | opNodeClearNudges (li ni : ℕ)
  | opNodeApplyNudges (li ni : ℕ)
  | opSetWeight (li ni wi : ℕ) (v : ℚ)

/-- `Node::invalidate` invoked on the node at a position (requires the
slot to exist; `NodeLike::invalidate` on a start node is a no-op). -/
def Network.node_invalidate (nw : Network) (li ni : ℕ) : Option Network :=
  match nw.get_node li ni with
  | none => none
  | some _ => some (nw.modifyMain li ni Node.invalidate)

/-- `Node::request_nudge` invoked on the compute node at a position (after
the `unwrap`ped downcast used by all callers in the source). -/
def Network.node_request_nudge (nw : Network) (li ni : ℕ) (v : ℚ) : Option Network :=
  match nw.mainAt li ni with
  | none => none
  | some _ => some (nw.modifyMain li ni (fun n => n.request_nudge v))

/-- `Node::clear_nudges` invoked on the compute node at a position. -/
def Network.node_clear_nudges (nw : Network) (li ni : ℕ) : Option Network :=
  match nw.mainAt li ni with
  | none => none
  | some _ => some (nw.modifyMain li ni Node.clear_nudges)

/-- `Node::apply_nudges` invoked on the compute node at a position. -/
def Network.node_apply_nudges (nw : Network) (li ni : ℕ) : Option Network :=
  match nw.mainAt li ni with
  | none => none
  | some n =>
    match n.apply_nudges with
    | none => none
    | some n2 => some (nw.modifyMain li ni (fun _ => n2))

/-- Run one public operation, keeping only the resulting state. -/
def applyOp (A : Act) (fuel : ℕ) : PublicOp → Network → Option Network
  | .opSetInput i v, nw => nw.set_input i v
  | .opSetInputs vs, nw => nw.set_inputs vs
  | .opInvalidate, nw => some nw.invalidate
  | .opGetOutput i, nw => (nw.get_output A fuel i).map Prod.fst
  | .opGetOutputs, nw => (nw.get_outputs A fuel).map Prod.fst
  | .opGetCurrentCost expected, nw => (nw.get_current_cost A fuel expected).map Prod.fst
  | .opRequestNudgesEnd expected, nw => nw.request_nudges_end A fuel expected
  | .opTrainOnCurrentData expected, nw => nw.train_on_current_data A fuel expected
  | .opTrainOnData ex, nw => nw.train_on_data A fuel ex
  | .opTrainOnBatch batch, nw => nw.train_on_batch A fuel batch
  | .opTrainOnBatches batches, nw => nw.train_on_batches A fuel batches
  | .opApplyNudges, nw => nw.apply_nudges
  | .opClearNudges, nw => nw.clear_nudges
  | .opNodeGetValue li ni, nw => (getValueF A fuel nw li ni).map Prod.fst
  | .opNodeGetSum li ni, nw => (getSumF A fuel nw li ni).map Prod.fst
  | .opNodeCalcNudge li ni, nw => calcNudge A fuel nw li ni
  | .opNodeRequestNudge li ni v, nw => nw.node_request_nudge li ni v
  | .opNodeInvalidate li ni, nw => nw.node_invalidate li ni
  | .opNodeClearNudges li ni, nw => nw.node_clear_nudges li ni
  | .opNodeApplyNudges li ni, nw => nw.node_apply_nudges li ni
  | .opSetWeight li ni wi v, nw => nw.set_weight li ni wi v

/-- Structural skeleton of a node: start nodes carry no weights, compute
nodes are recorded by their weight-vector length. -/
def AnyNode.skel : AnyNode → Option ℕ
  | .start _ => none
  | .main n => some n.inp_w.length

/-- Structural skeleton of the whole network. -/
def Network.skel (nw : Network) : List (List (Option ℕ)) :=
  nw.layers.map (List.map AnyNode.skel)

/-- The weight-length invariant of the spec, checked on the skeleton:
every compute node in layer `li` has exactly one weight per node of layer
`li - 1`. -/
def skelOK (sk : List (List (Option ℕ))) : Bool :=
  (List.range sk.length).all (fun li =>
    (sk.getD li []).all (fun s =>
      match s with
      | none => true
      | some k => decide (k = (sk.getD (li - 1) []).length)))

/-- Decidable form of the spec invariant: no compute node's weight-vector
length differs from the previous layer's size. -/
def Network.weightLenOKb (nw : Network) : Bool := skelOK nw.skel

/-! ## Skeleton preservation by every public operation -/

theorem map_listModify_eq_at {α β : Type} (f : α → β) (g : α → α) (i : ℕ) (l : List α)
    (h : ∀ a, l[i]? = some a → f (g a) = f a) :
    (listModify g i l).map f = l.map f := by
  apply List.ext_getElem?
  intro j
  simp only [List.getElem?_map, listModify_getElem?]
  by_cases hij : i = j
  · subst hij
    cases ha : l[i]? with
    | none => simp
    | some a => simp [h a ha]
  · simp [hij]

theorem mapOptList_map_eq {α β : Type} (g : α → Option α) (f : α → β)
    (hf : ∀ a b, g a = some b → f b = f a) :
    ∀ l l', mapOptList g l = some l' → l'.map f = l.map f := by
  intro l
  induction l with
  | nil =>
    intro l' h
    simp only [mapOptList, Option.some.injEq] at h
    subst h
    rfl
  | cons a rest ih =>
    intro l' h
    simp only [mapOptList] at h
    cases h1 : g a with
    | none => simp only [h1] at h; exact Option.noConfusion h
    | some b =>
      simp only [h1] at h
      cases h2 : mapOptList g rest with
      | none => simp only [h2] at h; exact Option.noConfusion h
      | some r =>
        simp only [h2, Option.map_some', Option.some.injEq] at h
        subst h
        simp [hf a b h1, ih r h2]

theorem skel_cacheless (nw : Network) : nw.cacheless.skel = nw.skel := by
  unfold Network.cacheless Network.skel
  simp only [List.map_map]
  congr 1
  funext l
  simp only [Function.comp_apply, List.map_map]
  congr 1
  funext a
  cases a <;> rfl

theorem skel_congr_cacheless {nw nw₂ : Network} (h : nw.cacheless = nw₂.cacheless) :
    nw.skel = nw₂.skel := by
  rw [← skel_cacheless nw, ← skel_cacheless nw₂, h]

theorem skel_getValueF (A : Act) (fuel : ℕ) {nw nw' : Network} {li ni : ℕ} {v : ℚ}
    (h : getValueF A fuel nw li ni = some (nw', v)) : nw'.skel = nw.skel :=
  skel_congr_cacheless (getValueF_cacheless A fuel nw li ni nw' v h)

theorem skel_getSumF (A : Act) (fuel : ℕ) {nw nw' : Network} {li ni : ℕ} {v : ℚ}
    (h : getSumF A fuel nw li ni = some (nw', v)) : nw'.skel = nw.skel :=
  skel_congr_cacheless (getSumF_cacheless A fuel nw li ni nw' v h)

theorem skel_modifyMain_at (nw : Network) (li ni : ℕ) (g : Node → Node)
    (hg : ∀ n, nw.mainAt li ni = some n → (g n).inp_w.length = n.inp_w.length) :
    (nw.modifyMain li ni g).skel = nw.skel := by
  unfold Network.skel Network.modifyMain
  simp only
  apply map_listModify_eq_at
  intro l hl
  apply map_listModify_eq_at
  intro a ha
  cases a with
  | start s => rfl
  | main n =>
    simp only [mapMainNode, AnyNode.skel, Option.some.injEq]
    apply hg
    unfold Network.mainAt Network.get_node
    rw [hl, Option.some_bind, ha]

theorem skel_modifyMain (nw : Network) (li ni : ℕ) (g : Node → Node)
    (hg : ∀ n, (g n).inp_w.length = n.inp_w.length) :
    (nw.modifyMain li ni g).skel = nw.skel :=
  skel_modifyMain_at nw li ni g (fun n _ => hg n)

theorem skel_invalidate (nw : Network) : nw.invalidate.skel = nw.skel := by
  unfold Network.invalidate Network.skel
  simp only [List.map_append, List.map_map]
  have h2 : ∀ l : List AnyNode,
      (l.map AnyNode.invalidate).map AnyNode.skel = l.map AnyNode.skel := by
    intro l
    rw [List.map_map]
    congr 1
    funext a
    cases a <;> rfl
  have h3 : List.map (List.map AnyNode.skel ∘ List.map AnyNode.invalidate) (nw.layers.drop 1)
      = List.map (List.map AnyNode.skel) (nw.layers.drop 1) := by
    congr 1
    funext l
    exact h2 l
  rw [h3, ← List.map_append, List.take_append_drop]

theorem setStartValues_map_skel :
    ∀ (l : List AnyNode) (vs : List ℚ) (l' : List AnyNode),
      setStartValues l vs = some l' → l'.map AnyNode.skel = l.map AnyNode.skel := by
  intro l
  induction l with
  | nil =>
    intro vs l' h
    cases vs with
    | nil => simp only [setStartValues, Option.some.injEq] at h; subst h; rfl
    | cons v vs => simp only [setStartValues] at h; exact Option.noConfusion h
  | cons a rest ih =>
    intro vs l' h
    cases a with
    | start s =>
      cases vs with
      | nil => simp only [setStartValues] at h; exact Option.noConfusion h
      | cons v vs =>
        simp only [setStartValues] at h
        cases h2 : setStartValues rest vs with
        | none => simp only [h2] at h; exact Option.noConfusion h
        | some r =>
          simp only [h2, Option.map_some', Option.some.injEq] at h
          subst h
          simp [AnyNode.skel, ih vs r h2]
    | main n => simp only [setStartValues] at h; exact Option.noConfusion h

theorem skel_set_inputs {nw nw' : Network} {vs : List ℚ}
    (h : nw.set_inputs vs = some nw') : nw'.skel = nw.skel := by
  unfold Network.set_inputs at h
  cases hl : nw.layers with
  | nil => rw [hl] at h; exact Option.noConfusion h
  | cons l0 rest =>
    rw [hl] at h
    simp only [] at h
    by_cases hlen : vs.length = l0.length
    · rw [if_pos hlen] at h
      cases h2 : setStartValues l0 vs with
      | none => simp only [h2] at h; exact Option.noConfusion h
      | some l0x =>
        simp only [h2, Option.map_some', Option.some.injEq] at h
        subst h
        unfold Network.skel
        simp only [hl, List.map_cons]
        rw [setStartValues_map_skel l0 vs l0x h2]
    · rw [if_neg hlen] at h
      exact Option.noConfusion h

theorem skel_set_input {nw nw' : Network} {i : ℕ} {v : ℚ}
    (h : nw.set_input i v = some nw') : nw'.skel = nw.skel := by
  unfold Network.set_input at h
  cases hg : nw.get_node 0 i with
  | none => rw [hg] at h; exact Option.noConfusion h
  | some a =>
    cases a with
    | main n => rw [hg] at h; exact Option.noConfusion h
    | start s =>
      rw [hg] at h
      simp only [Option.some.injEq] at h
      subst h
      unfold Network.skel
      simp only
      apply map_listModify_eq_at
      intro l hl
      apply map_listModify_eq_at
      intro a ha
      unfold Network.get_node at hg
      rw [hl, Option.some_bind, ha] at hg
      simp only [Option.some.injEq] at hg
      subst hg
      rfl

theorem applyWeightNudges_length :
    ∀ (wns ws : List ℚ) (inv : ℚ) (r : List ℚ),
      applyWeightNudges ws wns inv = some r → r.length = ws.length := by
  intro wns
  induction wns with
  | nil =>
    intro ws inv r h
    cases ws with
    | nil => simp only [applyWeightNudges, Option.some.injEq] at h; subst h; rfl
    | cons w ws => simp only [applyWeightNudges, Option.some.injEq] at h; subst h; rfl
  | cons wn wns ih =>
    intro ws inv r h
    cases ws with
    | nil => simp only [applyWeightNudges] at h; exact Option.noConfusion h
    | cons w ws =>
      simp only [applyWeightNudges] at h
      cases h2 : applyWeightNudges ws wns inv with
      | none => simp only [h2] at h; exact Option.noConfusion h
      | some r2 =>
        simp only [h2, Option.map_some', Option.some.injEq] at h
        subst h
        simp [ih ws inv r2 h2]

theorem skel_applyNodeStep {a b : AnyNode} (h : applyNodeStep a = some b) :
    b.skel = a.skel := by
  cases a with
  | start s => simp only [applyNodeStep] at h; exact Option.noConfusion h
  | main n =>
    simp only [applyNodeStep] at h
    cases h2 : n.apply_nudges with
    | none => rw [h2] at h; exact Option.noConfusion h
    | some n2 =>
      rw [h2] at h
      simp only [Option.map_some', Option.some.injEq] at h
      subst h
      simp only [Node.apply_nudges] at h2
      cases h3 : applyWeightNudges n.inp_w n.inp_w_nudge_sum (1 / (n.nudge_cnt : ℚ)) with
      | none => rw [h3] at h2; exact Option.noConfusion h2
      | some ws =>
        rw [h3] at h2
        simp only [Option.map_some', Option.some.injEq] at h2
        subst h2
        simp [AnyNode.skel, Node.clear_nudges, applyWeightNudges_length _ _ _ _ h3]

theorem skel_clearNodeStep {a b : AnyNode} (h : clearNodeStep a = some b) :
    b.skel = a.skel := by
  cases a with
  | start s => simp only [clearNodeStep] at h; exact Option.noConfusion h
  | main n =>
    simp only [clearNodeStep, Option.some.injEq] at h
    subst h
    rfl

theorem skel_layers_step {g : AnyNode → Option AnyNode}
    (hg : ∀ a b, g a = some b → b.skel = a.skel)
    {rest r : List (List AnyNode)}
    (h2 : mapOptList (mapOptList g) rest = some r) :
    List.map (List.map AnyNode.skel) r = List.map (List.map AnyNode.skel) rest :=
  mapOptList_map_eq (mapOptList g) (List.map AnyNode.skel)
    (fun l l2 hl => mapOptList_map_eq g AnyNode.skel hg l l2 hl) rest r h2

theorem skel_apply_nudges {nw nw' : Network} (h : nw.apply_nudges = some nw') :
    nw'.skel = nw.skel := by
  unfold Network.apply_nudges at h
  cases hl : nw.layers with
  | nil => rw [hl] at h; simp only [Option.some.injEq] at h; subst h; rfl
  | cons l0 rest =>
    rw [hl] at h
    unfold mapNodesM at h
    cases h2 : mapOptList (mapOptList applyNodeStep) rest with
    | none => simp only [h2] at h; exact Option.noConfusion h
    | some r =>
      simp only [h2, Option.map_some', Option.some.injEq] at h
      subst h
      unfold Network.skel
      simp only [hl, List.map_cons]
      rw [skel_layers_step (fun a b hb => skel_applyNodeStep hb) h2]

theorem skel_clear_nudges {nw nw' : Network} (h : nw.clear_nudges = some nw') :
    nw'.skel = nw.skel := by
  unfold Network.clear_nudges at h
  cases hl : nw.layers with
  | nil => rw [hl] at h; simp only [Option.some.injEq] at h; subst h; rfl
  | cons l0 rest =>
    rw [hl] at h
    unfold mapNodesM at h
    cases h2 : mapOptList (mapOptList clearNodeStep) rest with
    | none => simp only [h2] at h; exact Option.noConfusion h
    | some r =>
      simp only [h2, Option.map_some', Option.some.injEq] at h
      subst h
      unfold Network.skel
      simp only [hl, List.map_cons]
      rw [skel_layers_step (fun a b hb => skel_clearNodeStep hb) h2]

theorem skel_calcNudgeLoop (A : Act) (fuel li ni layerIdx : ℕ) (base : ℚ) :
    ∀ (ws : List ℚ) (i : ℕ) (nw nw' : Network),
      calcNudgeLoop A fuel li ni layerIdx base nw ws i = some nw' → nw'.skel = nw.skel := by
  intro ws
  induction ws with
  | nil =>
    intro i nw nw' h
    simp only [calcNudgeLoop, Option.some.injEq] at h
    subst h
    rfl
  | cons w rest ih =>
    intro i nw nw' h
    simp only [calcNudgeLoop] at h
    cases h1 : getValueF A fuel nw (layerIdx - 1) i with
    | none => simp only [h1] at h; exact Option.noConfusion h
    | some p =>
      obtain ⟨nw2, v⟩ := p
      simp only [h1] at h
      cases h2 : (nw2.mainAt li ni).bind (fun n => n.inp_w_nudge_sum[i]?) with
      | none => simp only [h2] at h; exact Option.noConfusion h
      | some x =>
        simp only [h2] at h
        by_cases h3 : 1 < layerIdx
        · rw [if_pos h3] at h
          cases h4 : (nw2.modifyMain li ni (fun n =>
              { n with inp_w_nudge_sum :=
                  listModify (fun x => x + base * v) i n.inp_w_nudge_sum })).mainAt
                (layerIdx - 1) i with
          | none => simp only [h4] at h; exact Option.noConfusion h
          | some m =>
            simp only [h4] at h
            have hs := ih (i + 1) _ nw' h
            rw [hs]
            refine (skel_modifyMain _ _ _ _ ?_).trans ?_
            · intro m2; rfl
            refine (skel_modifyMain _ _ _ _ ?_).trans ?_
            · intro m2; rfl
            exact skel_getValueF A fuel h1
        · rw [if_neg h3] at h
          have hs := ih (i + 1) _ nw' h
          rw [hs]
          refine (skel_modifyMain _ _ _ _ ?_).trans ?_
          · intro m2; rfl
          exact skel_getValueF A fuel h1

theorem skel_calcNudge (A : Act) (fuel : ℕ) {nw nw' : Network} {li ni : ℕ}
    (h : calcNudge A fuel nw li ni = some nw') : nw'.skel = nw.skel := by
  unfold calcNudge at h
  cases h1 : getSumF A fuel nw li ni with
  | none => simp only [h1] at h; exact Option.noConfusion h
  | some p =>
    obtain ⟨nw1, s⟩ := p
    simp only [h1] at h
    cases h2 : nw1.mainAt li ni with
    | none => simp only [h2] at h; exact Option.noConfusion h
    | some n =>
      simp only [h2] at h
      cases h3 : calcNudgeLoop A fuel li ni n.layer
          (n.requested_nudge * A.sigDeriv s * nw1.config.learning_rate)
          (nw1.modifyMain li ni (fun m =>
            { m with bias_nudge_sum := m.bias_nudge_sum +
                n.requested_nudge * A.sigDeriv s * nw1.config.learning_rate })) n.inp_w 0 with
      | none => simp only [h3] at h; exact Option.noConfusion h
      | some nw3 =>
        simp only [h3, Option.some.injEq] at h
        subst h
        refine (skel_modifyMain _ _ _ _ ?_).trans ?_
        · intro m; rfl
        have hcl := skel_calcNudgeLoop A fuel li ni n.layer _ n.inp_w 0 _ nw3 h3
        rw [hcl]
        refine (skel_modifyMain _ _ _ _ ?_).trans ?_
        · intro m; rfl
        exact skel_getSumF A fuel h1

theorem skel_evalRange (A : Act) (fuel li : ℕ) :
    ∀ (count start : ℕ) (nw nw' : Network) (vs : List ℚ),
      evalRange A fuel li nw start count = some (nw', vs) → nw'.skel = nw.skel := by
  intro count
  induction count with
  | zero =>
    intro start nw nw' vs h
    simp only [evalRange, Option.some.injEq, Prod.mk.injEq] at h
    obtain ⟨h1, h2⟩ := h
    subst h1
    rfl
  | succ c ih =>
    intro start nw nw' vs h
    simp only [evalRange] at h
    cases h1 : getValueF A fuel nw li start with
    | none => simp only [h1] at h; exact Option.noConfusion h
    | some p =>
      obtain ⟨nw2, v⟩ := p
      simp only [h1] at h
      cases h2 : evalRange A fuel li nw2 (start + 1) c with
      | none => simp only [h2] at h; exact Option.noConfusion h
      | some q =>
        obtain ⟨nw3, rest⟩ := q
        simp only [h2, Option.some.injEq, Prod.mk.injEq] at h
        obtain ⟨h3, h4⟩ := h
        subst h3
        exact (ih (start + 1) nw2 nw3 rest h2).trans (skel_getValueF A fuel h1)

theorem skel_get_outputs (A : Act) (fuel : ℕ) {nw nw' : Network} {vs : List ℚ}
    (h : nw.get_outputs A fuel = some (nw', vs)) : nw'.skel = nw.skel := by
  unfold Network.get_outputs at h
  cases hL : nw.layers.length with
  | zero => rw [hL] at h; exact Option.noConfusion h
  | succ L =>
    rw [hL] at h
    exact skel_evalRange A fuel L _ 0 nw nw' vs h

theorem skel_get_output (A : Act) (fuel : ℕ) {nw nw' : Network} {i : ℕ} {v : ℚ}
    (h : nw.get_output A fuel i = some (nw', v)) : nw'.skel = nw.skel := by
  unfold Network.get_output at h
  cases hL : nw.layers.length with
  | zero => rw [hL] at h; exact Option.noConfusion h
  | succ L =>
    rw [hL] at h
    exact skel_getValueF A fuel h

theorem skel_get_current_cost (A : Act) (fuel : ℕ) {nw nw' : Network}
    {expected : List ℚ} {c : ℚ}
    (h : nw.get_current_cost A fuel expected = some (nw', c)) : nw'.skel = nw.skel := by
  unfold Network.get_current_cost at h
  cases hL : nw.layers.length with
  | zero => rw [hL] at h; exact Option.noConfusion h
  | succ L =>
    rw [hL] at h
    simp only [] at h
    by_cases hlen : (nw.layers.getD L []).length = expected.length
    · rw [if_pos hlen] at h
      cases h2 : evalRange A fuel L nw 0 ((nw.layers.getD L []).length) with
      | none => simp only [h2] at h; exact Option.noConfusion h
      | some q =>
        obtain ⟨nw2, outs⟩ := q
        simp only [h2, Option.some.injEq, Prod.mk.injEq] at h
        obtain ⟨h3, h4⟩ := h
        subst h3
        exact skel_evalRange A fuel L _ 0 nw nw2 outs h2
    · rw [if_neg hlen] at h
      exact Option.noConfusion h

theorem skel_seedLoop (L : ℕ) (outputs expected : List ℚ) :
    ∀ (count i : ℕ) (nw nw' : Network),
      seedLoop L outputs expected nw i count = some nw' → nw'.skel = nw.skel := by
  intro count
  induction count with
  | zero =>
    intro i nw nw' h
    simp only [seedLoop, Option.some.injEq] at h
    subst h
    rfl
  | succ c ih =>
    intro i nw nw' h
    simp only [seedLoop] at h
    cases h1 : outputs[i]? with
    | none => simp only [h1] at h; exact Option.noConfusion h
    | some o =>
      cases h2 : expected[i]? with
      | none => simp only [h1, h2] at h; exact Option.noConfusion h
      | some e =>
        simp only [h1, h2] at h
        cases h3 : nw.mainAt L i with
        | none => simp only [h3] at h; exact Option.noConfusion h
        | some n =>
          simp only [h3] at h
          have hs := ih (i + 1) _ nw' h
          rw [hs]
          exact skel_modifyMain _ _ _ _ (fun m => rfl)

theorem skel_request_nudges_end (A : Act) (fuel : ℕ) {nw nw' : Network}
    {expected : List ℚ}
    (h : nw.request_nudges_end A fuel expected = some nw') : nw'.skel = nw.skel := by
  unfold Network.request_nudges_end at h
  cases h1 : nw.get_outputs A fuel with
  | none => simp only [h1] at h; exact Option.noConfusion h
  | some p =>
    obtain ⟨nw1, outputs⟩ := p
    simp only [h1] at h
    cases hL : nw1.layers.length with
    | zero => rw [hL] at h; exact Option.noConfusion h
    | succ L =>
      rw [hL] at h
      exact (skel_seedLoop L outputs expected _ 0 nw1 nw' h).trans
        (skel_get_outputs A fuel h1)

theorem skel_sweepLayerGo (A : Act) (fuel li : ℕ) :
    ∀ (count ni : ℕ) (nw nw' : Network),
      sweepLayerGo A fuel li nw ni count = some nw' → nw'.skel = nw.skel := by
  intro count
  induction count with
  | zero =>
    intro ni nw nw' h
    simp only [sweepLayerGo, Option.some.injEq] at h
    subst h
    rfl
  | succ c ih =>
    intro ni nw nw' h
    simp only [sweepLayerGo] at h
    cases h1 : calcNudge A fuel nw li ni with
    | none => simp only [h1] at h; exact Option.noConfusion h
    | some nw2 =>
      simp only [h1] at h
      exact (ih (ni + 1) nw2 nw' h).trans (skel_calcNudge A fuel h1)

theorem skel_sweepDown (A : Act) (fuel : ℕ) :
    ∀ (li : ℕ) (nw nw' : Network), sweepDown A fuel nw li = some nw' → nw'.skel = nw.skel := by
  intro li
  induction li with
  | zero =>
    intro nw nw' h
    simp only [sweepDown, Option.some.injEq] at h
    subst h
    rfl
  | succ l ih =>
    intro nw nw' h
    simp only [sweepDown] at h
    cases h1 : sweepLayerGo A fuel (l + 1) nw 0 ((nw.layers.getD (l + 1) []).length) with
    | none => simp only [h1] at h; exact Option.noConfusion h
    | some nw2 =>
      simp only [h1] at h
      exact (ih nw2 nw' h).trans (skel_sweepLayerGo A fuel (l + 1) _ 0 nw nw2 h1)

theorem skel_train_on_current_data (A : Act) (fuel : ℕ) {nw nw' : Network}
    {expected : List ℚ}
    (h : nw.train_on_current_data A fuel expected = some nw') : nw'.skel = nw.skel := by
  unfold Network.train_on_current_data at h
  cases h1 : nw.request_nudges_end A fuel expected with
  | none => simp only [h1] at h; exact Option.noConfusion h
  | some nw1 =>
    simp only [h1] at h
    exact (skel_sweepDown A fuel _ nw1 nw' h).trans (skel_request_nudges_end A fuel h1)

theorem skel_train_on_data (A : Act) (fuel : ℕ) {nw nw' : Network} {ex : TrainingExample}
    (h : nw.train_on_data A fuel ex = some nw') : nw'.skel = nw.skel := by
  unfold Network.train_on_data at h
  cases h1 : nw.set_inputs ex.inputs with
  | none => simp only [h1] at h; exact Option.noConfusion h
  | some nw1 =>
    simp only [h1] at h
    exact (skel_train_on_current_data A fuel h).trans
      ((skel_invalidate nw1).trans (skel_set_inputs h1))

theorem skel_trainFold (A : Act) (fuel : ℕ) :
    ∀ (batch : List TrainingExample) (nw nw' : Network),
      trainFold A fuel nw batch = some nw' → nw'.skel = nw.skel := by
  intro batch
  induction batch with
  | nil =>
    intro nw nw' h
    simp only [trainFold, Option.some.injEq] at h
    subst h
    rfl
  | cons ex rest ih =>
    intro nw nw' h
    simp only [trainFold] at h
    cases h1 : nw.train_on_data A fuel ex with
    | none => simp only [h1] at h; exact Option.noConfusion h
    | some nw1 =>
      simp only [h1] at h
      exact (ih nw1 nw' h).trans (skel_train_on_data A fuel h1)

theorem skel_train_on_batch (A : Act) (fuel : ℕ) {nw nw' : Network}
    {batch : List TrainingExample}
    (h : nw.train_on_batch A fuel batch = some nw') : nw'.skel = nw.skel := by
  unfold Network.train_on_batch at h
  cases h1 : trainFold A fuel nw batch with
  | none => simp only [h1] at h; exact Option.noConfusion h
  | some nw1 =>
    simp only [h1] at h
    exact (skel_apply_nudges h).trans (skel_trainFold A fuel batch nw nw1 h1)

theorem skel_train_on_batches (A : Act) (fuel : ℕ) :
    ∀ (batches : List (List TrainingExample)) (nw nw' : Network),
      nw.train_on_batches A fuel batches = some nw' → nw'.skel = nw.skel := by
  intro batches
  induction batches with
  | nil =>
    intro nw nw' h
    simp only [Network.train_on_batches, Option.some.injEq] at h
    subst h
    rfl
  | cons b rest ih =>
    intro nw nw' h
    simp only [Network.train_on_batches] at h
    cases h1 : nw.train_on_batch A fuel b with
    | none => simp only [h1] at h; exact Option.noConfusion h
    | some nw1 =>
      simp only [h1] at h
      exact (ih nw1 nw' h).trans (skel_train_on_batch A fuel h1)

/-- Every public operation preserves the structural skeleton: layer
count, per-layer node count, node kinds, and weight-vector lengths. -/
theorem skel_applyOp (A : Act) (fuel : ℕ) (op : PublicOp) {nw nw' : Network}
    (h : applyOp A fuel op nw = some nw') : nw'.skel = nw.skel := by
  cases op with
  | opSetInput i v => exact skel_set_input h
  | opSetInputs vs => exact skel_set_inputs h
  | opInvalidate =>
    simp only [applyOp, Option.some.injEq] at h
    subst h
    exact skel_invalidate nw
  | opGetOutput i =>
    simp only [applyOp] at h
    cases h1 : nw.get_output A fuel i with
    | none => simp only [h1] at h; exact Option.noConfusion h
    | some p =>
      simp only [h1, Option.map_some', Option.some.injEq] at h
      subst h
      exact skel_get_output A fuel (show nw.get_output A fuel i = some (p.1, p.2) by rw [← h1])
  | opGetOutputs =>
    simp only [applyOp] at h
    cases h1 : nw.get_outputs A fuel with
    | none => simp only [h1] at h; exact Option.noConfusion h
    | some p =>
      simp only [h1, Option.map_some', Option.some.injEq] at h
      subst h
      exact skel_get_outputs A fuel (show nw.get_outputs A fuel = some (p.1, p.2) by rw [← h1])
  | opGetCurrentCost expected =>
    simp only [applyOp] at h
    cases h1 : nw.get_current_cost A fuel expected with
    | none => simp only [h1] at h; exact Option.noConfusion h
    | some p =>
      simp only [h1, Option.map_some', Option.some.injEq] at h
      subst h
      exact skel_get_current_cost A fuel
        (show nw.get_current_cost A fuel expected = some (p.1, p.2) by rw [← h1])
  | opRequestNudgesEnd expected => exact skel_request_nudges_end A fuel h
  | opTrainOnCurrentData expected => exact skel_train_on_current_data A fuel h
  | opTrainOnData ex => exact skel_train_on_data A fuel h
  | opTrainOnBatch batch => exact skel_train_on_batch A fuel h
  | opTrainOnBatches batches => exact skel_train_on_batches A fuel batches nw nw' h
  | opApplyNudges => exact skel_apply_nudges h
  | opClearNudges => exact skel_clear_nudges h
  | opNodeGetValue li ni =>
    simp only [applyOp] at h
    cases h1 : getValueF A fuel nw li ni with
    | none => simp only [h1] at h; exact Option.noConfusion h
    | some p =>
      simp only [h1, Option.map_some', Option.some.injEq] at h
      subst h
      exact skel_getValueF A fuel (show getValueF A fuel nw li ni = some (p.1, p.2) by rw [← h1])
  | opNodeGetSum li ni =>
    simp only [applyOp] at h
    cases h1 : getSumF A fuel nw li ni with
    | none => simp only [h1] at h; exact Option.noConfusion h
    | some p =>
      simp only [h1, Option.map_some', Option.some.injEq] at h
      subst h
      exact skel_getSumF A fuel (show getSumF A fuel nw li ni = some (p.1, p.2) by rw [← h1])
  | opNodeCalcNudge li ni => exact skel_calcNudge A fuel h
  | opNodeRequestNudge li ni v =>
    simp only [applyOp, Network.node_request_nudge] at h
    cases h1 : nw.mainAt li ni with
    | none => simp only [h1] at h; exact Option.noConfusion h
    | some n =>
      simp only [h1, Option.some.injEq] at h
      subst h
      exact skel_modifyMain _ _ _ _ (fun m => rfl)
  | opNodeInvalidate li ni =>
    simp only [applyOp, Network.node_invalidate] at h
    cases h1 : nw.get_node li ni with
    | none => simp only [h1] at h; exact Option.noConfusion h
    | some a =>
      simp only [h1, Option.some.injEq] at h
      subst h
      exact skel_modifyMain _ _ _ _ (fun m => rfl)
  | opNodeClearNudges li ni =>
    simp only [applyOp, Network.node_clear_nudges] at h
    cases h1 : nw.mainAt li ni with
    | none => simp only [h1] at h; exact Option.noConfusion h
    | some n =>
      simp only [h1, Option.some.injEq] at h
      subst h
      exact skel_modifyMain _ _ _ _ (fun m => rfl)
  | opNodeApplyNudges li ni =>
    simp only [applyOp, Network.node_apply_nudges] at h
    cases h1 : nw.mainAt li ni with
    | none => simp only [h1] at h; exact Option.noConfusion h
    | some n =>
      simp only [h1] at h
      cases h2 : n.apply_nudges with
      | none => simp only [h2] at h; exact Option.noConfusion h
      | some n2 =>
        simp only [h2, Option.some.injEq] at h
        subst h
        apply skel_modifyMain_at
        intro m hm
        rw [h1] at hm
        simp only [Option.some.injEq] at hm
        subst hm
        simp only [Node.apply_nudges] at h2
        cases h3 : applyWeightNudges n.inp_w n.inp_w_nudge_sum (1 / (n.nudge_cnt : ℚ)) with
        | none => rw [h3] at h2; exact Option.noConfusion h2
        | some ws =>
          rw [h3] at h2
          simp only [Option.map_some', Option.some.injEq] at h2
          subst h2
          exact applyWeightNudges_length _ _ _ _ h3
  | opSetWeight li ni wi v =>
    simp only [applyOp, Network.set_weight] at h
    cases h1 : nw.mainAt li ni with
    | none => simp only [h1] at h; exact Option.noConfusion h
    | some n =>
      simp only [h1] at h
      cases h2 : n.inp_w[wi]? with
      | none => simp only [h2] at h; exact Option.noConfusion h
      | some w0 =>
        simp only [h2, Option.some.injEq] at h
        subst h
        apply skel_modifyMain
        intro m
        simp [listModify_length]

/-! ## Claim C9: weight-vector length vs previous layer -/

/-- A concrete activation used for witnesses. -/
def idAct : Act := ⟨fun x => x, fun x => x⟩

theorem skel_specLayers (shape : List ℕ) :
    List.map (List.map AnyNode.skel) (specLayers shape) =
      (List.range shape.length).map (fun i =>
        if i = 0 then List.replicate (shape.getD 0 0) none
        else List.replicate (shape.getD i 0) (some (shape.getD (i - 1) 0))) := by
  unfold specLayers
  rw [List.map_map]
  congr 1
  funext i
  simp only [Function.comp_apply]
  by_cases h0 : i = 0 <;>
    simp [h0, List.map_replicate, AnyNode.skel, Node.new]

theorem skelOK_specLayers (shape : List ℕ) (config : NetworkConfig) :
    skelOK (Network.skel { layers := specLayers shape, config := config }) = true := by
  unfold Network.skel
  simp only
  rw [skel_specLayers]
  unfold skelOK
  rw [List.all_eq_true]
  intro li hli
  rw [List.mem_range, List.length_map, List.length_range] at hli
  have hget : ∀ j, j < shape.length →
      ((List.range shape.length).map (fun i =>
        if i = 0 then List.replicate (shape.getD 0 0) (none : Option ℕ)
        else List.replicate (shape.getD i 0) (some (shape.getD (i - 1) 0)))).getD j [] =
      (if j = 0 then List.replicate (shape.getD 0 0) none
       else List.replicate (shape.getD j 0) (some (shape.getD (j - 1) 0))) := by
    intro j hj
    rw [List.getD_eq_getElem?_getD, List.getElem?_map, List.getElem?_range hj]
    rfl
  rw [List.all_eq_true]
  intro s hs
  rw [hget li hli] at hs
  by_cases h0 : li = 0
  · rw [if_pos h0] at hs
    have := List.eq_of_mem_replicate hs
    subst this
    rfl
  · rw [if_neg h0] at hs
    have := List.eq_of_mem_replicate hs
    subst this
    simp only
    rw [hget (li - 1) (by omega)]
    by_cases h1 : li - 1 = 0
    · rw [if_pos h1, h1, List.length_replicate]
      simp
    · rw [if_neg h1, List.length_replicate]
      simp

/-- C9 counterexample.  The claim asserts that constructing a compute node
whose weight vector has a different length from the previous layer is a
fatal construction-time error, and that no reachable state contains such a
node.  But `Node::new` performs no validation at all: constructing a node
with 3 weights and layer index 1 succeeds, and because `Network.layers` is
a public field, writing that node into layer 1 of a fresh `[1, 1]` network
(whose layer 0 has size 1) yields a network state holding a compute node
with `inp_w.len() == 3 ≠ 1` — no failure occurs anywhere. -/
theorem C9_counterexample :
    (Node.new 0 [0, 0, 0] 1).inp_w.length = 3 ∧
    (Network.new [1, 1]).map (fun nw =>
      let bad : Network := Network.mk
        (listModify (fun _ => [AnyNode.main (Node.new 0 [0, 0, 0] 1)]) 1 nw.layers) nw.config
      ((bad.mainAt 1 0).map (fun n => n.inp_w.length), (nw.layers.getD 0 []).length))
      = some (some 3, 1) := by
  exact ⟨rfl, by decide⟩

/-- C9 (amended).  Every network built by `new`/`with_config` satisfies
the weight-length invariant (each compute node holds exactly one weight
per node of the previous layer), and every public operation preserves it;
`Node::new` itself, however, performs no validation, so constructing a
mismatched free-standing node does not fail (see the counterexample). -/
theorem C9_weight_length_invariant :
    (∀ (config : NetworkConfig) (nw : Network),
      Network.with_config config = some nw → nw.weightLenOKb = true) ∧
    (∀ (A : Act) (fuel : ℕ) (op : PublicOp) (nw nw' : Network),
      nw.weightLenOKb = true → applyOp A fuel op nw = some nw' →
        nw'.weightLenOKb = true) := by
  constructor
  · intro config nw h
    rw [with_config_eq.2 config] at h
    by_cases hc : 2 ≤ config.shape.length
    · rw [if_pos hc] at h
      simp only [Option.some.injEq] at h
      subst h
      exact skelOK_specLayers config.shape config
    · rw [if_neg hc] at h
      exact Option.noConfusion h
  · intro A fuel op nw nw' hok h
    unfold Network.weightLenOKb at hok ⊢
    rw [skel_applyOp A fuel op h]
    exact hok

/-- Witness for C9 on a concrete network and operation. -/
theorem C9_witness :
    Network.with_config { learning_rate := 1, shape := [1, 1] } = some nw11 ∧
    nw11.weightLenOKb = true ∧ (nw11.invalidate).weightLenOKb = true :=
  ⟨by decide,
   C9_weight_length_invariant.1 { learning_rate := 1, shape := [1, 1] } nw11 (by decide),
   C9_weight_length_invariant.2 idAct 1 PublicOp.opInvalidate nw11 nw11.invalidate
     (by decide) rfl⟩

/-! ## Claim C3: one step of calc_nudge -/

/-- The value `get_value` would return without any mutation: a start
node's stored value, or a compute node's cached result. -/
def pureValueAt (nw : Network) (li ni : ℕ) : Option ℚ :=
  match nw.get_node li ni with
  | some (.start s) => some s.value
  | some (.main n) => n.result_cache
  | _ => none

/-- On a node whose value is already available (start node or cached
result), `get_value` is a pure read: it returns the value and leaves the
network untouched. -/
theorem getValueF_pure_hit (A : Act) (f : ℕ) {nw : Network} {li ni : ℕ} {v : ℚ}
    (h : pureValueAt nw li ni = some v) :
    getValueF A (f + 1) nw li ni = some (nw, v) := by
  unfold pureValueAt at h
  unfold getValueF
  cases hg : nw.get_node li ni with
  | none => rw [hg] at h; exact Option.noConfusion h
  | some a =>
    rw [hg] at h
    cases a with
    | start s =>
      simp only [Option.some.injEq] at h
      subst h
      rfl
    | main n =>
      simp only [] at h
      simp only [h]

/-- On a node whose pre-activation sum is cached, `get_sum` is a pure
read. -/
theorem getSumF_cache_hit (A : Act) (f : ℕ) {nw : Network} {li ni : ℕ} {n : Node} {s : ℚ}
    (hm : nw.mainAt li ni = some n) (hs : n.sum_cache = some s) :
    getSumF A f nw li ni = some (nw, s) := by
  unfold Network.mainAt at hm
  unfold getSumF getSumGiven
  cases hg : nw.get_node li ni with
  | none => rw [hg] at hm; exact Option.noConfusion hm
  | some a =>
    rw [hg] at hm
    cases a with
    | start s0 => exact Option.noConfusion hm
    | main n0 =>
      simp only [Option.some.injEq] at hm
      subst hm
      simp only [hs]

theorem pureValueAt_modifyMain (nw : Network) (li ni : ℕ) (g : Node → Node)
    (hg : ∀ n, (g n).result_cache = n.result_cache) (lj nj : ℕ) :
    pureValueAt (nw.modifyMain li ni g) lj nj = pureValueAt nw lj nj := by
  unfold pureValueAt
  rw [get_node_modifyMain]
  by_cases h : li = lj ∧ ni = nj
  · rw [if_pos h]
    cases hn : nw.get_node lj nj with
    | none => rfl
    | some a => cases a <;> simp [mapMainNode, hg]
  · rw [if_neg h]

theorem mainAt_isSome_modifyMain (nw : Network) (li ni : ℕ) (g : Node → Node) (lj nj : ℕ) :
    ((nw.modifyMain li ni g).mainAt lj nj).isSome = (nw.mainAt lj nj).isSome := by
  rw [mainAt_modifyMain]
  by_cases h : li = lj ∧ ni = nj
  · rw [if_pos h]
    cases nw.mainAt lj nj <;> rfl
  · rw [if_neg h]

theorem cacheAt_modifyMain (nw : Network) (li ni : ℕ) (g : Node → Node)
    (hg : ∀ n, (g n).sum_cache = n.sum_cache ∧ (g n).result_cache = n.result_cache)
    (lj nj : ℕ) :
    (nw.modifyMain li ni g).cacheAt lj nj = nw.cacheAt lj nj := by
  unfold Network.cacheAt
  rw [mainAt_modifyMain]
  by_cases h : li = lj ∧ ni = nj
  · rw [if_pos h]
    cases nw.mainAt lj nj with
    | none => rfl
    | some n => simp [(hg n).1, (hg n).2]
  · rw [if_neg h]

theorem mainAt_map_modifyMain {β : Type} (nw : Network) (li ni : ℕ) (g : Node → Node)
    (f : Node → β) (lj nj : ℕ) :
    ((nw.modifyMain li ni g).mainAt lj nj).map f =
      if li = lj ∧ ni = nj then (nw.mainAt lj nj).map (fun n => f (g n))
      else (nw.mainAt lj nj).map f := by
  rw [mainAt_modifyMain]
  by_cases h : li = lj ∧ ni = nj
  · rw [if_pos h, if_pos h]
    cases nw.mainAt lj nj <;> rfl
  · rw [if_neg h, if_neg h]

theorem pureValueAt_modify_wsum (nw : Network) (li ni : ℕ) (c : ℚ) (iw : ℕ) (lj nj : ℕ) :
    pureValueAt (nw.modifyMain li ni (fun n =>
      { n with inp_w_nudge_sum := listModify (fun y => y + c) iw n.inp_w_nudge_sum })) lj nj
      = pureValueAt nw lj nj :=
  pureValueAt_modifyMain nw li ni (fun n =>
    { n with inp_w_nudge_sum := listModify (fun y => y + c) iw n.inp_w_nudge_sum })
    (fun _ => rfl) lj nj

theorem pureValueAt_modify_req (nw : Network) (li ni : ℕ) (c : ℚ) (lj nj : ℕ) :
    pureValueAt (nw.modifyMain li ni (fun n =>
      { n with requested_nudge := n.requested_nudge + c })) lj nj
      = pureValueAt nw lj nj :=
  pureValueAt_modifyMain nw li ni (fun n =>
    { n with requested_nudge := n.requested_nudge + c }) (fun _ => rfl) lj nj

theorem cacheAt_modify_wsum (nw : Network) (li ni : ℕ) (c : ℚ) (iw : ℕ) (lj nj : ℕ) :
    (nw.modifyMain li ni (fun n =>
      { n with inp_w_nudge_sum := listModify (fun y => y + c) iw n.inp_w_nudge_sum })).cacheAt lj nj
      = nw.cacheAt lj nj :=
  cacheAt_modifyMain nw li ni (fun n =>
    { n with inp_w_nudge_sum := listModify (fun y => y + c) iw n.inp_w_nudge_sum })
    (fun _ => ⟨rfl, rfl⟩) lj nj

theorem cacheAt_modify_req (nw : Network) (li ni : ℕ) (c : ℚ) (lj nj : ℕ) :
    (nw.modifyMain li ni (fun n =>
      { n with requested_nudge := n.requested_nudge + c })).cacheAt lj nj
      = nw.cacheAt lj nj :=
  cacheAt_modifyMain nw li ni (fun n =>
    { n with requested_nudge := n.requested_nudge + c }) (fun _ => ⟨rfl, rfl⟩) lj nj

theorem calcNudgeLoop_char (A : Act) (f li ni : ℕ) (base : ℚ) (hli : 1 ≤ li) :
    ∀ (ws : List ℚ) (i : ℕ) (nw : Network) (m : Node),
      nw.mainAt li ni = some m →
      i + ws.length ≤ m.inp_w_nudge_sum.length →
      (∀ j, i ≤ j → j < i + ws.length → (pureValueAt nw (li - 1) j).isSome = true) →
      (1 < li → ∀ j, i ≤ j → j < i + ws.length → (nw.mainAt (li - 1) j).isSome = true) →
      ∃ nw', calcNudgeLoop A (f + 1) li ni li base nw ws i = some nw' ∧
        (∃ m', nw'.mainAt li ni = some m' ∧
          m'.bias = m.bias ∧ m'.inp_w = m.inp_w ∧ m'.layer = m.layer ∧
          m'.sum_cache = m.sum_cache ∧ m'.result_cache = m.result_cache ∧
          m'.bias_nudge_sum = m.bias_nudge_sum ∧ m'.nudge_cnt = m.nudge_cnt ∧
          m'.requested_nudge = m.requested_nudge ∧
          m'.inp_w_nudge_sum.length = m.inp_w_nudge_sum.length ∧
          (∀ j : ℕ, m'.inp_w_nudge_sum[j]? =
            if i ≤ j ∧ j < i + ws.length then
              (m.inp_w_nudge_sum[j]?).bind (fun old =>
                (pureValueAt nw (li - 1) j).map (fun v => old + base * v))
            else m.inp_w_nudge_sum[j]?)) ∧
        (∀ j : ℕ, nw'.reqAt (li - 1) j =
          if 1 < li ∧ i ≤ j ∧ j < i + ws.length then
            (nw.reqAt (li - 1) j).bind (fun old =>
              (ws[j - i]?).map (fun w => old + base * w))
          else nw.reqAt (li - 1) j) ∧
        (∀ lj nj, pureValueAt nw' lj nj = pureValueAt nw lj nj) ∧
        (∀ lj nj, nw'.cacheAt lj nj = nw.cacheAt lj nj) ∧
        (∀ lj nj, (nw'.mainAt lj nj).isSome = (nw.mainAt lj nj).isSome) := by
  intro ws
  induction ws with
  | nil =>
    intro i nw m hm hlen hkids hkmain
    refine ⟨nw, rfl, ⟨m, hm, rfl, rfl, rfl, rfl, rfl, rfl, rfl, rfl, rfl, ?_⟩,
      ?_, fun lj nj => rfl, fun lj nj => rfl, fun lj nj => rfl⟩
    · intro j
      rw [if_neg (by simp only [List.length_nil]; omega)]
    · intro j
      rw [if_neg (by simp only [List.length_nil]; omega)]
  | cons w rest ih =>
    intro i nw m hm hlen hkids hkmain
    have hdist : ¬(li = li - 1) := by omega
    obtain ⟨v, hv⟩ := Option.isSome_iff_exists.mp
      (hkids i le_rfl (by simp only [List.length_cons]; omega))
    have hx : ∃ x, m.inp_w_nudge_sum[i]? = some x := by
      have hi : i < m.inp_w_nudge_sum.length := by
        simp only [List.length_cons] at hlen; omega
      exact ⟨m.inp_w_nudge_sum[i], List.getElem?_eq_getElem hi⟩
    obtain ⟨x, hx⟩ := hx
    simp only [calcNudgeLoop]
    rw [getValueF_pure_hit A f hv]
    simp only [hm, Option.some_bind, hx]
    by_cases hgt : 1 < li
    · rw [if_pos hgt]
      have hc3 : ((nw.modifyMain li ni (fun n =>
          { n with inp_w_nudge_sum :=
              listModify (fun y => y + base * v) i n.inp_w_nudge_sum })).mainAt
            (li - 1) i).isSome = true := by
        rw [mainAt_isSome_modifyMain]
        exact hkmain hgt i le_rfl (by simp only [List.length_cons]; omega)
      obtain ⟨mc, hmc⟩ := Option.isSome_iff_exists.mp hc3
      rw [hmc]
      -- the state after both writes of this iteration
      have hm4 : ((nw.modifyMain li ni (fun n =>
            { n with inp_w_nudge_sum :=
                listModify (fun y => y + base * v) i n.inp_w_nudge_sum })).modifyMain
            (li - 1) i (fun n2 =>
              { n2 with requested_nudge := n2.requested_nudge + base * w })).mainAt li ni =
          some { m with inp_w_nudge_sum :=
              listModify (fun y => y + base * v) i m.inp_w_nudge_sum } := by
        rw [mainAt_modifyMain, if_neg (by intro hq; exact hdist hq.1.symm),
          mainAt_modifyMain, if_pos ⟨rfl, rfl⟩, hm]
        rfl
      obtain ⟨nw', hloop, ⟨m', hm', e1, e2, e3, e4, e5, e6, e7, e8, e9, hws⟩,
          hreq, hpure, hcache, hsome⟩ :=
        ih (i + 1) _ _ hm4
          (by simp only [listModify_length]
              simp only [List.length_cons] at hlen
              omega)
          (by intro j hj1 hj2
              rw [pureValueAt_modify_req, pureValueAt_modify_wsum]
              exact hkids j (by omega) (by simp only [List.length_cons]; omega))
          (by intro hgt2 j hj1 hj2
              rw [mainAt_isSome_modifyMain, mainAt_isSome_modifyMain]
              exact hkmain hgt2 j (by omega) (by simp only [List.length_cons]; omega))
      refine ⟨nw', hloop, ⟨m', hm', e1, e2, e3, e4, e5, e6, e7, e8,
        by rw [e9, listModify_length], ?_⟩, ?_, ?_, ?_, ?_⟩
      · -- weight-sum characterization
        intro j
        rw [hws j]
        rw [pureValueAt_modify_req, pureValueAt_modify_wsum]
        rw [listModify_getElem?]
        by_cases hji : i = j
        · subst hji
          rw [if_neg (by omega), if_pos rfl, hx, hv,
            if_pos ⟨le_rfl, by simp only [List.length_cons]; omega⟩]
          rfl
        · by_cases hjr : i + 1 ≤ j ∧ j < i + 1 + rest.length
          · rw [if_pos hjr, if_neg hji,
              if_pos ⟨by omega, by simp only [List.length_cons]; omega⟩]
          · rw [if_neg hjr, if_neg hji,
              if_neg (by simp only [List.length_cons]; omega)]
      · -- pending-nudge characterization
        intro j
        rw [hreq j]
        have hr4 : ∀ jx : ℕ, ((nw.modifyMain li ni (fun n =>
              { n with inp_w_nudge_sum :=
                  listModify (fun y => y + base * v) i n.inp_w_nudge_sum })).modifyMain
              (li - 1) i (fun n2 =>
                { n2 with requested_nudge := n2.requested_nudge + base * w })).reqAt
              (li - 1) jx =
            if i = jx then (nw.reqAt (li - 1) jx).map (fun r => r + base * w)
            else nw.reqAt (li - 1) jx := by
          intro jx
          unfold Network.reqAt
          rw [mainAt_map_modifyMain]
          by_cases hq : i = jx
          · rw [if_pos ⟨rfl, hq⟩, if_pos hq, mainAt_map_modifyMain,
              if_neg (by intro hq2; exact hdist hq2.1)]
            cases nw.mainAt (li - 1) jx <;> rfl
          · rw [if_neg (by intro hq2; exact hq hq2.2), if_neg hq,
              mainAt_map_modifyMain, if_neg (by intro hq2; exact hdist hq2.1)]
        by_cases hji : i = j
        · subst hji
          rw [if_neg (by omega), hr4 i, if_pos rfl,
            if_pos ⟨hgt, le_rfl, by simp only [List.length_cons]; omega⟩]
          simp only [Nat.sub_self, List.getElem?_cons_zero]
          cases nw.reqAt (li - 1) i <;> rfl
        · by_cases hjr : i + 1 ≤ j ∧ j < i + 1 + rest.length
          · rw [if_pos ⟨hgt, hjr.1, hjr.2⟩, hr4 j, if_neg hji,
              if_pos ⟨hgt, by omega, by simp only [List.length_cons]; omega⟩]
            have hsub : j - i = (j - (i + 1)) + 1 := by omega
            rw [hsub, List.getElem?_cons_succ]
          · rw [if_neg (show ¬(1 < li ∧ i + 1 ≤ j ∧ j < i + 1 + rest.length) by
                intro hq; exact hjr ⟨hq.2.1, hq.2.2⟩), hr4 j, if_neg hji,
              if_neg (show ¬(1 < li ∧ i ≤ j ∧ j < i + (w :: rest).length) by
                intro hq
                simp only [List.length_cons] at hq
                exact hjr ⟨by omega, by omega⟩)]
      · intro lj nj
        rw [hpure lj nj, pureValueAt_modify_req, pureValueAt_modify_wsum]
      · intro lj nj
        rw [hcache lj nj, cacheAt_modify_req, cacheAt_modify_wsum]
      · intro lj nj
        rw [hsome lj nj, mainAt_isSome_modifyMain, mainAt_isSome_modifyMain]
    · rw [if_neg hgt]
      have hm4 : ((nw.modifyMain li ni (fun n =>
            { n with inp_w_nudge_sum :=
                listModify (fun y => y + base * v) i n.inp_w_nudge_sum })).mainAt li ni) =
          some { m with inp_w_nudge_sum :=
              listModify (fun y => y + base * v) i m.inp_w_nudge_sum } := by
        rw [mainAt_modifyMain, if_pos ⟨rfl, rfl⟩, hm]
        rfl
      obtain ⟨nw', hloop, ⟨m', hm', e1, e2, e3, e4, e5, e6, e7, e8, e9, hws⟩,
          hreq, hpure, hcache, hsome⟩ :=
        ih (i + 1) _ _ hm4
          (by simp only [listModify_length]
              simp only [List.length_cons] at hlen
              omega)
          (by intro j hj1 hj2
              rw [pureValueAt_modify_wsum]
              exact hkids j (by omega) (by simp only [List.length_cons]; omega))
          (by intro hgt2 j hj1 hj2
              exact absurd hgt2 hgt)
      refine ⟨nw', hloop, ⟨m', hm', e1, e2, e3, e4, e5, e6, e7, e8,
        by rw [e9, listModify_length], ?_⟩, ?_, ?_, ?_, ?_⟩
      · intro j
        rw [hws j]
        rw [pureValueAt_modify_wsum]
        rw [listModify_getElem?]
        by_cases hji : i = j
        · subst hji
          rw [if_neg (by omega), if_pos rfl, hx, hv,
            if_pos ⟨le_rfl, by simp only [List.length_cons]; omega⟩]
          rfl
        · by_cases hjr : i + 1 ≤ j ∧ j < i + 1 + rest.length
          · rw [if_pos hjr, if_neg hji,
              if_pos ⟨by omega, by simp only [List.length_cons]; omega⟩]
          · rw [if_neg hjr, if_neg hji,
              if_neg (by simp only [List.length_cons]; omega)]
      · intro j
        rw [hreq j]
        have hr3 : ∀ jx : ℕ, ((nw.modifyMain li ni (fun n =>
              { n with inp_w_nudge_sum :=
                  listModify (fun y => y + base * v) i n.inp_w_nudge_sum })).reqAt
              (li - 1) jx = nw.reqAt (li - 1) jx) := by
          intro jx
          unfold Network.reqAt
          rw [mainAt_map_modifyMain, if_neg (by intro hq; exact hdist hq.1)]
        rw [hr3 j, if_neg (by intro hq; exact hgt hq.1),
          if_neg (by intro hq; exact hgt hq.1)]
      · intro lj nj
        rw [hpure lj nj, pureValueAt_modify_wsum]
      · intro lj nj
        rw [hcache lj nj, cacheAt_modify_wsum]
      · intro lj nj
        rw [hsome lj nj, mainAt_isSome_modifyMain]

theorem pureValueAt_modify_bias (nw : Network) (li ni : ℕ) (c : ℚ) (lj nj : ℕ) :
    pureValueAt (nw.modifyMain li ni (fun n =>
      { n with bias_nudge_sum := n.bias_nudge_sum + c })) lj nj
      = pureValueAt nw lj nj :=
  pureValueAt_modifyMain nw li ni (fun n =>
    { n with bias_nudge_sum := n.bias_nudge_sum + c }) (fun _ => rfl) lj nj

theorem cacheAt_modify_bias (nw : Network) (li ni : ℕ) (c : ℚ) (lj nj : ℕ) :
    (nw.modifyMain li ni (fun n =>
      { n with bias_nudge_sum := n.bias_nudge_sum + c })).cacheAt lj nj
      = nw.cacheAt lj nj :=
  cacheAt_modifyMain nw li ni (fun n =>
    { n with bias_nudge_sum := n.bias_nudge_sum + c }) (fun _ => ⟨rfl, rfl⟩) lj nj

theorem cacheAt_modify_cnt (nw : Network) (li ni : ℕ) (lj nj : ℕ) :
    (nw.modifyMain li ni (fun n =>
      { n with nudge_cnt := n.nudge_cnt + 1 })).cacheAt lj nj
      = nw.cacheAt lj nj :=
  cacheAt_modifyMain nw li ni (fun n =>
    { n with nudge_cnt := n.nudge_cnt + 1 }) (fun _ => ⟨rfl, rfl⟩) lj nj

/-- C3.  One call of `calc_nudge` on the compute node at `(li, ni)` (its
pre-activation sum cached as `s`, the previous layer's values available)
computes `d = sig_deriv(s)` and `base = pending_nudge * d * learning_rate`,
adds `base` to `bias_nudge_sum`, adds `base * value(previous node j)` to
`inp_w_nudge_sum[j]` for every weight index `j`, propagates
`base * inp_w[j]` into the previous-layer node's pending nudge exactly
when `layer > 1` (when `li = 1`, the previous layer is the input layer and
no pending nudge is accumulated there), leaves its own pending nudge
untouched, increments `nudge_cnt` by exactly one, and mutates no cache. -/
theorem C3_calc_nudge_step (A : Act) (f : ℕ) (nw : Network) (li ni : ℕ) (n : Node)
    (s base : ℚ)
    (hm : nw.mainAt li ni = some n)
    (hlay : n.layer = li) (hli : 1 ≤ li)
    (hsum : n.sum_cache = some s)
    (hlen : n.inp_w_nudge_sum.length = n.inp_w.length)
    (hkids : ∀ j, j < n.inp_w.length → (pureValueAt nw (li - 1) j).isSome = true)
    (hkmain : 1 < li → ∀ j, j < n.inp_w.length → (nw.mainAt (li - 1) j).isSome = true)
    (hbase : base = n.requested_nudge * A.sigDeriv s * nw.config.learning_rate) :
    ∃ nw', calcNudge A (f + 1) nw li ni = some nw' ∧
      nw'.biasSumAt li ni = some (n.bias_nudge_sum + base) ∧
      nw'.cntAt li ni = some (n.nudge_cnt + 1) ∧
      nw'.reqAt li ni = some n.requested_nudge ∧
      (∀ j, j < n.inp_w.length →
        (nw'.wSumsAt li ni).bind (fun l => l[j]?) =
          (n.inp_w_nudge_sum[j]?).bind (fun old =>
            (pureValueAt nw (li - 1) j).map (fun v => old + base * v))) ∧
      (∀ j, j < n.inp_w.length →
        nw'.reqAt (li - 1) j =
          if 1 < li then
            (nw.reqAt (li - 1) j).bind (fun old =>
              (n.inp_w[j]?).map (fun w => old + base * w))
          else nw.reqAt (li - 1) j) ∧
      (∀ lj nj, nw'.cacheAt lj nj = nw.cacheAt lj nj) := by
  subst hbase
  have hdist : ¬(li = li - 1) := by omega
  unfold calcNudge
  rw [getSumF_cache_hit A (f + 1) hm hsum]
  simp only [hm]
  have hm2 : (nw.modifyMain li ni (fun m2 =>
      { m2 with bias_nudge_sum := m2.bias_nudge_sum +
          n.requested_nudge * A.sigDeriv s * nw.config.learning_rate })).mainAt li ni =
      some { n with bias_nudge_sum := n.bias_nudge_sum +
          n.requested_nudge * A.sigDeriv s * nw.config.learning_rate } := by
    rw [mainAt_modifyMain, if_pos ⟨rfl, rfl⟩, hm]
    rfl
  obtain ⟨nw3, hloop, ⟨m', hm', e1, e2, e3, e4, e5, e6, e7, e8, e9, hws⟩,
      hreq, hpure, hcache, hsome⟩ :=
    calcNudgeLoop_char A f li ni
      (n.requested_nudge * A.sigDeriv s * nw.config.learning_rate) hli n.inp_w 0 _ _ hm2
      (by simp only []
          rw [hlen]
          omega)
      (by intro j hj1 hj2
          rw [pureValueAt_modify_bias]
          exact hkids j (by omega))
      (by intro hgt j hj1 hj2
          rw [mainAt_isSome_modifyMain]
          exact hkmain hgt j (by omega))
  rw [hlay, hloop]
  refine ⟨_, rfl, ?_, ?_, ?_, ?_, ?_, ?_⟩
  · unfold Network.biasSumAt
    rw [mainAt_map_modifyMain, if_pos ⟨rfl, rfl⟩, hm']
    simp only [Option.map_some', Option.some.injEq]
    rw [e6]
  · unfold Network.cntAt
    rw [mainAt_map_modifyMain, if_pos ⟨rfl, rfl⟩, hm']
    simp only [Option.map_some', Option.some.injEq]
    rw [e7]
  · unfold Network.reqAt
    rw [mainAt_map_modifyMain, if_pos ⟨rfl, rfl⟩, hm']
    simp only [Option.map_some', Option.some.injEq]
    rw [e8]
  · intro j hj
    unfold Network.wSumsAt
    rw [mainAt_map_modifyMain, if_pos ⟨rfl, rfl⟩, hm']
    simp only [Option.map_some', Option.some_bind]
    rw [hws j, if_pos ⟨Nat.zero_le j, by omega⟩]
    rw [pureValueAt_modify_bias]
  · intro j hj
    unfold Network.reqAt
    rw [mainAt_map_modifyMain, if_neg (by intro hq; exact hdist hq.1)]
    have := hreq j
    unfold Network.reqAt at this
    rw [this]
    have hrq2 : ∀ jx : ℕ, ((nw.modifyMain li ni (fun m2 =>
        { m2 with bias_nudge_sum := m2.bias_nudge_sum +
            n.requested_nudge * A.sigDeriv s * nw.config.learning_rate })).mainAt
          (li - 1) jx).map Node.requested_nudge =
        (nw.mainAt (li - 1) jx).map Node.requested_nudge := by
      intro jx
      rw [mainAt_map_modifyMain, if_neg (by intro hq; exact hdist hq.1)]
    by_cases hgt : 1 < li
    · rw [if_pos ⟨hgt, Nat.zero_le j, by omega⟩, if_pos hgt]
      rw [hrq2 j]
      simp only [Nat.sub_zero]
    · rw [if_neg (by intro hq; exact hgt hq.1), if_neg hgt]
      exact hrq2 j
  · intro lj nj
    rw [cacheAt_modify_cnt, hcache lj nj, cacheAt_modify_bias]

/-- Concrete node and network for the C3 witness: a `[1, 1]` network whose
compute node has its pre-activation sum cached. -/
def nC3 : Node := { Node.new 0 [0] 1 with sum_cache := some 0 }

/-- The witness network for C3. -/
def nwC3 : Network :=
  { layers := [[AnyNode.start ⟨0⟩], [AnyNode.main nC3]]
    config := { learning_rate := 1, shape := [1, 1] } }

/-- Witness for C3 at a concrete network. -/
theorem C3_witness :
    nwC3.mainAt 1 0 = some nC3 ∧ nC3.sum_cache = some 0 ∧
    (∃ nw', calcNudge idAct 3 nwC3 1 0 = some nw' ∧ nw'.cntAt 1 0 = some 1) := by
  refine ⟨by decide, by decide, ?_⟩
  obtain ⟨nw', h1, h2, h3, h4⟩ := C3_calc_nudge_step idAct 2 nwC3 1 0 nC3 0
    (nC3.requested_nudge * idAct.sigDeriv 0 * nwC3.config.learning_rate)
    (by decide) (by decide) (by decide) (by decide) (by decide)
    (by intro j hj
        have hj0 : j = 0 := by
          simp only [nC3, Node.new, List.length_cons, List.length_nil] at hj
          omega
        subst hj0
        decide)
    (fun hcontra => absurd hcontra (by decide))
    rfl
  exact ⟨nw', h1, h3⟩

/-! ## Claim C4: seeding and the reverse backward sweep -/

/-- Run `calc_nudge` over an explicit list of `(layer, index)` positions,
in list order. -/
def calcFold (A : Act) (f : ℕ) : List (ℕ × ℕ) → Network → Option Network
  | [], nw => some nw
  | p :: rest, nw =>
    match calcNudge A f nw p.1 p.2 with
    | none => none
    | some nw2 => calcFold A f rest nw2

/-- The visit order prescribed by the spec for `train_on_current_data`,
computed from the per-layer node counts `lens`: layer `li` first, then
`li - 1`, …, down to layer 1 — layer 0 excluded — and inside one layer the
node indices in increasing order. -/
def sweepPositions (lens : List ℕ) : ℕ → List (ℕ × ℕ)
  | 0 => []
  | li + 1 =>
    (List.range (lens.getD (li + 1) 0)).map (fun ni => (li + 1, ni)) ++
      sweepPositions lens li

theorem calcFold_append (A : Act) (f : ℕ) :
    ∀ (xs ys : List (ℕ × ℕ)) (nw : Network),
      calcFold A f (xs ++ ys) nw = (calcFold A f xs nw).bind (calcFold A f ys) := by
  intro xs
  induction xs with
  | nil => intro ys nw; rfl
  | cons p rest ih =>
    intro ys nw
    simp only [List.cons_append, calcFold]
    cases calcNudge A f nw p.1 p.2 with
    | none => rfl
    | some nw2 => exact ih ys nw2

theorem lensOf_congr_skel {nw nw₂ : Network} (h : nw.skel = nw₂.skel) :
    nw.layers.map List.length = nw₂.layers.map List.length := by
  have e : ∀ m : Network, m.layers.map List.length = m.skel.map List.length := by
    intro m
    unfold Network.skel
    rw [List.map_map]
    congr 1
    funext l
    simp
  rw [e, e, h]

theorem layers_length_congr_skel {nw nw₂ : Network} (h : nw.skel = nw₂.skel) :
    nw.layers.length = nw₂.layers.length := by
  have := congrArg List.length (lensOf_congr_skel h)
  simpa using this

theorem getD_map_length (ls : List (List AnyNode)) (li : ℕ) :
    (ls.map List.length).getD li 0 = (ls.getD li []).length := by
  rw [List.getD_eq_getElem?_getD, List.getD_eq_getElem?_getD, List.getElem?_map]
  cases ls[li]? <;> rfl

theorem sweepLayerGo_eq_fold (A : Act) (f li : ℕ) :
    ∀ (count ni : ℕ) (nw : Network),
      sweepLayerGo A f li nw ni count =
        calcFold A f ((List.range' ni count).map (fun x => (li, x))) nw := by
  intro count
  induction count with
  | zero => intro ni nw; rfl
  | succ c ih =>
    intro ni nw
    rw [List.range'_succ]
    simp only [sweepLayerGo, List.map_cons, calcFold]
    cases calcNudge A f nw li ni with
    | none => rfl
    | some nw2 => exact ih (ni + 1) nw2

theorem sweepDown_eq_fold (A : Act) (f : ℕ) :
    ∀ (li : ℕ) (nw : Network),
      sweepDown A f nw li =
        calcFold A f (sweepPositions (nw.layers.map List.length) li) nw := by
  intro li
  induction li with
  | zero => intro nw; rfl
  | succ l ih =>
    intro nw
    simp only [sweepDown, sweepPositions]
    rw [calcFold_append, getD_map_length, List.range_eq_range',
      sweepLayerGo_eq_fold A f (l + 1) ((nw.layers.getD (l + 1) []).length) 0 nw]
    cases h1 : calcFold A f ((List.range' 0 ((nw.layers.getD (l + 1) []).length)).map
        (fun x => (l + 1, x))) nw with
    | none => simp only [h1, Option.none_bind]
    | some nw2 =>
      simp only [h1, Option.some_bind]
      rw [ih nw2]
      have hsk : nw2.skel = nw.skel := by
        rw [← sweepLayerGo_eq_fold A f (l + 1)] at h1
        exact skel_sweepLayerGo A f (l + 1) _ 0 nw nw2 h1
      rw [lensOf_congr_skel hsk]

theorem evalRange_length (A : Act) (f li : ℕ) :
    ∀ (count start : ℕ) (nw nw' : Network) (vs : List ℚ),
      evalRange A f li nw start count = some (nw', vs) → vs.length = count := by
  intro count
  induction count with
  | zero =>
    intro start nw nw' vs h
    simp only [evalRange, Option.some.injEq, Prod.mk.injEq] at h
    rw [← h.2]
    rfl
  | succ c ih =>
    intro start nw nw' vs h
    simp only [evalRange] at h
    cases h1 : getValueF A f nw li start with
    | none => simp only [h1] at h; exact Option.noConfusion h
    | some p =>
      obtain ⟨nw2, v⟩ := p
      simp only [h1] at h
      cases h2 : evalRange A f li nw2 (start + 1) c with
      | none => simp only [h2] at h; exact Option.noConfusion h
      | some q =>
        obtain ⟨nw3, rest⟩ := q
        simp only [h2, Option.some.injEq, Prod.mk.injEq] at h
        rw [← h.2]
        simp [ih (start + 1) nw2 nw3 rest h2]

theorem seedLoop_char (L : ℕ) (outs expected : List ℚ) :
    ∀ (count i : ℕ) (nw nw' : Network),
      seedLoop L outs expected nw i count = some nw' →
      ∀ j : ℕ, nw'.reqAt L j =
        if i ≤ j ∧ j < i + count then
          (nw.reqAt L j).bind (fun r => (outs[j]?).bind (fun o =>
            (expected[j]?).map (fun e => r + error_deriv o e * (-1))))
        else nw.reqAt L j := by
  intro count
  induction count with
  | zero =>
    intro i nw nw' h j
    simp only [seedLoop, Option.some.injEq] at h
    subst h
    rw [if_neg (by omega)]
  | succ c ih =>
    intro i nw nw' h j
    simp only [seedLoop] at h
    cases h1 : outs[i]? with
    | none => simp only [h1] at h; exact Option.noConfusion h
    | some o =>
      cases h2 : expected[i]? with
      | none => simp only [h1, h2] at h; exact Option.noConfusion h
      | some e =>
        simp only [h1, h2] at h
        cases h3 : nw.mainAt L i with
        | none => simp only [h3] at h; exact Option.noConfusion h
        | some n0 =>
          simp only [h3] at h
          have hstep := ih (i + 1) _ nw' h j
          rw [hstep]
          have hrq : ∀ jx : ℕ, (nw.modifyMain L i (fun n =>
              n.request_nudge (error_deriv o e * (-1)))).reqAt L jx =
              if i = jx then (nw.reqAt L jx).map (fun r => r + error_deriv o e * (-1))
              else nw.reqAt L jx := by
            intro jx
            unfold Network.reqAt
            rw [mainAt_map_modifyMain]
            by_cases hq : i = jx
            · rw [if_pos ⟨rfl, hq⟩, if_pos hq]
              cases nw.mainAt L jx <;> rfl
            · rw [if_neg (by intro hq2; exact hq hq2.2), if_neg hq]
          by_cases hji : i = j
          · subst hji
            rw [if_neg (by omega), hrq i, if_pos rfl, if_pos ⟨le_rfl, by omega⟩, h1, h2]
            cases nw.reqAt L i <;> rfl
          · by_cases hjr : i + 1 ≤ j ∧ j < i + 1 + c
            · rw [if_pos hjr, hrq j, if_neg hji, if_pos ⟨by omega, by omega⟩]
            · rw [if_neg hjr, hrq j, if_neg hji, if_neg (by omega)]

/-- C4.  `train_on_current_data` first seeds every last-layer node's
pending nudge through `request_nudges_end` — adding exactly the negated
cost derivative `-(2 * (output_i - expected_i))` — and then performs the
backward sweep: `calc_nudge` on every node of every compute layer, layers
visited in reverse order from the last down to layer 1, layer 0 excluded
(`sweepPositions` spells that order out). -/
theorem C4_train_order_and_seeding (A : Act) (f : ℕ) (nw : Network) (expected : List ℚ) :
    (nw.train_on_current_data A f expected =
      (nw.request_nudges_end A f expected).bind
        (calcFold A f (sweepPositions (nw.layers.map List.length)
          (nw.layers.length - 1)))) ∧
    (∀ (nw1 : Network) (outs : List ℚ) (nw2 : Network) (i : ℕ) (o e : ℚ),
      nw.get_outputs A f = some (nw1, outs) →
      nw.request_nudges_end A f expected = some nw2 →
      outs[i]? = some o → expected[i]? = some e →
      nw2.reqAt (nw.layers.length - 1) i =
        (nw1.reqAt (nw.layers.length - 1) i).map (fun r => r + (-(2 * (o - e))))) := by
  constructor
  · unfold Network.train_on_current_data
    cases h1 : nw.request_nudges_end A f expected with
    | none => rfl
    | some nw1 =>
      simp only [Option.some_bind]
      rw [sweepDown_eq_fold]
      have hsk := skel_request_nudges_end A f h1
      rw [lensOf_congr_skel hsk, layers_length_congr_skel hsk]
  · intro nw1 outs nw2 i o e hout hreq ho he
    unfold Network.request_nudges_end at hreq
    rw [hout] at hreq
    simp only [] at hreq
    have hsk := skel_get_outputs A f hout
    have hLL : nw1.layers.length = nw.layers.length := layers_length_congr_skel hsk
    cases hL : nw1.layers.length with
    | zero => rw [hL] at hreq; exact Option.noConfusion hreq
    | succ L =>
      rw [hL] at hreq
      simp only [] at hreq
      have hchar := seedLoop_char L outs expected _ 0 nw1 nw2 hreq i
      have hcount : outs.length = (nw1.layers.getD L []).length := by
        unfold Network.get_outputs at hout
        cases hL2 : nw.layers.length with
        | zero => rw [hL2] at hout; exact Option.noConfusion hout
        | succ L2 =>
          rw [hL2] at hout
          have hL2L : L2 = L := by omega
          subst hL2L
          have hlen2 := evalRange_length A f L2 ((nw.layers.getD L2 []).length) 0
            nw nw1 outs hout
          rw [hlen2]
          have := lensOf_congr_skel hsk
          rw [← getD_map_length, ← getD_map_length, this]
      have hiL : i < (nw1.layers.getD L []).length := by
        have : i < outs.length := lt_length_of_getElem?_some ho
        omega
      rw [if_pos ⟨Nat.zero_le i, by omega⟩, ho, he] at hchar
      have hLeq : nw.layers.length - 1 = L := by omega
      rw [hLeq, hchar]
      cases nw1.reqAt L i with
      | none => rfl
      | some r =>
        simp only [Option.some_bind, Option.map_some', Option.some.injEq]
        unfold error_deriv
        ring

/-- Witness node for C4: both caches populated. -/
def nC4 : Node := { Node.new 0 [0] 1 with sum_cache := some 0, result_cache := some 0 }

/-- Witness network for C4: a `[1, 1]` network with both caches of its
output node populated. -/
def nwC4 : Network :=
  { layers := [[AnyNode.start ⟨0⟩], [AnyNode.main nC4]]
    config := { learning_rate := 1, shape := [1, 1] } }

/-- The state of `nwC4` after `request_nudges_end` with expected `[0]`. -/
def nwC4seeded : Network :=
  { layers := [[AnyNode.start ⟨0⟩],
      [AnyNode.main (nC4.request_nudge (error_deriv 0 0 * (-1)))]]
    config := { learning_rate := 1, shape := [1, 1] } }

/-- Witness for C4's seeding law at a concrete network. -/
theorem C4_witness :
    nwC4.get_outputs idAct 1 = some (nwC4, [0]) ∧
    nwC4.request_nudges_end idAct 1 [0] = some nwC4seeded ∧
    nwC4seeded.reqAt (nwC4.layers.length - 1) 0 =
      (nwC4.reqAt (nwC4.layers.length - 1) 0).map (fun r => r + (-(2 * ((0 : ℚ) - 0)))) := by
  have hyp1 : nwC4.get_outputs idAct 1 = some (nwC4, [0]) := rfl
  have hyp2 : nwC4.request_nudges_end idAct 1 [0] = some nwC4seeded := rfl
  exact ⟨hyp1, hyp2, (C4_train_order_and_seeding idAct 1 nwC4 [0]).2 nwC4 [0] nwC4seeded
    0 0 0 hyp1 hyp2 rfl rfl⟩

/-! ## Claim C6: cache coherence

The source keeps two caches per compute node.  `get_sum` fills only
`sum_cache`, so the caches are NOT "both unset or both set" — that half of
the claim fails on any fresh network after one public `get_sum`.  What does
hold is the directed invariant: whenever `result_cache` holds a value,
`sum_cache` holds one too and the result is the activation of the cached
sum.  Below: the invariant as a decidable predicate, its establishment at
construction, and its preservation by every public operation. -/

/-- Directed cache coherence of one compute node: a populated
`result_cache` forces a populated `sum_cache` holding its preimage under
the activation. -/
def Node.cacheOKb (A : Act) (n : Node) : Bool :=
  match n.result_cache, n.sum_cache with
  | none, _ => true
  | some _, none => false
  | some r, some s => decide (r = A.sig s)

/-- Cache coherence of an arbitrary node (start nodes hold no caches). -/
def AnyNode.cacheOK (A : Act) : AnyNode → Bool
  | .start _ => true
  | .main n => n.cacheOKb A

/-- Cache coherence of every node of the network. -/
def Network.cacheOKb (A : Act) (nw : Network) : Bool :=
  nw.layers.all (fun l => l.all (fun an => an.cacheOK A))

/-- Positional wellformedness of one slot: a compute node stored in layer
`li` carries `layer` field `li` and sits strictly above the input layer. -/
def AnyNode.posOK (li : ℕ) : AnyNode → Bool
  | .start _ => true
  | .main n => decide (n.layer = li ∧ 1 ≤ li)

/-- `layersOK ls k`: every slot of `ls` is positionally wellformed, the
first layer of `ls` having index `k`. -/
def layersOK : List (List AnyNode) → ℕ → Bool
  | [], _ => true
  | l :: rest, k => l.all (AnyNode.posOK k) && layersOK rest (k + 1)

/-- Positional wellformedness of the network: compute nodes appear only in
layers `≥ 1` and carry their own layer index (true of every constructed
network; evaluation reads `n.layer` to locate a node's children, so cache
coherence is meaningful only together with it). -/
def Network.layerOKb (nw : Network) : Bool := layersOK nw.layers 0

/-- The combined wellformedness invariant carried through every public
operation. -/
def Network.wfb (A : Act) (nw : Network) : Bool := nw.layerOKb && nw.cacheOKb A

theorem all_get {α : Type} {p : α → Bool} {l : List α} (h : l.all p = true)
    {i : ℕ} {a : α} (ha : l[i]? = some a) : p a = true := by
  rw [List.all_eq_true] at h
  exact h a (List.getElem?_mem ha)

theorem cacheOK_get_node {A : Act} {nw : Network} (h : nw.cacheOKb A = true)
    {li ni : ℕ} {an : AnyNode} (hn : nw.get_node li ni = some an) :
    an.cacheOK A = true := by
  unfold Network.get_node at hn
  unfold Network.cacheOKb at h
  cases hl : nw.layers[li]? with
  | none => rw [hl] at hn; exact Option.noConfusion hn
  | some l =>
    rw [hl, Option.some_bind] at hn
    exact all_get (all_get h hl) hn

theorem layersOK_get :
    ∀ (ls : List (List AnyNode)) (k : ℕ), layersOK ls k = true →
      ∀ {li ni : ℕ} {l : List AnyNode} {an : AnyNode},
        ls[li]? = some l → l[ni]? = some an → an.posOK (k + li) = true := by
  intro ls
  induction ls with
  | nil => intro k _ li ni l an hl; exact Option.noConfusion hl
  | cons l0 rest ih =>
    intro k h li ni l an hl ha
    simp only [layersOK, Bool.and_eq_true] at h
    cases li with
    | zero =>
      rw [List.getElem?_cons_zero, Option.some.injEq] at hl
      subst hl
      rw [Nat.add_zero]
      exact all_get h.1 ha
    | succ m =>
      rw [List.getElem?_cons_succ] at hl
      have := ih (k + 1) h.2 hl ha
      rw [show k + (m + 1) = k + 1 + m from by omega]
      exact this

theorem layerOK_get_node {nw : Network} (h : nw.layerOKb = true)
    {li ni : ℕ} {n : Node} (hn : nw.get_node li ni = some (.main n)) :
    n.layer = li ∧ 1 ≤ li := by
  unfold Network.get_node at hn
  cases hl : nw.layers[li]? with
  | none => rw [hl] at hn; exact Option.noConfusion hn
  | some l =>
    rw [hl, Option.some_bind] at hn
    have hp := layersOK_get nw.layers 0 h hl hn
    rw [Nat.zero_add] at hp
    simp only [AnyNode.posOK, decide_eq_true_eq] at hp
    exact hp

theorem all_listModify_at {α : Type} (p : α → Bool) (g : α → α) :
    ∀ (l : List α) (i : ℕ), l.all p = true →
      (∀ a, l[i]? = some a → p a = true → p (g a) = true) →
      (listModify g i l).all p = true := by
  intro l
  induction l with
  | nil => intro i h _; rw [listModify_nil]; exact h
  | cons a rest ih =>
    intro i h hg
    rw [List.all_cons, Bool.and_eq_true] at h
    cases i with
    | zero =>
      show (g a :: rest).all p = true
      rw [List.all_cons, Bool.and_eq_true]
      exact ⟨hg a (by rw [List.getElem?_cons_zero]) h.1, h.2⟩
    | succ m =>
      show (a :: listModify g m rest).all p = true
      rw [List.all_cons, Bool.and_eq_true]
      refine ⟨h.1, ih m h.2 ?_⟩
      intro b hb hpb
      exact hg b (by rw [List.getElem?_cons_succ]; exact hb) hpb

theorem layersOK_listModify (f : List AnyNode → List AnyNode)
    (hf : ∀ (j : ℕ) (l : List AnyNode), l.all (AnyNode.posOK j) = true →
      (f l).all (AnyNode.posOK j) = true) :
    ∀ (ls : List (List AnyNode)) (k li : ℕ), layersOK ls k = true →
      layersOK (listModify f li ls) k = true := by
  intro ls
  induction ls with
  | nil => intro k li h; rw [listModify_nil]; exact h
  | cons l0 rest ih =>
    intro k li h
    simp only [layersOK, Bool.and_eq_true] at h
    cases li with
    | zero =>
      show ((f l0).all (AnyNode.posOK k) && layersOK rest (k + 1)) = true
      rw [Bool.and_eq_true]
      exact ⟨hf k l0 h.1, h.2⟩
    | succ m =>
      show (l0.all (AnyNode.posOK k) && layersOK (listModify f m rest) (k + 1)) = true
      rw [Bool.and_eq_true]
      exact ⟨h.1, ih (k + 1) m h.2⟩

theorem cacheOK_modifyMain_at {A : Act} {nw : Network} (h : nw.cacheOKb A = true)
    (li ni : ℕ) {g : Node → Node}
    (hg : ∀ n : Node, nw.get_node li ni = some (.main n) → n.cacheOKb A = true →
      (g n).cacheOKb A = true) :
    (nw.modifyMain li ni g).cacheOKb A = true := by
  unfold Network.cacheOKb at h
  show (listModify (fun l => listModify (mapMainNode g) ni l) li nw.layers).all
    (fun l => l.all (fun an => an.cacheOK A)) = true
  refine all_listModify_at _ _ nw.layers li h ?_
  intro l hl hall
  refine all_listModify_at _ _ l ni hall ?_
  intro an han hok
  cases an with
  | start s => exact hok
  | main n =>
    have hnode : nw.get_node li ni = some (.main n) := by
      unfold Network.get_node
      rw [hl, Option.some_bind, han]
    exact hg n hnode hok

theorem layerOK_modifyMain {nw : Network} (h : nw.layerOKb = true) (li ni : ℕ)
    {g : Node → Node} (hg : ∀ n : Node, (g n).layer = n.layer) :
    (nw.modifyMain li ni g).layerOKb = true := by
  show layersOK (listModify (fun l => listModify (mapMainNode g) ni l) li nw.layers) 0 = true
  refine layersOK_listModify _ ?_ nw.layers 0 li h
  intro j l hl
  refine all_listModify_at _ _ l ni hl ?_
  intro an _ hpan
  cases an with
  | start s => exact hpan
  | main n =>
    show (AnyNode.main (g n)).posOK j = true
    simp only [AnyNode.posOK, decide_eq_true_eq] at hpan ⊢
    rw [hg n]
    exact hpan

theorem wfb_and {A : Act} {nw : Network} :
    nw.wfb A = true ↔ (nw.layerOKb = true ∧ nw.cacheOKb A = true) := by
  unfold Network.wfb
  rw [Bool.and_eq_true]

theorem layersOK_listModify_at (f : List AnyNode → List AnyNode) :
    ∀ (ls : List (List AnyNode)) (k li : ℕ), layersOK ls k = true →
      (∀ l, ls[li]? = some l → l.all (AnyNode.posOK (k + li)) = true →
        (f l).all (AnyNode.posOK (k + li)) = true) →
      layersOK (listModify f li ls) k = true := by
  intro ls
  induction ls with
  | nil => intro k li h _; rw [listModify_nil]; exact h
  | cons l0 rest ih =>
    intro k li h hf
    simp only [layersOK, Bool.and_eq_true] at h
    cases li with
    | zero =>
      have hf0 := hf l0 (by rw [List.getElem?_cons_zero])
      rw [Nat.add_zero] at hf0
      show ((f l0).all (AnyNode.posOK k) && layersOK rest (k + 1)) = true
      rw [Bool.and_eq_true]
      exact ⟨hf0 h.1, h.2⟩
    | succ m =>
      show (l0.all (AnyNode.posOK k) && layersOK (listModify f m rest) (k + 1)) = true
      rw [Bool.and_eq_true]
      refine ⟨h.1, ih (k + 1) m h.2 ?_⟩
      intro l hl hall
      have hstep := hf l (by rw [List.getElem?_cons_succ]; exact hl)
      rw [show k + (m + 1) = k + 1 + m from by omega] at hstep
      exact hstep hall

theorem layerOK_modifyMain_at {nw : Network} (h : nw.layerOKb = true) (li ni : ℕ)
    {g : Node → Node}
    (hg : ∀ n : Node, nw.get_node li ni = some (.main n) → (g n).layer = n.layer) :
    (nw.modifyMain li ni g).layerOKb = true := by
  show layersOK (listModify (fun l => listModify (mapMainNode g) ni l) li nw.layers) 0 = true
  refine layersOK_listModify_at _ nw.layers 0 li h ?_
  intro l hl hall
  refine all_listModify_at _ _ l ni hall ?_
  intro an han hpan
  cases an with
  | start s => exact hpan
  | main n =>
    have hnode : nw.get_node li ni = some (.main n) := by
      unfold Network.get_node
      rw [hl, Option.some_bind, han]
    show (AnyNode.main (g n)).posOK (0 + li) = true
    simp only [AnyNode.posOK, decide_eq_true_eq] at hpan ⊢
    rw [hg n hnode]
    exact hpan

theorem wf_modifyMain {A : Act} {nw : Network} (h : nw.wfb A = true) (li ni : ℕ)
    {g : Node → Node}
    (hlayer : ∀ n : Node, nw.get_node li ni = some (.main n) → (g n).layer = n.layer)
    (hcache : ∀ n : Node, nw.get_node li ni = some (.main n) → n.cacheOKb A = true →
      (g n).cacheOKb A = true) :
    (nw.modifyMain li ni g).wfb A = true := by
  rw [wfb_and] at h ⊢
  exact ⟨layerOK_modifyMain_at h.1 li ni hlayer, cacheOK_modifyMain_at h.2 li ni hcache⟩

/-- `cacheOKb` reads only the two caches. -/
theorem cacheOKb_eq_of_caches {A : Act} {n m : Node} (hs : m.sum_cache = n.sum_cache)
    (hr : m.result_cache = n.result_cache) : m.cacheOKb A = n.cacheOKb A := by
  unfold Node.cacheOKb
  rw [hs, hr]

theorem node_eta_sum {n : Node} {c : Option ℚ} (h : n.sum_cache = c) :
    { n with sum_cache := c } = n := by
  cases n
  subst h
  rfl

theorem cacheOKb_of_result_none {A : Act} {n : Node} (h : n.result_cache = none) :
    n.cacheOKb A = true := by
  unfold Node.cacheOKb
  rw [h]

theorem posOK_invalidate (li : ℕ) (an : AnyNode) (h : an.posOK li = true) :
    (an.invalidate).posOK li = true := by
  cases an with
  | start s => exact h
  | main n => exact h

theorem layersOK_map_invalidate :
    ∀ (ls : List (List AnyNode)) (k : ℕ), layersOK ls k = true →
      layersOK (ls.map (List.map AnyNode.invalidate)) k = true := by
  intro ls
  induction ls with
  | nil => intro k h; exact h
  | cons l0 rest ih =>
    intro k h
    simp only [List.map_cons, layersOK, Bool.and_eq_true] at h ⊢
    obtain ⟨h1, h2⟩ := h
    refine ⟨?_, ih (k + 1) h2⟩
    rw [List.all_map, List.all_eq_true]
    rw [List.all_eq_true] at h1
    intro a ha
    exact posOK_invalidate k a (h1 a ha)

theorem cacheOK_invalidate_any {A : Act} (an : AnyNode) :
    (an.invalidate).cacheOK A = true := by
  cases an with
  | start s => rfl
  | main n => rfl

theorem wf_network_invalidate {A : Act} {nw : Network} (h : nw.wfb A = true) :
    nw.invalidate.wfb A = true := by
  rw [wfb_and] at h ⊢
  obtain ⟨hL, hC⟩ := h
  constructor
  · have hL2 : layersOK nw.layers 0 = true := hL
    show layersOK
      (nw.layers.take 1 ++ (nw.layers.drop 1).map (List.map AnyNode.invalidate)) 0 = true
    cases hls : nw.layers with
    | nil => rfl
    | cons l0 rest =>
      rw [hls] at hL2
      show layersOK (l0 :: rest.map (List.map AnyNode.invalidate)) 0 = true
      simp only [layersOK, Bool.and_eq_true] at hL2 ⊢
      exact ⟨hL2.1, layersOK_map_invalidate rest 1 hL2.2⟩
  · show ((nw.layers.take 1 ++ (nw.layers.drop 1).map (List.map AnyNode.invalidate)).all
      (fun l => l.all (fun an => an.cacheOK A))) = true
    rw [List.all_append, Bool.and_eq_true]
    constructor
    · unfold Network.cacheOKb at hC
      rw [List.all_eq_true] at hC ⊢
      intro l hl
      exact hC l (List.mem_of_mem_take hl)
    · rw [List.all_map, List.all_eq_true]
      intro l _
      show (l.map AnyNode.invalidate).all (fun an => an.cacheOK A) = true
      rw [List.all_map, List.all_eq_true]
      intro a _
      exact cacheOK_invalidate_any a

/-! ### Wellformedness preservation by evaluation

Evaluation writes the caches it just computed, so coherence must be
re-established at every write.  The frame half — a pull at `(li, ni)`
touches no slot of a layer `≥ li` other than `(li, ni)` itself — is what
lets the `sum_cache` written by `get_sum` survive until `get_value`
completes it with the matching `result_cache`. -/

/-- Package on a child evaluator: it preserves wellformedness and writes
only at its own position and below. -/
def EvWF (A : Act) (ev : Network → ℕ → ℕ → Option (Network × ℚ)) : Prop :=
  ∀ (nw : Network) (li ni : ℕ) (nw' : Network) (v : ℚ),
    nw.wfb A = true → ev nw li ni = some (nw', v) →
    nw'.wfb A = true ∧
    ∀ lj nj, li ≤ lj → (lj ≠ li ∨ nj ≠ ni) → nw'.get_node lj nj = nw.get_node lj nj

theorem wf_sumChildren {A : Act} {ev : Network → ℕ → ℕ → Option (Network × ℚ)}
    (hev : EvWF A ev) (lc : ℕ) (hlc : 1 ≤ lc) :
    ∀ (ws : List ℚ) (nw : Network) (i : ℕ) (nw3 : Network) (s : ℚ),
      nw.wfb A = true → sumChildren ev lc nw ws i = some (nw3, s) →
      nw3.wfb A = true ∧ ∀ lj nj, lc ≤ lj → nw3.get_node lj nj = nw.get_node lj nj := by
  intro ws
  induction ws with
  | nil =>
    intro nw i nw3 s hwf h
    simp only [sumChildren, Option.some.injEq, Prod.mk.injEq] at h
    obtain ⟨h1, _⟩ := h
    subst h1
    exact ⟨hwf, fun _ _ _ => rfl⟩
  | cons w rest ih =>
    intro nw i nw3 s hwf h
    simp only [sumChildren] at h
    cases h1 : ev nw (lc - 1) i with
    | none => rw [h1] at h; exact Option.noConfusion h
    | some p =>
      obtain ⟨nw2, x⟩ := p
      rw [h1] at h
      simp only [] at h
      cases h2 : sumChildren ev lc nw2 rest (i + 1) with
      | none => rw [h2] at h; exact Option.noConfusion h
      | some q =>
        obtain ⟨nwr, sr⟩ := q
        rw [h2] at h
        simp only [Option.some.injEq, Prod.mk.injEq] at h
        obtain ⟨h3, _⟩ := h
        rw [h3] at h2
        obtain ⟨hwf2, hfr2⟩ := hev nw (lc - 1) i nw2 x hwf h1
        obtain ⟨hwf3, hfr3⟩ := ih nw2 (i + 1) nw3 sr hwf2 h2
        refine ⟨hwf3, ?_⟩
        intro lj nj hle
        rw [hfr3 lj nj hle]
        exact hfr2 lj nj (by omega) (Or.inl (by omega))

theorem wf_getSumGiven {A : Act} {ev : Network → ℕ → ℕ → Option (Network × ℚ)}
    (hev : EvWF A ev) :
    ∀ (nw : Network) (li ni : ℕ) (nw' : Network) (s : ℚ),
      nw.wfb A = true → getSumGiven ev nw li ni = some (nw', s) →
      (nw'.wfb A = true ∧
        (∀ lj nj, li ≤ lj → (lj ≠ li ∨ nj ≠ ni) → nw'.get_node lj nj = nw.get_node lj nj)) ∧
      ∀ n : Node, nw.get_node li ni = some (.main n) →
        nw'.get_node li ni = some (.main { n with sum_cache := some s }) := by
  intro nw li ni nw' s hwf h
  unfold getSumGiven at h
  cases hn : nw.get_node li ni with
  | none => rw [hn] at h; exact Option.noConfusion h
  | some an =>
    cases an with
    | start st => rw [hn] at h; exact Option.noConfusion h
    | main n =>
      rw [hn] at h
      simp only [] at h
      cases hc : n.sum_cache with
      | some cached =>
        rw [hc] at h
        simp only [Option.some.injEq, Prod.mk.injEq] at h
        obtain ⟨h1, h2⟩ := h
        subst h1
        subst h2
        refine ⟨⟨hwf, fun _ _ _ _ => rfl⟩, ?_⟩
        intro m hm
        injection hm with hm1
        injection hm1 with hm2
        rw [hn, ← hm2, node_eta_sum hc]
      | none =>
        rw [hc] at h
        simp only [] at h
        cases hsc : sumChildren ev n.layer nw n.inp_w 0 with
        | none => rw [hsc] at h; exact Option.noConfusion h
        | some p =>
          obtain ⟨nw2, ssum⟩ := p
          rw [hsc] at h
          simp only [Option.some.injEq, Prod.mk.injEq] at h
          obtain ⟨h1, h2⟩ := h
          obtain ⟨hlay, hli⟩ := layerOK_get_node ((wfb_and.mp hwf).1) hn
          rw [hlay] at hsc
          obtain ⟨hwf2, hfr2⟩ := wf_sumChildren hev li hli n.inp_w nw 0 nw2 ssum hwf hsc
          have hnode2 : nw2.get_node li ni = some (.main n) := by
            rw [hfr2 li ni le_rfl, hn]
          have hcok : n.cacheOKb A = true := cacheOK_get_node (wfb_and.mp hwf).2 hn
          have hrc : n.result_cache = none := by
            unfold Node.cacheOKb at hcok
            cases hr : n.result_cache with
            | none => rfl
            | some r => rw [hr, hc] at hcok; exact Bool.noConfusion hcok
          subst h1
          refine ⟨⟨?_, ?_⟩, ?_⟩
          · show (nw2.modifyMain li ni
              (fun m => { m with sum_cache := some (ssum + n.bias) })).wfb A = true
            refine wf_modifyMain hwf2 li ni (fun m _ => rfl) ?_
            intro m hm _
            rw [hnode2] at hm
            injection hm with hm1
            injection hm1 with hm2
            refine cacheOKb_of_result_none ?_
            show ({ m with sum_cache := some (ssum + n.bias) } : Node).result_cache = none
            rw [← hm2]
            exact hrc
          · intro lj nj hle hne
            show (nw2.modifyMain li ni
              (fun m => { m with sum_cache := some (ssum + n.bias) })).get_node lj nj
              = nw.get_node lj nj
            rw [get_node_modifyMain,
              if_neg (fun hq => by
                cases hne with
                | inl hx => exact hx hq.1.symm
                | inr hx => exact hx hq.2.symm),
              hfr2 lj nj hle]
          · intro m hm
            injection hm with hm1
            injection hm1 with hm2
            show (nw2.modifyMain li ni
              (fun x => { x with sum_cache := some (ssum + n.bias) })).get_node li ni
              = some (.main { m with sum_cache := some s })
            rw [get_node_modifyMain, if_pos ⟨rfl, rfl⟩, hnode2, ← hm2, h2]
            rfl

/-- Master lemma: `get_value` at any fuel preserves wellformedness and
writes only at its own position and below. -/
theorem wf_getValueF (A : Act) : ∀ fuel : ℕ, EvWF A (getValueF A fuel) := by
  intro fuel
  induction fuel with
  | zero =>
    intro nw li ni nw' v _ h
    exact Option.noConfusion h
  | succ fuel ih =>
    intro nw li ni nw' v hwf h
    simp only [getValueF] at h
    cases hn : nw.get_node li ni with
    | none => simp only [hn] at h; exact Option.noConfusion h
    | some an =>
      cases an with
      | start st =>
        simp only [hn, Option.some.injEq, Prod.mk.injEq] at h
        obtain ⟨h1, _⟩ := h
        subst h1
        exact ⟨hwf, fun _ _ _ _ => rfl⟩
      | main n =>
        simp only [hn] at h
        cases hr : n.result_cache with
        | some cached =>
          simp only [hr, Option.some.injEq, Prod.mk.injEq] at h
          obtain ⟨h1, _⟩ := h
          subst h1
          exact ⟨hwf, fun _ _ _ _ => rfl⟩
        | none =>
          simp only [hr] at h
          cases hg : getSumGiven (getValueF A fuel) nw li ni with
          | none => simp only [hg] at h; exact Option.noConfusion h
          | some p =>
            obtain ⟨nw2, inp⟩ := p
            simp only [hg, Option.some.injEq, Prod.mk.injEq] at h
            obtain ⟨h1, _⟩ := h
            obtain ⟨⟨hwf2, hfr2⟩, hnode⟩ := wf_getSumGiven ih nw li ni nw2 inp hwf hg
            have hn2 := hnode n hn
            subst h1
            constructor
            · show (nw2.modifyMain li ni
                (fun m => { m with result_cache := some (A.sig inp) })).wfb A = true
              refine wf_modifyMain hwf2 li ni (fun m _ => rfl) ?_
              intro m hm _
              rw [hn2] at hm
              injection hm with hm1
              injection hm1 with hm2
              show Node.cacheOKb A { m with result_cache := some (A.sig inp) } = true
              rw [← hm2]
              show Node.cacheOKb A
                { n with sum_cache := some inp, result_cache := some (A.sig inp) } = true
              show decide (A.sig inp = A.sig inp) = true
              exact decide_eq_true rfl
            · intro lj nj hle hne
              show (nw2.modifyMain li ni
                (fun m => { m with result_cache := some (A.sig inp) })).get_node lj nj
                = nw.get_node lj nj
              rw [get_node_modifyMain,
                if_neg (fun hq => by
                  cases hne with
                  | inl hx => exact hx hq.1.symm
                  | inr hx => exact hx hq.2.symm),
                hfr2 lj nj hle hne]

theorem wf_getValue_net {A : Act} {fuel : ℕ} {nw : Network} {li ni : ℕ} {nw' : Network}
    {v : ℚ} (hwf : nw.wfb A = true) (h : getValueF A fuel nw li ni = some (nw', v)) :
    nw'.wfb A = true :=
  (wf_getValueF A fuel nw li ni nw' v hwf h).1

theorem wf_getSumF_net {A : Act} {fuel : ℕ} {nw : Network} {li ni : ℕ} {nw' : Network}
    {s : ℚ} (hwf : nw.wfb A = true) (h : getSumF A fuel nw li ni = some (nw', s)) :
    nw'.wfb A = true :=
  ((wf_getSumGiven (wf_getValueF A fuel) nw li ni nw' s hwf h).1).1

theorem wf_evalRange {A : Act} {fuel li : ℕ} :
    ∀ (count start : ℕ) (nw nw' : Network) (vs : List ℚ), nw.wfb A = true →
      evalRange A fuel li nw start count = some (nw', vs) → nw'.wfb A = true := by
  intro count
  induction count with
  | zero =>
    intro start nw nw' vs hwf h
    simp only [evalRange, Option.some.injEq, Prod.mk.injEq] at h
    obtain ⟨h1, _⟩ := h
    subst h1
    exact hwf
  | succ c ih =>
    intro start nw nw' vs hwf h
    simp only [evalRange] at h
    cases h1 : getValueF A fuel nw li start with
    | none => simp only [h1] at h; exact Option.noConfusion h
    | some p =>
      obtain ⟨nw2, v⟩ := p
      simp only [h1] at h
      cases h2 : evalRange A fuel li nw2 (start + 1) c with
      | none => simp only [h2] at h; exact Option.noConfusion h
      | some q =>
        obtain ⟨nw3, rest⟩ := q
        simp only [h2, Option.some.injEq, Prod.mk.injEq] at h
        obtain ⟨h3, _⟩ := h
        subst h3
        exact ih (start + 1) nw2 nw3 rest (wf_getValue_net hwf h1) h2

theorem wf_get_outputs {A : Act} {fuel : ℕ} {nw nw' : Network} {vs : List ℚ}
    (hwf : nw.wfb A = true) (h : nw.get_outputs A fuel = some (nw', vs)) :
    nw'.wfb A = true := by
  unfold Network.get_outputs at h
  cases hL : nw.layers.length with
  | zero => rw [hL] at h; exact Option.noConfusion h
  | succ L =>
    rw [hL] at h
    exact wf_evalRange _ 0 nw nw' vs hwf h

theorem wf_get_output {A : Act} {fuel : ℕ} {nw nw' : Network} {i : ℕ} {v : ℚ}
    (hwf : nw.wfb A = true) (h : nw.get_output A fuel i = some (nw', v)) :
    nw'.wfb A = true := by
  unfold Network.get_output at h
  cases hL : nw.layers.length with
  | zero => rw [hL] at h; exact Option.noConfusion h
  | succ L =>
    rw [hL] at h
    exact wf_getValue_net hwf h

theorem wf_get_current_cost {A : Act} {fuel : ℕ} {nw nw' : Network} {expected : List ℚ}
    {c : ℚ} (hwf : nw.wfb A = true) (h : nw.get_current_cost A fuel expected = some (nw', c)) :
    nw'.wfb A = true := by
  unfold Network.get_current_cost at h
  cases hL : nw.layers.length with
  | zero => rw [hL] at h; exact Option.noConfusion h
  | succ L =>
    rw [hL] at h
    simp only [] at h
    by_cases hlen : (nw.layers.getD L []).length = expected.length
    · rw [if_pos hlen] at h
      cases h1 : evalRange A fuel L nw 0 ((nw.layers.getD L []).length) with
      | none => simp only [h1] at h; exact Option.noConfusion h
      | some q =>
        obtain ⟨nw2, outs⟩ := q
        simp only [h1, Option.some.injEq, Prod.mk.injEq] at h
        obtain ⟨h2, _⟩ := h
        subst h2
        exact wf_evalRange _ 0 nw nw2 outs hwf h1
    · rw [if_neg hlen] at h
      exact Option.noConfusion h

theorem all_setStartValues {p : AnyNode → Bool} (hp : ∀ s : StartNode, p (.start s) = true) :
    ∀ (l : List AnyNode) (vs : List ℚ) (l2 : List AnyNode),
      setStartValues l vs = some l2 → l2.all p = true := by
  intro l
  induction l with
  | nil =>
    intro vs l2 h
    cases vs with
    | nil =>
      simp only [setStartValues, Option.some.injEq] at h
      rw [← h]
      rfl
    | cons v vs2 => exact Option.noConfusion h
  | cons a rest ih =>
    intro vs l2 h
    cases a with
    | start s0 =>
      cases vs with
      | nil => exact Option.noConfusion h
      | cons v vs2 =>
        simp only [setStartValues] at h
        cases h2 : setStartValues rest vs2 with
        | none => simp only [h2] at h; exact Option.noConfusion h
        | some r =>
          simp only [h2, Option.map_some', Option.some.injEq] at h
          rw [← h, List.all_cons, Bool.and_eq_true]
          exact ⟨hp ⟨v⟩, ih vs2 r h2⟩
    | main n =>
      cases vs with
      | nil => exact Option.noConfusion h
      | cons v vs2 => exact Option.noConfusion h

theorem wf_set_inputs {A : Act} {nw nw' : Network} {vs : List ℚ}
    (hwf : nw.wfb A = true) (h : nw.set_inputs vs = some nw') : nw'.wfb A = true := by
  unfold Network.set_inputs at h
  cases hls : nw.layers with
  | nil => rw [hls] at h; exact Option.noConfusion h
  | cons l0 rest =>
    rw [hls] at h
    simp only [] at h
    by_cases hlen : vs.length = l0.length
    · rw [if_pos hlen] at h
      cases h2 : setStartValues l0 vs with
      | none => simp only [h2] at h; exact Option.noConfusion h
      | some l0x =>
        simp only [h2, Option.map_some', Option.some.injEq] at h
        rw [← h]
        rw [wfb_and] at hwf ⊢
        obtain ⟨hL, hC⟩ := hwf
        have hL2 : layersOK nw.layers 0 = true := hL
        have hC2 : nw.layers.all (fun l => l.all (fun an => an.cacheOK A)) = true := hC
        rw [hls] at hL2 hC2
        simp only [layersOK, List.all_cons, Bool.and_eq_true] at hL2 hC2
        constructor
        · show layersOK (l0x :: rest) 0 = true
          simp only [layersOK, Bool.and_eq_true]
          exact ⟨all_setStartValues (fun s => rfl) l0 vs l0x h2, hL2.2⟩
        · show ((l0x :: rest).all (fun l => l.all (fun an => an.cacheOK A))) = true
          simp only [List.all_cons, Bool.and_eq_true]
          exact ⟨all_setStartValues (fun s => rfl) l0 vs l0x h2, hC2.2⟩
    · rw [if_neg hlen] at h
      exact Option.noConfusion h

theorem wf_set_input {A : Act} {nw nw' : Network} {i : ℕ} {v : ℚ}
    (hwf : nw.wfb A = true) (h : nw.set_input i v = some nw') : nw'.wfb A = true := by
  unfold Network.set_input at h
  cases hn : nw.get_node 0 i with
  | none => simp only [hn] at h; exact Option.noConfusion h
  | some a =>
    cases a with
    | main n => simp only [hn] at h; exact Option.noConfusion h
    | start s0 =>
      simp only [hn, Option.some.injEq] at h
      rw [← h]
      rw [wfb_and] at hwf ⊢
      obtain ⟨hL, hC⟩ := hwf
      constructor
      · show layersOK
          (listModify (fun l => listModify (fun _ => AnyNode.start ⟨v⟩) i l) 0 nw.layers)
          0 = true
        refine layersOK_listModify _ ?_ nw.layers 0 0 hL
        intro j l hall
        refine all_listModify_at _ _ l i hall ?_
        intro a _ _
        rfl
      · show ((listModify (fun l => listModify (fun _ => AnyNode.start ⟨v⟩) i l) 0
          nw.layers).all (fun l => l.all (fun an => an.cacheOK A))) = true
        have hC2 : nw.layers.all (fun l => l.all (fun an => an.cacheOK A)) = true := hC
        refine all_listModify_at _ _ nw.layers 0 hC2 ?_
        intro l _ hall
        refine all_listModify_at _ _ l i hall ?_
        intro a _ _
        rfl

theorem wf_seedLoop {A : Act} {L : ℕ} {outs expected : List ℚ} :
    ∀ (count : ℕ) (nw : Network) (i : ℕ) (nw' : Network), nw.wfb A = true →
      seedLoop L outs expected nw i count = some nw' → nw'.wfb A = true := by
  intro count
  induction count with
  | zero =>
    intro nw i nw' hwf h
    simp only [seedLoop, Option.some.injEq] at h
    subst h
    exact hwf
  | succ c ih =>
    intro nw i nw' hwf h
    simp only [seedLoop] at h
    cases ho : outs[i]? with
    | none => simp only [ho] at h; exact Option.noConfusion h
    | some o =>
      cases he : expected[i]? with
      | none => simp only [ho, he] at h; exact Option.noConfusion h
      | some e =>
        simp only [ho, he] at h
        cases hm : nw.mainAt L i with
        | none => simp only [hm] at h; exact Option.noConfusion h
        | some n =>
          simp only [hm] at h
          refine ih _ (i + 1) nw' ?_ h
          exact wf_modifyMain hwf L i (fun m _ => rfl)
            (fun m _ hok => (cacheOKb_eq_of_caches rfl rfl).trans hok)

theorem wf_request_nudges_end {A : Act} {fuel : ℕ} {nw nw' : Network} {expected : List ℚ}
    (hwf : nw.wfb A = true) (h : nw.request_nudges_end A fuel expected = some nw') :
    nw'.wfb A = true := by
  unfold Network.request_nudges_end at h
  cases h1 : nw.get_outputs A fuel with
  | none => simp only [h1] at h; exact Option.noConfusion h
  | some p =>
    obtain ⟨nw1, outs⟩ := p
    simp only [h1] at h
    cases hL : nw1.layers.length with
    | zero => simp only [hL] at h; exact Option.noConfusion h
    | succ L =>
      simp only [hL] at h
      exact wf_seedLoop _ nw1 0 nw' (wf_get_outputs hwf h1) h

theorem wf_calcNudgeLoop {A : Act} {fuel li ni layerIdx : ℕ} {base : ℚ} :
    ∀ (ws : List ℚ) (i : ℕ) (nw nw' : Network), nw.wfb A = true →
      calcNudgeLoop A fuel li ni layerIdx base nw ws i = some nw' → nw'.wfb A = true := by
  intro ws
  induction ws with
  | nil =>
    intro i nw nw' hwf h
    simp only [calcNudgeLoop, Option.some.injEq] at h
    subst h
    exact hwf
  | cons w rest ih =>
    intro i nw nw' hwf h
    simp only [calcNudgeLoop] at h
    cases h1 : getValueF A fuel nw (layerIdx - 1) i with
    | none => simp only [h1] at h; exact Option.noConfusion h
    | some p =>
      obtain ⟨nw2, v⟩ := p
      simp only [h1] at h
      cases h2 : (nw2.mainAt li ni).bind (fun n => n.inp_w_nudge_sum[i]?) with
      | none => simp only [h2] at h; exact Option.noConfusion h
      | some x =>
        simp only [h2] at h
        have hwf3 : (nw2.modifyMain li ni (fun n =>
            { n with inp_w_nudge_sum :=
                listModify (fun y => y + base * v) i n.inp_w_nudge_sum })).wfb A = true :=
          wf_modifyMain (wf_getValue_net hwf h1) li ni (fun m _ => rfl)
            (fun m _ hok => (cacheOKb_eq_of_caches rfl rfl).trans hok)
        by_cases h3 : 1 < layerIdx
        · rw [if_pos h3] at h
          cases h4 : (nw2.modifyMain li ni (fun n =>
              { n with inp_w_nudge_sum :=
                  listModify (fun x => x + base * v) i n.inp_w_nudge_sum })).mainAt
                (layerIdx - 1) i with
          | none => simp only [h4] at h; exact Option.noConfusion h
          | some m =>
            simp only [h4] at h
            refine ih (i + 1) _ nw' ?_ h
            exact wf_modifyMain hwf3 (layerIdx - 1) i (fun m2 _ => rfl)
              (fun m2 _ hok => (cacheOKb_eq_of_caches rfl rfl).trans hok)
        · rw [if_neg h3] at h
          exact ih (i + 1) _ nw' hwf3 h

theorem wf_calcNudge {A : Act} {fuel : ℕ} {nw nw' : Network} {li ni : ℕ}
    (hwf : nw.wfb A = true) (h : calcNudge A fuel nw li ni = some nw') :
    nw'.wfb A = true := by
  unfold calcNudge at h
  cases h1 : getSumF A fuel nw li ni with
  | none => simp only [h1] at h; exact Option.noConfusion h
  | some p =>
    obtain ⟨nw1, s⟩ := p
    simp only [h1] at h
    cases h2 : nw1.mainAt li ni with
    | none => simp only [h2] at h; exact Option.noConfusion h
    | some n =>
      simp only [h2] at h
      cases h3 : calcNudgeLoop A fuel li ni n.layer
          (n.requested_nudge * A.sigDeriv s * nw1.config.learning_rate)
          (nw1.modifyMain li ni (fun m =>
            { m with bias_nudge_sum := m.bias_nudge_sum +
                n.requested_nudge * A.sigDeriv s * nw1.config.learning_rate })) n.inp_w 0 with
      | none => simp only [h3] at h; exact Option.noConfusion h
      | some nw3 =>
        simp only [h3, Option.some.injEq] at h
        subst h
        have hwf1 := wf_getSumF_net hwf h1
        have hwf2 : (nw1.modifyMain li ni (fun m =>
            { m with bias_nudge_sum := m.bias_nudge_sum +
                n.requested_nudge * A.sigDeriv s * nw1.config.learning_rate })).wfb A = true :=
          wf_modifyMain hwf1 li ni (fun m _ => rfl)
            (fun m _ hok => (cacheOKb_eq_of_caches rfl rfl).trans hok)
        have hwf3 := wf_calcNudgeLoop n.inp_w 0 _ nw3 hwf2 h3
        exact wf_modifyMain hwf3 li ni (fun m _ => rfl)
          (fun m _ hok => (cacheOKb_eq_of_caches rfl rfl).trans hok)

theorem wf_sweepLayerGo {A : Act} {fuel li : ℕ} :
    ∀ (count : ℕ) (nw : Network) (ni : ℕ) (nw' : Network), nw.wfb A = true →
      sweepLayerGo A fuel li nw ni count = some nw' → nw'.wfb A = true := by
  intro count
  induction count with
  | zero =>
    intro nw ni nw' hwf h
    simp only [sweepLayerGo, Option.some.injEq] at h
    subst h
    exact hwf
  | succ c ih =>
    intro nw ni nw' hwf h
    simp only [sweepLayerGo] at h
    cases h1 : calcNudge A fuel nw li ni with
    | none => simp only [h1] at h; exact Option.noConfusion h
    | some nw2 =>
      simp only [h1] at h
      exact ih nw2 (ni + 1) nw' (wf_calcNudge hwf h1) h

theorem wf_sweepDown {A : Act} {fuel : ℕ} :
    ∀ (k : ℕ) (nw nw' : Network), nw.wfb A = true →
      sweepDown A fuel nw k = some nw' → nw'.wfb A = true := by
  intro k
  induction k with
  | zero =>
    intro nw nw' hwf h
    simp only [sweepDown, Option.some.injEq] at h
    subst h
    exact hwf
  | succ m ih =>
    intro nw nw' hwf h
    simp only [sweepDown] at h
    cases h1 : sweepLayerGo A fuel (m + 1) nw 0 ((nw.layers.getD (m + 1) []).length) with
    | none => simp only [h1] at h; exact Option.noConfusion h
    | some nw2 =>
      simp only [h1] at h
      exact ih nw2 nw' (wf_sweepLayerGo _ nw 0 nw2 hwf h1) h

theorem wf_train_on_current_data {A : Act} {fuel : ℕ} {nw nw' : Network}
    {expected : List ℚ} (hwf : nw.wfb A = true)
    (h : nw.train_on_current_data A fuel expected = some nw') : nw'.wfb A = true := by
  unfold Network.train_on_current_data at h
  cases h1 : nw.request_nudges_end A fuel expected with
  | none => simp only [h1] at h; exact Option.noConfusion h
  | some nw1 =>
    simp only [h1] at h
    exact wf_sweepDown _ nw1 nw' (wf_request_nudges_end hwf h1) h

theorem wf_train_on_data {A : Act} {fuel : ℕ} {nw nw' : Network} {ex : TrainingExample}
    (hwf : nw.wfb A = true) (h : nw.train_on_data A fuel ex = some nw') :
    nw'.wfb A = true := by
  unfold Network.train_on_data at h
  cases h1 : nw.set_inputs ex.inputs with
  | none => simp only [h1] at h; exact Option.noConfusion h
  | some nw1 =>
    simp only [h1] at h
    exact wf_train_on_current_data (wf_network_invalidate (wf_set_inputs hwf h1)) h

theorem all_mapOptList {α : Type} (p : α → Bool) (g : α → Option α)
    (hg : ∀ a b, g a = some b → p a = true → p b = true) :
    ∀ (l l2 : List α), mapOptList g l = some l2 → l.all p = true → l2.all p = true := by
  intro l
  induction l with
  | nil =>
    intro l2 h _
    simp only [mapOptList, Option.some.injEq] at h
    rw [← h]
    rfl
  | cons a rest ih =>
    intro l2 h hall
    simp only [mapOptList] at h
    cases h1 : g a with
    | none => simp only [h1] at h; exact Option.noConfusion h
    | some b =>
      simp only [h1] at h
      cases h2 : mapOptList g rest with
      | none => simp only [h2] at h; exact Option.noConfusion h
      | some r =>
        simp only [h2, Option.map_some', Option.some.injEq] at h
        rw [← h, List.all_cons, Bool.and_eq_true] at *
        exact ⟨hg a b h1 hall.1, ih r h2 hall.2⟩

theorem layersOK_mapNodesM {g : AnyNode → Option AnyNode}
    (hg : ∀ (j : ℕ) (a b : AnyNode), g a = some b → a.posOK j = true → b.posOK j = true) :
    ∀ (ls : List (List AnyNode)) (k : ℕ) (ls2 : List (List AnyNode)),
      mapOptList (mapOptList g) ls = some ls2 → layersOK ls k = true →
      layersOK ls2 k = true := by
  intro ls
  induction ls with
  | nil =>
    intro k ls2 h _
    simp only [mapOptList, Option.some.injEq] at h
    rw [← h]
    rfl
  | cons l rest ih =>
    intro k ls2 h hall
    simp only [mapOptList] at h
    cases h1 : mapOptList g l with
    | none => simp only [h1] at h; exact Option.noConfusion h
    | some l2 =>
      simp only [h1] at h
      cases h2 : mapOptList (mapOptList g) rest with
      | none => simp only [h2] at h; exact Option.noConfusion h
      | some r =>
        simp only [h2, Option.map_some', Option.some.injEq] at h
        rw [← h]
        simp only [layersOK, Bool.and_eq_true] at hall ⊢
        exact ⟨all_mapOptList _ g (hg k) l l2 h1 hall.1, ih (k + 1) r h2 hall.2⟩

theorem posOK_clearNodeStep {j : ℕ} {a b : AnyNode} (h : clearNodeStep a = some b)
    (hp : a.posOK j = true) : b.posOK j = true := by
  cases a with
  | start s => exact Option.noConfusion h
  | main n =>
    simp only [clearNodeStep, Option.some.injEq] at h
    rw [← h]
    exact hp

theorem cacheOK_clearNodeStep {A : Act} {a b : AnyNode} (h : clearNodeStep a = some b)
    (hp : a.cacheOK A = true) : b.cacheOK A = true := by
  cases a with
  | start s => exact Option.noConfusion h
  | main n =>
    simp only [clearNodeStep, Option.some.injEq] at h
    rw [← h]
    exact (cacheOKb_eq_of_caches rfl rfl).trans hp

theorem posOK_applyNodeStep {j : ℕ} {a b : AnyNode} (h : applyNodeStep a = some b)
    (hp : a.posOK j = true) : b.posOK j = true := by
  cases a with
  | start s => exact Option.noConfusion h
  | main n =>
    simp only [applyNodeStep] at h
    cases h1 : n.apply_nudges with
    | none => simp only [h1] at h; exact Option.noConfusion h
    | some n2 =>
      simp only [h1, Option.map_some', Option.some.injEq] at h
      rw [← h]
      show decide (n2.clear_nudges.layer = j ∧ 1 ≤ j) = true
      have hfr := node_apply_frame n n2 h1
      rw [show n2.clear_nudges.layer = n2.layer from rfl, hfr.2.2.1]
      exact hp

theorem cacheOK_applyNodeStep {A : Act} {a b : AnyNode} (h : applyNodeStep a = some b)
    (hp : a.cacheOK A = true) : b.cacheOK A = true := by
  cases a with
  | start s => exact Option.noConfusion h
  | main n =>
    simp only [applyNodeStep] at h
    cases h1 : n.apply_nudges with
    | none => simp only [h1] at h; exact Option.noConfusion h
    | some n2 =>
      simp only [h1, Option.map_some', Option.some.injEq] at h
      rw [← h]
      have hfr := node_apply_frame n n2 h1
      exact (cacheOKb_eq_of_caches hfr.1 hfr.2.1).trans hp

theorem wf_clear_nudges {A : Act} {nw nw' : Network} (hwf : nw.wfb A = true)
    (h : nw.clear_nudges = some nw') : nw'.wfb A = true := by
  unfold Network.clear_nudges at h
  cases hls : nw.layers with
  | nil =>
    rw [hls] at h
    simp only [Option.some.injEq] at h
    rw [← h]
    exact hwf
  | cons l0 rest =>
    rw [hls] at h
    simp only [] at h
    cases h1 : mapNodesM clearNodeStep rest with
    | none => simp only [h1] at h; exact Option.noConfusion h
    | some r =>
      simp only [h1, Option.map_some', Option.some.injEq] at h
      rw [← h]
      rw [wfb_and] at hwf ⊢
      obtain ⟨hL, hC⟩ := hwf
      have hL2 : layersOK nw.layers 0 = true := hL
      have hC2 : nw.layers.all (fun l => l.all (fun an => an.cacheOK A)) = true := hC
      rw [hls] at hL2 hC2
      simp only [layersOK, List.all_cons, Bool.and_eq_true] at hL2 hC2
      constructor
      · show layersOK (l0 :: r) 0 = true
        simp only [layersOK, Bool.and_eq_true]
        exact ⟨hL2.1, layersOK_mapNodesM
          (fun j a b hb hp => posOK_clearNodeStep hb hp) rest 1 r h1 hL2.2⟩
      · show ((l0 :: r).all (fun l => l.all (fun an => an.cacheOK A))) = true
        simp only [List.all_cons, Bool.and_eq_true]
        refine ⟨hC2.1, ?_⟩
        refine all_mapOptList _ (mapOptList clearNodeStep) ?_ rest r h1 hC2.2
        intro l l2 h2 hall
        exact all_mapOptList _ clearNodeStep
          (fun a b hb hp => cacheOK_clearNodeStep hb hp) l l2 h2 hall

theorem wf_apply_nudges {A : Act} {nw nw' : Network} (hwf : nw.wfb A = true)
    (h : nw.apply_nudges = some nw') : nw'.wfb A = true := by
  unfold Network.apply_nudges at h
  cases hls : nw.layers with
  | nil =>
    rw [hls] at h
    simp only [Option.some.injEq] at h
    rw [← h]
    exact hwf
  | cons l0 rest =>
    rw [hls] at h
    simp only [] at h
    cases h1 : mapNodesM applyNodeStep rest with
    | none => simp only [h1] at h; exact Option.noConfusion h
    | some r =>
      simp only [h1, Option.map_some', Option.some.injEq] at h
      rw [← h]
      rw [wfb_and] at hwf ⊢
      obtain ⟨hL, hC⟩ := hwf
      have hL2 : layersOK nw.layers 0 = true := hL
      have hC2 : nw.layers.all (fun l => l.all (fun an => an.cacheOK A)) = true := hC
      rw [hls] at hL2 hC2
      simp only [layersOK, List.all_cons, Bool.and_eq_true] at hL2 hC2
      constructor
      · show layersOK (l0 :: r) 0 = true
        simp only [layersOK, Bool.and_eq_true]
        exact ⟨hL2.1, layersOK_mapNodesM
          (fun j a b hb hp => posOK_applyNodeStep hb hp) rest 1 r h1 hL2.2⟩
      · show ((l0 :: r).all (fun l => l.all (fun an => an.cacheOK A))) = true
        simp only [List.all_cons, Bool.and_eq_true]
        refine ⟨hC2.1, ?_⟩
        refine all_mapOptList _ (mapOptList applyNodeStep) ?_ rest r h1 hC2.2
        intro l l2 h2 hall
        exact all_mapOptList _ applyNodeStep
          (fun a b hb hp => cacheOK_applyNodeStep hb hp) l l2 h2 hall

theorem wf_trainFold {A : Act} {fuel : ℕ} :
    ∀ (batch : List TrainingExample) (nw nw' : Network), nw.wfb A = true →
      trainFold A fuel nw batch = some nw' → nw'.wfb A = true := by
  intro batch
  induction batch with
  | nil =>
    intro nw nw' hwf h
    simp only [trainFold, Option.some.injEq] at h
    subst h
    exact hwf
  | cons ex rest ih =>
    intro nw nw' hwf h
    simp only [trainFold] at h
    cases h1 : nw.train_on_data A fuel ex with
    | none => simp only [h1] at h; exact Option.noConfusion h
    | some nw1 =>
      simp only [h1] at h
      exact ih nw1 nw' (wf_train_on_data hwf h1) h

theorem wf_train_on_batch {A : Act} {fuel : ℕ} {nw nw' : Network}
    {batch : List TrainingExample} (hwf : nw.wfb A = true)
    (h : nw.train_on_batch A fuel batch = some nw') : nw'.wfb A = true := by
  unfold Network.train_on_batch at h
  cases h1 : trainFold A fuel nw batch with
  | none => simp only [h1] at h; exact Option.noConfusion h
  | some nw1 =>
    simp only [h1] at h
    exact wf_apply_nudges (wf_trainFold batch nw nw1 hwf h1) h

theorem wf_train_on_batches {A : Act} {fuel : ℕ} :
    ∀ (batches : List (List TrainingExample)) (nw nw' : Network), nw.wfb A = true →
      nw.train_on_batches A fuel batches = some nw' → nw'.wfb A = true := by
  intro batches
  induction batches with
  | nil =>
    intro nw nw' hwf h
    simp only [Network.train_on_batches, Option.some.injEq] at h
    subst h
    exact hwf
  | cons b rest ih =>
    intro nw nw' hwf h
    simp only [Network.train_on_batches] at h
    cases h1 : nw.train_on_batch A fuel b with
    | none => simp only [h1] at h; exact Option.noConfusion h
    | some nw1 =>
      simp only [h1] at h
      exact ih nw1 nw' (wf_train_on_batch hwf h1) h

theorem mainAt_get_node {nw : Network} {li ni : ℕ} {n m : Node}
    (h1 : nw.mainAt li ni = some n) (h2 : nw.get_node li ni = some (.main m)) :
    m = n := by
  unfold Network.mainAt at h1
  rw [h2] at h1
  injection h1 with h3

theorem wf_node_invalidate {A : Act} {nw nw' : Network} {li ni : ℕ}
    (hwf : nw.wfb A = true) (h : nw.node_invalidate li ni = some nw') :
    nw'.wfb A = true := by
  unfold Network.node_invalidate at h
  cases h1 : nw.get_node li ni with
  | none => simp only [h1] at h; exact Option.noConfusion h
  | some a =>
    simp only [h1, Option.some.injEq] at h
    rw [← h]
    exact wf_modifyMain hwf li ni (fun n _ => rfl)
      (fun n _ _ => cacheOKb_of_result_none rfl)

theorem wf_node_request_nudge {A : Act} {nw nw' : Network} {li ni : ℕ} {v : ℚ}
    (hwf : nw.wfb A = true) (h : nw.node_request_nudge li ni v = some nw') :
    nw'.wfb A = true := by
  unfold Network.node_request_nudge at h
  cases h1 : nw.mainAt li ni with
  | none => simp only [h1] at h; exact Option.noConfusion h
  | some n =>
    simp only [h1, Option.some.injEq] at h
    rw [← h]
    exact wf_modifyMain hwf li ni (fun m _ => rfl)
      (fun m _ hok => (cacheOKb_eq_of_caches rfl rfl).trans hok)

theorem wf_node_clear_nudges {A : Act} {nw nw' : Network} {li ni : ℕ}
    (hwf : nw.wfb A = true) (h : nw.node_clear_nudges li ni = some nw') :
    nw'.wfb A = true := by
  unfold Network.node_clear_nudges at h
  cases h1 : nw.mainAt li ni with
  | none => simp only [h1] at h; exact Option.noConfusion h
  | some n =>
    simp only [h1, Option.some.injEq] at h
    rw [← h]
    exact wf_modifyMain hwf li ni (fun m _ => rfl)
      (fun m _ hok => (cacheOKb_eq_of_caches rfl rfl).trans hok)

theorem wf_node_apply_nudges {A : Act} {nw nw' : Network} {li ni : ℕ}
    (hwf : nw.wfb A = true) (h : nw.node_apply_nudges li ni = some nw') :
    nw'.wfb A = true := by
  unfold Network.node_apply_nudges at h
  cases h1 : nw.mainAt li ni with
  | none => simp only [h1] at h; exact Option.noConfusion h
  | some n =>
    simp only [h1] at h
    cases h2 : n.apply_nudges with
    | none => simp only [h2] at h; exact Option.noConfusion h
    | some n2 =>
      simp only [h2, Option.some.injEq] at h
      rw [← h]
      have hfr := node_apply_frame n n2 h2
      refine wf_modifyMain hwf li ni ?_ ?_
      · intro m hm
        rw [mainAt_get_node h1 hm]
        exact hfr.2.2.1
      · intro m hm hok
        rw [mainAt_get_node h1 hm] at hok
        exact (cacheOKb_eq_of_caches hfr.1 hfr.2.1).trans hok

theorem wf_set_weight {A : Act} {nw nw' : Network} {li ni wi : ℕ} {v : ℚ}
    (hwf : nw.wfb A = true) (h : nw.set_weight li ni wi v = some nw') :
    nw'.wfb A = true := by
  unfold Network.set_weight at h
  cases h1 : nw.mainAt li ni with
  | none => simp only [h1] at h; exact Option.noConfusion h
  | some n =>
    simp only [h1] at h
    cases h2 : n.inp_w[wi]? with
    | none => simp only [h2] at h; exact Option.noConfusion h
    | some w =>
      simp only [h2, Option.some.injEq] at h
      rw [← h]
      exact wf_modifyMain hwf li ni (fun m _ => rfl)
        (fun m _ hok => (cacheOKb_eq_of_caches rfl rfl).trans hok)

/-- Master preservation: every public operation preserves the combined
wellformedness invariant (and with it cache coherence). -/
theorem wf_applyOp {A : Act} {fuel : ℕ} {op : PublicOp} {nw nw' : Network}
    (hwf : nw.wfb A = true) (h : applyOp A fuel op nw = some nw') :
    nw'.wfb A = true := by
  cases op with
  | opSetInput i v => exact wf_set_input hwf h
  | opSetInputs vs => exact wf_set_inputs hwf h
  | opInvalidate =>
    simp only [applyOp, Option.some.injEq] at h
    rw [← h]
    exact wf_network_invalidate hwf
  | opGetOutput i =>
    simp only [applyOp] at h
    cases h1 : nw.get_output A fuel i with
    | none => simp only [h1] at h; exact Option.noConfusion h
    | some p =>
      simp only [h1, Option.map_some', Option.some.injEq] at h
      rw [← h]
      exact wf_get_output hwf h1
  | opGetOutputs =>
    simp only [applyOp] at h
    cases h1 : nw.get_outputs A fuel with
    | none => simp only [h1] at h; exact Option.noConfusion h
    | some p =>
      simp only [h1, Option.map_some', Option.some.injEq] at h
      rw [← h]
      exact wf_get_outputs hwf h1
  | opGetCurrentCost expected =>
    simp only [applyOp] at h
    cases h1 : nw.get_current_cost A fuel expected with
    | none => simp only [h1] at h; exact Option.noConfusion h
    | some p =>
      simp only [h1, Option.map_some', Option.some.injEq] at h
      rw [← h]
      exact wf_get_current_cost hwf h1
  | opRequestNudgesEnd expected => exact wf_request_nudges_end hwf h
  | opTrainOnCurrentData expected => exact wf_train_on_current_data hwf h
  | opTrainOnData ex => exact wf_train_on_data hwf h
  | opTrainOnBatch batch => exact wf_train_on_batch hwf h
  | opTrainOnBatches batches => exact wf_train_on_batches batches nw nw' hwf h
  | opApplyNudges => exact wf_apply_nudges hwf h
  | opClearNudges => exact wf_clear_nudges hwf h
  | opNodeGetValue li ni =>
    simp only [applyOp] at h
    cases h1 : getValueF A fuel nw li ni with
    | none => simp only [h1] at h; exact Option.noConfusion h
    | some p =>
      simp only [h1, Option.map_some', Option.some.injEq] at h
      rw [← h]
      exact wf_getValue_net hwf h1
  | opNodeGetSum li ni =>
    simp only [applyOp] at h
    cases h1 : getSumF A fuel nw li ni with
    | none => simp only [h1] at h; exact Option.noConfusion h
    | some p =>
      simp only [h1, Option.map_some', Option.some.injEq] at h
      rw [← h]
      exact wf_getSumF_net hwf h1
  | opNodeCalcNudge li ni => exact wf_calcNudge hwf h
  | opNodeRequestNudge li ni v => exact wf_node_request_nudge hwf h
  | opNodeInvalidate li ni => exact wf_node_invalidate hwf h
  | opNodeClearNudges li ni => exact wf_node_clear_nudges hwf h
  | opNodeApplyNudges li ni => exact wf_node_apply_nudges hwf h
  | opSetWeight li ni wi v => exact wf_set_weight hwf h

theorem all_replicate {α : Type} (p : α → Bool) (n : ℕ) (c : α) (hc : p c = true) :
    (List.replicate n c).all p = true := by
  rw [List.all_eq_true]
  intro a ha
  rw [List.eq_of_mem_replicate ha]
  exact hc

theorem layersOK_range_map (f : ℕ → List AnyNode)
    (hf : ∀ i, (f i).all (AnyNode.posOK i) = true) :
    ∀ (n k : ℕ), layersOK ((List.range' k n).map f) k = true := by
  intro n
  induction n with
  | zero => intro k; rfl
  | succ m ih =>
    intro k
    rw [List.range'_succ, List.map_cons]
    simp only [layersOK, Bool.and_eq_true]
    exact ⟨hf k, ih (k + 1)⟩

/-- Every constructed network is wellformed: compute nodes only above the
input layer, each carrying its own layer index, and both caches empty. -/
theorem wf_specLayers {A : Act} (shape : List ℕ) (config : NetworkConfig) :
    (Network.mk (specLayers shape) config).wfb A = true := by
  rw [wfb_and]
  constructor
  · show layersOK (specLayers shape) 0 = true
    unfold specLayers
    rw [List.range_eq_range']
    refine layersOK_range_map _ ?_ shape.length 0
    intro i
    by_cases h0 : i = 0
    · subst h0
      rw [if_pos rfl]
      exact all_replicate _ _ _ rfl
    · rw [if_neg h0]
      refine all_replicate _ _ _ ?_
      show decide (i = i ∧ 1 ≤ i) = true
      exact decide_eq_true ⟨rfl, by omega⟩
  · show (specLayers shape).all (fun l => l.all (fun an => an.cacheOK A)) = true
    unfold specLayers
    rw [List.all_eq_true]
    intro l hl
    rw [List.mem_map] at hl
    obtain ⟨i, _, hli⟩ := hl
    rw [← hli]
    by_cases h0 : i = 0
    · rw [if_pos h0]
      exact all_replicate _ _ _ rfl
    · rw [if_neg h0]
      exact all_replicate _ _ _ rfl

theorem wf_with_config {A : Act} {config : NetworkConfig} {nw : Network}
    (h : Network.with_config config = some nw) : nw.wfb A = true := by
  rw [with_config_eq.2 config] at h
  by_cases h2 : 2 ≤ config.shape.length
  · rw [if_pos h2] at h
    injection h with h3
    rw [← h3]
    exact wf_specLayers config.shape config
  · rw [if_neg h2] at h
    exact Option.noConfusion h

theorem get_node_of_mainAt {nw : Network} {li ni : ℕ} {n : Node}
    (h : nw.mainAt li ni = some n) : nw.get_node li ni = some (.main n) := by
  unfold Network.mainAt at h
  cases hgn : nw.get_node li ni with
  | none => rw [hgn] at h; exact Option.noConfusion h
  | some a =>
    cases a with
    | start s => rw [hgn] at h; exact Option.noConfusion h
    | main m =>
      rw [hgn] at h
      injection h with h2
      rw [h2]

/-- C6 counterexample to the claim's "both unset or both set" half: on a
freshly constructed `[1, 1]` network, the public node-level `get_sum`
(`opNodeGetSum`, also the first step of `calc_nudge`) fills `sum_cache`
but leaves `result_cache` empty, so the two caches of the output node are
set/unset independently. -/
theorem C6_counterexample :
    ((Network.new [1, 1]).bind (fun nw => getSumF idAct 2 nw 1 0)).map
      (fun p => (p.1.mainAt 1 0).map
        (fun n => (n.sum_cache.isSome, n.result_cache.isSome))) =
      some (some (true, false)) := by decide

/-- C6 (amended).  The directed coherence invariant that the code does
maintain: on every network built by `with_config` (so also `new`), and
preserved by every public operation, whenever a compute node's
`result_cache` holds a value, its `sum_cache` holds a value too and the
result is exactly the activation of the cached sum — the caches are never
set to inconsistent values, but `get_sum` legitimately leaves a node with
only `sum_cache` populated. -/
theorem C6_cache_coherence (A : Act) (fuel : ℕ) :
    (∀ (config : NetworkConfig) (nw : Network),
      Network.with_config config = some nw → nw.wfb A = true) ∧
    (∀ (op : PublicOp) (nw nw' : Network), nw.wfb A = true →
      applyOp A fuel op nw = some nw' → nw'.wfb A = true) ∧
    (∀ nw : Network, nw.wfb A = true → ∀ (li ni : ℕ) (n : Node) (r : ℚ),
      nw.mainAt li ni = some n → n.result_cache = some r →
      ∃ s : ℚ, n.sum_cache = some s ∧ r = A.sig s) := by
  refine ⟨fun config nw h => wf_with_config h,
          fun op nw nw' hwf h => wf_applyOp hwf h, ?_⟩
  intro nw hwf li ni n r hm hr
  have hok : n.cacheOKb A = true :=
    cacheOK_get_node (wfb_and.mp hwf).2 (get_node_of_mainAt hm)
  unfold Node.cacheOKb at hok
  rw [hr] at hok
  cases hs : n.sum_cache with
  | none => rw [hs] at hok; exact Bool.noConfusion hok
  | some s =>
    rw [hs] at hok
    exact ⟨s, rfl, of_decide_eq_true hok⟩

/-- Concrete `[1, 1]` network for the C6 witness (the value of
`Network.new [1, 1]`). -/
def nwC6 : Network :=
  { layers := [[AnyNode.start ⟨0⟩], [AnyNode.main (Node.new 0 [0] 1)]]
    config := { learning_rate := 1, shape := [1, 1] } }

/-- Witness for C6 at a concrete network: construction establishes the
invariant and a public operation (`invalidate`) preserves it. -/
theorem C6_witness :
    nwC6.wfb idAct = true ∧ nwC6.invalidate.wfb idAct = true := by
  have h1 : nwC6.wfb idAct = true :=
    (C6_cache_coherence idAct 1).1 { learning_rate := 1, shape := [1, 1] } nwC6 (by decide)
  exact ⟨h1,
    (C6_cache_coherence idAct 1).2.1 PublicOp.opInvalidate nwC6 nwC6.invalidate h1 rfl⟩

/-! ## Claim C7: invalidation law

A pure, cache-free denotational evaluator over the same node graph, with a
fuel index in place of the source's implicit termination.  `get_value` is
then shown to return exactly the denotation whenever every populated cache
already agrees with the denotation (`CacheSound` — true of every state
whose caches were filled by evaluation alone, and trivially of a state
with empty caches); evaluation and `invalidate` both preserve
`CacheSound` and the cacheless state, so the value recomputed after an
`invalidate` coincides with the value returned before it. -/

/-- Pure counterpart of the weighted-sum loop: `dv` is the pure child
evaluator. -/
def denoteChildren (dv : ℕ → ℕ → Option ℚ) (layer : ℕ) : List ℚ → ℕ → Option ℚ
  | [], _ => some 0
  | v :: rest, i =>
    match dv (layer - 1) i with
    | none => none
    | some x =>
      match denoteChildren dv layer rest (i + 1) with
      | none => none
      | some s => some (x * v + s)

/-- Pure counterpart of `get_value`: reads only weights, biases, layer
fields and input values, never a cache. -/
def denoteF (A : Act) : ℕ → Network → ℕ → ℕ → Option ℚ
  | 0, _, _, _ => none
  | fuel + 1, nw, li, ni =>
    match nw.get_node li ni with
    | none => none
    | some (.start s) => some s.value
    | some (.main n) =>
      match denoteChildren (denoteF A fuel nw) n.layer n.inp_w 0 with
      | none => none
      | some s => some (A.sig (s + n.bias))

/-- Pure counterpart of the computed pre-activation sum. -/
def denoteSumF (A : Act) (fuel : ℕ) (nw : Network) (li ni : ℕ) : Option ℚ :=
  match nw.get_node li ni with
  | some (.main n) =>
    match denoteChildren (denoteF A fuel nw) n.layer n.inp_w 0 with
    | none => none
    | some s => some (s + n.bias)
  | _ => none

theorem denoteF_of_sum {A : Act} {f : ℕ} {nw : Network} {li ni : ℕ} {s : ℚ}
    (h : denoteSumF A f nw li ni = some s) :
    denoteF A (f + 1) nw li ni = some (A.sig s) := by
  unfold denoteSumF at h
  cases hn : nw.get_node li ni with
  | none => rw [hn] at h; exact Option.noConfusion h
  | some a =>
    cases a with
    | start st => rw [hn] at h; exact Option.noConfusion h
    | main n =>
      rw [hn] at h
      simp only [] at h
      cases hd : denoteChildren (denoteF A f nw) n.layer n.inp_w 0 with
      | none => rw [hd] at h; exact Option.noConfusion h
      | some s1 =>
        rw [hd] at h
        injection h with h2
        simp only [denoteF, hn, hd]
        rw [h2]

theorem sum_of_denoteChildren {A : Act} {f : ℕ} {nw : Network} {li ni : ℕ} {n : Node}
    (hn : nw.get_node li ni = some (.main n)) {s : ℚ}
    (hd : denoteChildren (denoteF A f nw) n.layer n.inp_w 0 = some s) :
    denoteSumF A f nw li ni = some (s + n.bias) := by
  simp only [denoteSumF, hn, hd]

theorem denoteChildren_mono {dv dv2 : ℕ → ℕ → Option ℚ}
    (hdv : ∀ p q y, dv p q = some y → dv2 p q = some y) (lc : ℕ) :
    ∀ (ws : List ℚ) (i : ℕ) (s : ℚ),
      denoteChildren dv lc ws i = some s → denoteChildren dv2 lc ws i = some s := by
  intro ws
  induction ws with
  | nil => intro i s h; exact h
  | cons w rest ih =>
    intro i s h
    simp only [denoteChildren] at h
    cases h1 : dv (lc - 1) i with
    | none => rw [h1] at h; exact Option.noConfusion h
    | some x =>
      rw [h1] at h
      simp only [] at h
      cases h2 : denoteChildren dv lc rest (i + 1) with
      | none => rw [h2] at h; exact Option.noConfusion h
      | some sr =>
        rw [h2] at h
        simp only [denoteChildren, hdv _ _ _ h1, ih (i + 1) sr h2]
        exact h

/-- One-step unfolding of `denoteF`, keeping the recursive occurrence
folded. -/
theorem denoteF_succ (A : Act) (f : ℕ) (nw : Network) (li ni : ℕ) :
    denoteF A (f + 1) nw li ni =
      match nw.get_node li ni with
      | none => none
      | some (.start s) => some s.value
      | some (.main n) =>
        match denoteChildren (denoteF A f nw) n.layer n.inp_w 0 with
        | none => none
        | some s => some (A.sig (s + n.bias)) := rfl

theorem denoteF_mono_succ (A : Act) :
    ∀ (f : ℕ) (nw : Network) (li ni : ℕ) (v : ℚ),
      denoteF A f nw li ni = some v → denoteF A (f + 1) nw li ni = some v := by
  intro f
  induction f with
  | zero => intro nw li ni v h; exact Option.noConfusion h
  | succ m ih =>
    intro nw li ni v h
    rw [denoteF_succ] at h
    rw [denoteF_succ]
    cases hn : nw.get_node li ni with
    | none => rw [hn] at h; exact Option.noConfusion h
    | some a =>
      rw [hn] at h
      cases a with
      | start st => exact h
      | main n =>
        simp only [] at h ⊢
        cases hd : denoteChildren (denoteF A m nw) n.layer n.inp_w 0 with
        | none => rw [hd] at h; exact Option.noConfusion h
        | some s1 =>
          rw [hd] at h
          rw [denoteChildren_mono (fun p q y hy => ih nw p q y hy) n.layer n.inp_w 0 s1 hd]
          exact h

theorem denoteF_mono (A : Act) {f f2 : ℕ} (hle : f ≤ f2) {nw : Network} {li ni : ℕ}
    {v : ℚ} (h : denoteF A f nw li ni = some v) : denoteF A f2 nw li ni = some v := by
  induction hle with
  | refl => exact h
  | step _ ih => exact denoteF_mono_succ A _ nw li ni v ih

theorem denoteChildren_congr {dv dv2 : ℕ → ℕ → Option ℚ}
    (hdv : ∀ p q, dv p q = dv2 p q) (lc : ℕ) :
    ∀ (ws : List ℚ) (i : ℕ), denoteChildren dv lc ws i = denoteChildren dv2 lc ws i := by
  intro ws
  induction ws with
  | nil => intro i; rfl
  | cons w rest ih => intro i; simp only [denoteChildren, hdv, ih]

theorem denoteF_congr (A : Act) {nw nw2 : Network} (hc : nw.cacheless = nw2.cacheless) :
    ∀ (f li ni : ℕ), denoteF A f nw li ni = denoteF A f nw2 li ni := by
  intro f
  induction f with
  | zero => intro li ni; rfl
  | succ m ih =>
    intro li ni
    have hg := get_node_strip_congr hc li ni
    simp only [denoteF]
    cases h1 : nw.get_node li ni with
    | none =>
      rw [h1] at hg
      cases h2 : nw2.get_node li ni with
      | none => rfl
      | some a => rw [h2] at hg; exact Option.noConfusion hg
    | some a =>
      rw [h1] at hg
      cases h2 : nw2.get_node li ni with
      | none => rw [h2] at hg; exact Option.noConfusion hg
      | some b =>
        rw [h2] at hg
        simp only [Option.map_some', Option.some.injEq] at hg
        cases a with
        | start s1 =>
          cases b with
          | start s2 =>
            injection hg with hg2
            rw [hg2]
          | main n2 => exact AnyNode.noConfusion hg
        | main n1 =>
          cases b with
          | start s2 => exact AnyNode.noConfusion hg
          | main n2 =>
            simp only [AnyNode.stripCaches, AnyNode.main.injEq] at hg
            have hlayer : n1.layer = n2.layer := by
              have hx := congrArg Node.layer hg
              exact hx
            have hw : n1.inp_w = n2.inp_w := by
              have hx := congrArg Node.inp_w hg
              exact hx
            have hbias : n1.bias = n2.bias := by
              have hx := congrArg Node.bias hg
              exact hx
            simp only []
            rw [hlayer, hw, hbias, denoteChildren_congr (fun p q => ih p q) n2.layer n2.inp_w 0]

theorem denoteSumF_congr (A : Act) {nw nw2 : Network} (hc : nw.cacheless = nw2.cacheless)
    (f li ni : ℕ) : denoteSumF A f nw li ni = denoteSumF A f nw2 li ni := by
  have hg := get_node_strip_congr hc li ni
  unfold denoteSumF
  cases h1 : nw.get_node li ni with
  | none =>
    rw [h1] at hg
    cases h2 : nw2.get_node li ni with
    | none => rfl
    | some a => rw [h2] at hg; exact Option.noConfusion hg
  | some a =>
    rw [h1] at hg
    cases h2 : nw2.get_node li ni with
    | none => rw [h2] at hg; exact Option.noConfusion hg
    | some b =>
      rw [h2] at hg
      simp only [Option.map_some', Option.some.injEq] at hg
      cases a with
      | start s1 =>
        cases b with
        | start s2 => rfl
        | main n2 => exact AnyNode.noConfusion hg
      | main n1 =>
        cases b with
        | start s2 => exact AnyNode.noConfusion hg
        | main n2 =>
          simp only [AnyNode.stripCaches, AnyNode.main.injEq] at hg
          have hlayer : n1.layer = n2.layer := by
            have hx := congrArg Node.layer hg
            exact hx
          have hw : n1.inp_w = n2.inp_w := by
            have hx := congrArg Node.inp_w hg
            exact hx
          have hbias : n1.bias = n2.bias := by
            have hx := congrArg Node.bias hg
            exact hx
          simp only []
          rw [hlayer, hw, hbias,
            denoteChildren_congr (fun p q => denoteF_congr A hc f p q) n2.layer n2.inp_w 0]

/-- Every populated cache agrees with the pure denotation: a cached sum is
the denoted pre-activation sum, a cached result is the activation of the
denoted sum.  True of any state whose caches were filled by evaluation
alone — in particular of any state with empty caches. -/
def CacheSound (A : Act) (nw : Network) : Prop :=
  ∀ (li ni : ℕ) (n : Node), nw.mainAt li ni = some n →
    (∀ s, n.sum_cache = some s → ∃ f, denoteSumF A f nw li ni = some s) ∧
    (∀ r, n.result_cache = some r →
      ∃ f s, denoteSumF A f nw li ni = some s ∧ r = A.sig s)

theorem cacheSound_of_empty {A : Act} {nw : Network}
    (h : ∀ (li ni : ℕ) (n : Node), nw.mainAt li ni = some n →
      n.sum_cache = none ∧ n.result_cache = none) :
    CacheSound A nw := by
  intro li ni n hm
  obtain ⟨h1, h2⟩ := h li ni n hm
  constructor
  · intro s hs
    rw [h1] at hs
    exact Option.noConfusion hs
  · intro r hr
    rw [h2] at hr
    exact Option.noConfusion hr

theorem strip_invalidate (a : AnyNode) : a.invalidate.stripCaches = a.stripCaches := by
  cases a with
  | start s => rfl
  | main n => rfl

theorem map_strip_invalidate : ∀ l : List AnyNode,
    (l.map AnyNode.invalidate).map AnyNode.stripCaches = l.map AnyNode.stripCaches := by
  intro l
  induction l with
  | nil => rfl
  | cons a rest ih => simp only [List.map_cons, strip_invalidate, ih]

theorem layers_strip_invalidate : ∀ ls : List (List AnyNode),
    (ls.map (List.map AnyNode.invalidate)).map (List.map AnyNode.stripCaches)
      = ls.map (List.map AnyNode.stripCaches) := by
  intro ls
  induction ls with
  | nil => rfl
  | cons l rest ih => simp only [List.map_cons, map_strip_invalidate, ih]

theorem cacheless_invalidate (nw : Network) : nw.invalidate.cacheless = nw.cacheless := by
  show Network.mk
    ((nw.layers.take 1 ++ (nw.layers.drop 1).map (List.map AnyNode.invalidate)).map
      (List.map AnyNode.stripCaches)) nw.config
    = Network.mk (nw.layers.map (List.map AnyNode.stripCaches)) nw.config
  congr 1
  rw [List.map_append, layers_strip_invalidate, List.map_take, List.map_drop,
    List.take_append_drop]

theorem get_node_invalidate (nw : Network) (li ni : ℕ) :
    nw.invalidate.get_node li ni =
      if li = 0 then nw.get_node li ni
      else (nw.get_node li ni).map AnyNode.invalidate := by
  show ((nw.layers.take 1 ++ (nw.layers.drop 1).map (List.map AnyNode.invalidate))[li]?.bind
    (fun l => l[ni]?)) = _
  cases hls : nw.layers with
  | nil =>
    show ((([] : List (List AnyNode))[li]?).bind (fun l => l[ni]?)) = _
    unfold Network.get_node
    rw [hls]
    simp [List.getElem?_nil]
  | cons l0 rest =>
    unfold Network.get_node
    rw [hls]
    cases li with
    | zero =>
      show ((l0 :: rest.map (List.map AnyNode.invalidate))[0]?.bind (fun l => l[ni]?)) = _
      simp
    | succ m =>
      show ((l0 :: rest.map (List.map AnyNode.invalidate))[m + 1]?.bind (fun l => l[ni]?)) = _
      rw [List.getElem?_cons_succ, List.getElem?_cons_succ, List.getElem?_map,
        if_neg (Nat.succ_ne_zero m)]
      cases hr : rest[m]? with
      | none => rfl
      | some l =>
        simp only [Option.map_some', Option.some_bind, List.getElem?_map]

theorem mainAt_invalidate (nw : Network) (li ni : ℕ) :
    nw.invalidate.mainAt li ni =
      if li = 0 then nw.mainAt li ni else (nw.mainAt li ni).map Node.invalidate := by
  unfold Network.mainAt
  rw [get_node_invalidate]
  by_cases h0 : li = 0
  · rw [if_pos h0, if_pos h0]
  · rw [if_neg h0, if_neg h0]
    cases nw.get_node li ni with
    | none => rfl
    | some a => cases a <;> rfl

theorem cacheSound_invalidate {A : Act} {nw : Network} (hs : CacheSound A nw) :
    CacheSound A nw.invalidate := by
  intro li ni n hm
  rw [mainAt_invalidate] at hm
  have hless := cacheless_invalidate nw
  by_cases h0 : li = 0
  · rw [if_pos h0] at hm
    obtain ⟨h1, h2⟩ := hs li ni n hm
    constructor
    · intro s hsc
      obtain ⟨f, hf⟩ := h1 s hsc
      exact ⟨f, by rw [denoteSumF_congr A hless f li ni]; exact hf⟩
    · intro r hrc
      obtain ⟨f, s, hf, hr⟩ := h2 r hrc
      exact ⟨f, s, by rw [denoteSumF_congr A hless f li ni]; exact hf, hr⟩
  · rw [if_neg h0] at hm
    cases hm0 : nw.mainAt li ni with
    | none => rw [hm0] at hm; exact Option.noConfusion hm
    | some m =>
      rw [hm0] at hm
      injection hm with hm2
      constructor
      · intro s hsc
        rw [← hm2] at hsc
        exact Option.noConfusion hsc
      · intro r hrc
        rw [← hm2] at hrc
        exact Option.noConfusion hrc

/-- Soundness package on a child evaluator: the returned value is the pure
denotation, the cacheless state is unchanged, cache soundness is
preserved. -/
def EvSound (A : Act) (ev : Network → ℕ → ℕ → Option (Network × ℚ)) : Prop :=
  ∀ (nw : Network) (li ni : ℕ) (nw' : Network) (v : ℚ),
    CacheSound A nw → ev nw li ni = some (nw', v) →
    (∃ f, denoteF A f nw li ni = some v) ∧
    nw'.cacheless = nw.cacheless ∧ CacheSound A nw'

theorem sound_sumChildren {A : Act} {ev : Network → ℕ → ℕ → Option (Network × ℚ)}
    (hev : EvSound A ev) (lc : ℕ) :
    ∀ (ws : List ℚ) (nw : Network) (i : ℕ) (nw3 : Network) (s : ℚ),
      CacheSound A nw → sumChildren ev lc nw ws i = some (nw3, s) →
      (∃ f, denoteChildren (denoteF A f nw) lc ws i = some s) ∧
      nw3.cacheless = nw.cacheless ∧ CacheSound A nw3 := by
  intro ws
  induction ws with
  | nil =>
    intro nw i nw3 s hcs h
    simp only [sumChildren, Option.some.injEq, Prod.mk.injEq] at h
    obtain ⟨h1, h2⟩ := h
    subst h1
    subst h2
    exact ⟨⟨0, rfl⟩, rfl, hcs⟩
  | cons w rest ih =>
    intro nw i nw3 s hcs h
    simp only [sumChildren] at h
    cases h1 : ev nw (lc - 1) i with
    | none => simp only [h1] at h; exact Option.noConfusion h
    | some p =>
      obtain ⟨nw2, x⟩ := p
      simp only [h1] at h
      cases h2 : sumChildren ev lc nw2 rest (i + 1) with
      | none => simp only [h2] at h; exact Option.noConfusion h
      | some q =>
        obtain ⟨nwr, sr⟩ := q
        simp only [h2, Option.some.injEq, Prod.mk.injEq] at h
        obtain ⟨h3, h4⟩ := h
        rw [h3] at h2
        subst h4
        obtain ⟨⟨f1, hd1⟩, hcl2, hcs2⟩ := hev nw (lc - 1) i nw2 x hcs h1
        obtain ⟨⟨f2, hd2⟩, hcl3, hcs3⟩ := ih nw2 (i + 1) nw3 sr hcs2 h2
        refine ⟨?_, hcl3.trans hcl2, hcs3⟩
        rw [denoteChildren_congr (fun p q => denoteF_congr A hcl2 f2 p q) lc rest (i + 1)]
          at hd2
        refine ⟨max f1 f2, ?_⟩
        have e1 := denoteF_mono A (Nat.le_max_left f1 f2) hd1
        have e2 := denoteChildren_mono
          (fun p q y hy => denoteF_mono A (Nat.le_max_right f1 f2) hy) lc rest (i + 1) sr hd2
        simp only [denoteChildren, e1, e2]

theorem sound_getSumGiven {A : Act} {ev : Network → ℕ → ℕ → Option (Network × ℚ)}
    (hev : EvSound A ev) :
    ∀ (nw : Network) (li ni : ℕ) (nw' : Network) (s : ℚ),
      CacheSound A nw → getSumGiven ev nw li ni = some (nw', s) →
      (∃ f, denoteSumF A f nw li ni = some s) ∧
      nw'.cacheless = nw.cacheless ∧ CacheSound A nw' := by
  intro nw li ni nw' s hcs h
  unfold getSumGiven at h
  cases hn : nw.get_node li ni with
  | none => rw [hn] at h; exact Option.noConfusion h
  | some an =>
    cases an with
    | start st => rw [hn] at h; exact Option.noConfusion h
    | main n =>
      rw [hn] at h
      simp only [] at h
      have hmain : nw.mainAt li ni = some n := by
        unfold Network.mainAt
        rw [hn]
      cases hc : n.sum_cache with
      | some cached =>
        rw [hc] at h
        simp only [Option.some.injEq, Prod.mk.injEq] at h
        obtain ⟨h1, h2⟩ := h
        subst h1
        subst h2
        exact ⟨(hcs li ni n hmain).1 cached hc, rfl, hcs⟩
      | none =>
        rw [hc] at h
        simp only [] at h
        cases hsc : sumChildren ev n.layer nw n.inp_w 0 with
        | none => rw [hsc] at h; exact Option.noConfusion h
        | some p =>
          obtain ⟨nw2, ssum⟩ := p
          rw [hsc] at h
          simp only [Option.some.injEq, Prod.mk.injEq] at h
          obtain ⟨h1, h2⟩ := h
          subst h1
          obtain ⟨⟨f1, hd1⟩, hcl2, hcs2⟩ := sound_sumChildren hev n.layer n.inp_w nw 0
            nw2 ssum hcs hsc
          have hds : denoteSumF A f1 nw li ni = some (ssum + n.bias) :=
            sum_of_denoteChildren hn hd1
          have hcl3 : (nw2.setSumCache li ni (some (ssum + n.bias))).cacheless
              = nw.cacheless := (cacheless_setSumCache nw2 li ni _).trans hcl2
          refine ⟨⟨f1, by rw [h2] at hds; exact hds⟩, hcl3, ?_⟩
          intro lj nj m hm
          show _ ∧ _
          rw [show nw2.setSumCache li ni (some (ssum + n.bias))
            = nw2.modifyMain li ni (fun x => { x with sum_cache := some (ssum + n.bias) })
            from rfl] at hm
          rw [mainAt_modifyMain] at hm
          by_cases hpos : li = lj ∧ ni = nj
          · rw [if_pos hpos] at hm
            obtain ⟨hpl, hpn⟩ := hpos
            subst hpl
            subst hpn
            cases hm0 : nw2.mainAt li ni with
            | none => rw [hm0] at hm; exact Option.noConfusion hm
            | some m0 =>
              rw [hm0] at hm
              injection hm with hm2
              constructor
              · intro s0 hs0
                rw [← hm2] at hs0
                injection hs0 with hs1
                refine ⟨f1, ?_⟩
                rw [denoteSumF_congr A hcl3 f1 li ni, ← hs1]
                exact hds
              · intro r hr
                rw [← hm2] at hr
                obtain ⟨f0, s0, hf0, hrs⟩ := (hcs2 li ni m0 hm0).2 r hr
                refine ⟨f0, s0, ?_, hrs⟩
                rw [denoteSumF_congr A hcl3 f0 li ni, ← denoteSumF_congr A hcl2 f0 li ni]
                exact hf0
          · rw [if_neg hpos] at hm
            obtain ⟨hs1, hs2⟩ := hcs2 lj nj m hm
            constructor
            · intro s0 hs0
              obtain ⟨f0, hf0⟩ := hs1 s0 hs0
              refine ⟨f0, ?_⟩
              rw [denoteSumF_congr A hcl3 f0 lj nj, ← denoteSumF_congr A hcl2 f0 lj nj]
              exact hf0
            · intro r hr
              obtain ⟨f0, s0, hf0, hrs⟩ := hs2 r hr
              refine ⟨f0, s0, ?_, hrs⟩
              rw [denoteSumF_congr A hcl3 f0 lj nj, ← denoteSumF_congr A hcl2 f0 lj nj]
              exact hf0

/-- Soundness of `get_value`: on a cache-sound network the returned value
is the pure denotation, the cacheless state is untouched, and cache
soundness is preserved. -/
theorem sound_getValueF (A : Act) : ∀ fuel : ℕ, EvSound A (getValueF A fuel) := by
  intro fuel
  induction fuel with
  | zero => intro nw li ni nw' v _ h; exact Option.noConfusion h
  | succ fuel ih =>
    intro nw li ni nw' v hcs h
    simp only [getValueF] at h
    cases hn : nw.get_node li ni with
    | none => simp only [hn] at h; exact Option.noConfusion h
    | some an =>
      cases an with
      | start st =>
        simp only [hn, Option.some.injEq, Prod.mk.injEq] at h
        obtain ⟨h1, h2⟩ := h
        subst h1
        have hd : denoteF A 1 nw li ni = some st.value := by
          rw [denoteF_succ, hn]
        rw [h2] at hd
        exact ⟨⟨1, hd⟩, rfl, hcs⟩
      | main n =>
        simp only [hn] at h
        have hmain : nw.mainAt li ni = some n := by
          unfold Network.mainAt
          rw [hn]
        cases hr : n.result_cache with
        | some cached =>
          simp only [hr, Option.some.injEq, Prod.mk.injEq] at h
          obtain ⟨h1, h2⟩ := h
          subst h1
          obtain ⟨f0, s0, hf0, hrs⟩ := (hcs li ni n hmain).2 cached hr
          refine ⟨⟨f0 + 1, ?_⟩, rfl, hcs⟩
          rw [← h2, hrs]
          exact denoteF_of_sum hf0
        | none =>
          simp only [hr] at h
          cases hg : getSumGiven (getValueF A fuel) nw li ni with
          | none => simp only [hg] at h; exact Option.noConfusion h
          | some p =>
            obtain ⟨nw2, inp⟩ := p
            simp only [hg, Option.some.injEq, Prod.mk.injEq] at h
            obtain ⟨h1, h2⟩ := h
            subst h1
            obtain ⟨⟨f2, hds⟩, hcl2, hcs2⟩ := sound_getSumGiven ih nw li ni nw2 inp hcs hg
            have hcl3 : (nw2.setResultCache li ni (some (A.sig inp))).cacheless
                = nw.cacheless := (cacheless_setResultCache nw2 li ni _).trans hcl2
            refine ⟨⟨f2 + 1, ?_⟩, hcl3, ?_⟩
            · rw [← h2]
              exact denoteF_of_sum hds
            · intro lj nj m hm
              rw [show nw2.setResultCache li ni (some (A.sig inp))
                = nw2.modifyMain li ni (fun x => { x with result_cache := some (A.sig inp) })
                from rfl] at hm
              rw [mainAt_modifyMain] at hm
              by_cases hpos : li = lj ∧ ni = nj
              · rw [if_pos hpos] at hm
                obtain ⟨hpl, hpn⟩ := hpos
                subst hpl
                subst hpn
                cases hm0 : nw2.mainAt li ni with
                | none => rw [hm0] at hm; exact Option.noConfusion hm
                | some m0 =>
                  rw [hm0] at hm
                  injection hm with hm2
                  constructor
                  · intro s0 hs0
                    rw [← hm2] at hs0
                    obtain ⟨f3, hf3⟩ := (hcs2 li ni m0 hm0).1 s0 hs0
                    refine ⟨f3, ?_⟩
                    rw [denoteSumF_congr A hcl3 f3 li ni,
                      ← denoteSumF_congr A hcl2 f3 li ni]
                    exact hf3
                  · intro r hr2
                    rw [← hm2] at hr2
                    injection hr2 with hr3
                    refine ⟨f2, inp, ?_, hr3.symm⟩
                    rw [denoteSumF_congr A hcl3 f2 li ni]
                    exact hds
              · rw [if_neg hpos] at hm
                obtain ⟨hs1, hs2⟩ := hcs2 lj nj m hm
                constructor
                · intro s0 hs0
                  obtain ⟨f0, hf0⟩ := hs1 s0 hs0
                  refine ⟨f0, ?_⟩
                  rw [denoteSumF_congr A hcl3 f0 lj nj,
                    ← denoteSumF_congr A hcl2 f0 lj nj]
                  exact hf0
                · intro r hr2
                  obtain ⟨f0, s0, hf0, hrs⟩ := hs2 r hr2
                  refine ⟨f0, s0, ?_, hrs⟩
                  rw [denoteSumF_congr A hcl3 f0 lj nj,
                    ← denoteSumF_congr A hcl2 f0 lj nj]
                  exact hf0

/-- C7.  On a network whose populated caches agree with the pure
denotation (`CacheSound` — true in particular whenever all caches are
empty, and preserved by evaluation itself), `invalidate()` followed by
`get_value()` recomputes from scratch — through the caches just emptied —
and returns exactly the value `get_value()` returned before the
invalidation; weights, biases and input values are untouched by both
calls (their cacheless states agree), so the recomputation runs on
unchanged parameters. -/
theorem C7_invalidate_same_value (A : Act) (f1 f2 : ℕ) (nw : Network) (li ni : ℕ)
    (nw1 nw2 : Network) (v1 v2 : ℚ)
    (hs : CacheSound A nw)
    (h1 : getValueF A f1 nw li ni = some (nw1, v1))
    (h2 : getValueF A f2 nw1.invalidate li ni = some (nw2, v2)) :
    v1 = v2 ∧ nw1.cacheless = nw.cacheless ∧ nw1.invalidate.cacheless = nw.cacheless := by
  obtain ⟨⟨g1, hd1⟩, hcl1, hs1⟩ := sound_getValueF A f1 nw li ni nw1 v1 hs h1
  have hs2 : CacheSound A nw1.invalidate := cacheSound_invalidate hs1
  obtain ⟨⟨g2, hd2⟩, _, _⟩ := sound_getValueF A f2 nw1.invalidate li ni nw2 v2 hs2 h2
  have hcl2 : nw1.invalidate.cacheless = nw.cacheless :=
    (cacheless_invalidate nw1).trans hcl1
  rw [denoteF_congr A hcl2 g2 li ni] at hd2
  have e1 := denoteF_mono A (Nat.le_max_left g1 g2) hd1
  have e2 := denoteF_mono A (Nat.le_max_right g1 g2) hd2
  rw [e1] at e2
  injection e2 with e3
  exact ⟨e3, hcl1, hcl2⟩

theorem nwC6_caches_empty : ∀ (li ni : ℕ) (n : Node), nwC6.mainAt li ni = some n →
    n.sum_cache = none ∧ n.result_cache = none := by
  intro li ni n hm
  unfold Network.mainAt Network.get_node nwC6 at hm
  match li, ni with
  | 0, 0 => exact Option.noConfusion hm
  | 0, m + 1 => simp at hm
  | 1, 0 =>
    injection hm with h2
    rw [← h2]
    exact ⟨rfl, rfl⟩
  | 1, m + 1 => simp at hm
  | k + 2, m => simp at hm

/-- The pre-activation sum computed on the C7 witness network (left
unevaluated, exactly as the code builds it). -/
def qC7 : ℚ := 0 * 0 + 0 + 0

/-- The C7 witness network after one `get_value` pull: both caches of the
output node filled with the computed values. -/
def nwC7post : Network :=
  { layers := [[AnyNode.start ⟨0⟩],
      [AnyNode.main { Node.new 0 [0] 1 with
        sum_cache := some qC7, result_cache := some qC7 }]]
    config := { learning_rate := 1, shape := [1, 1] } }

/-- Witness for C7 at a concrete network: evaluate, invalidate,
re-evaluate — the two returned values agree. -/
theorem C7_witness :
    getValueF idAct 2 nwC6 1 0 = some (nwC7post, qC7) ∧
    getValueF idAct 2 nwC7post.invalidate 1 0 = some (nwC7post, qC7) ∧
    qC7 = qC7 := by
  have hs : CacheSound idAct nwC6 := cacheSound_of_empty nwC6_caches_empty
  have h1 : getValueF idAct 2 nwC6 1 0 = some (nwC7post, qC7) := rfl
  have h2 : getValueF idAct 2 nwC7post.invalidate 1 0 = some (nwC7post, qC7) := rfl
  exact ⟨h1, h2,
    (C7_invalidate_same_value idAct 2 2 nwC6 1 0 nwC7post nwC7post qC7 qC7 hs h1 h2).1⟩

/-! ## Claim C1: mini-batch gradient accumulation

`train_on_batch` is the in-order fold of `train_on_data` followed by one
`apply_nudges`.  The "no clearing in between" content is made precise by
the counter: one pass of `train_on_data` adds exactly 1 to `nudge_cnt` at
every compute-node position (each node's `calc_nudge` runs once per
example), so after a `k`-example batch every counter reads its initial
value plus `k`; and `Node::apply_nudges` adds `accumulated sum / nudge_cnt`
— the arithmetic mean of the per-example contributions — to the bias and
to each weight. -/

theorem applyWeightNudges_getElem? :
    ∀ (wns ws : List ℚ) (inv : ℚ) (r : List ℚ), applyWeightNudges ws wns inv = some r →
      ∀ j : ℕ, r[j]? =
        match wns[j]? with
        | some wn => ws[j]?.map (fun w => w + wn * inv)
        | none => ws[j]? := by
  intro wns
  induction wns with
  | nil =>
    intro ws inv r h j
    simp only [applyWeightNudges, Option.some.injEq] at h
    subst h
    simp only [List.getElem?_nil]
  | cons wn wns2 ih =>
    intro ws inv r h j
    cases ws with
    | nil => exact Option.noConfusion h
    | cons w ws2 =>
      simp only [applyWeightNudges] at h
      cases h2 : applyWeightNudges ws2 wns2 inv with
      | none => simp only [h2] at h; exact Option.noConfusion h
      | some r2 =>
        simp only [h2, Option.map_some', Option.some.injEq] at h
        subst h
        cases j with
        | zero => simp only [List.getElem?_cons_zero, Option.map_some']
        | succ m =>
          simp only [List.getElem?_cons_succ]
          exact ih ws2 inv r2 h2 m

/-- `Node::apply_nudges` numerically: the bias gains
`bias_nudge_sum / nudge_cnt` and weight `j` gains
`inp_w_nudge_sum[j] / nudge_cnt`. -/
theorem node_apply_formula {n n2 : Node} (h : n.apply_nudges = some n2) :
    n2.bias = n.bias + n.bias_nudge_sum * (1 / (n.nudge_cnt : ℚ)) ∧
    ∀ j : ℕ, n2.inp_w[j]? =
      match n.inp_w_nudge_sum[j]? with
      | some wn => n.inp_w[j]?.map (fun w => w + wn * (1 / (n.nudge_cnt : ℚ)))
      | none => n.inp_w[j]? := by
  simp only [Node.apply_nudges] at h
  cases hw : applyWeightNudges n.inp_w n.inp_w_nudge_sum (1 / (n.nudge_cnt : ℚ)) with
  | none => rw [hw] at h; exact Option.noConfusion h
  | some ws =>
    rw [hw] at h
    simp only [Option.map_some', Option.some.injEq] at h
    subst h
    exact ⟨rfl, applyWeightNudges_getElem? _ _ _ _ hw⟩

theorem cntAt_modify_keep (nw : Network) (li ni : ℕ) {g : Node → Node}
    (hg : ∀ n, (g n).nudge_cnt = n.nudge_cnt) (lj nj : ℕ) :
    (nw.modifyMain li ni g).cntAt lj nj = nw.cntAt lj nj := by
  unfold Network.cntAt
  rw [mainAt_modifyMain]
  by_cases hp : li = lj ∧ ni = nj
  · rw [if_pos hp]
    cases nw.mainAt lj nj with
    | none => rfl
    | some n => simp [hg]
  · rw [if_neg hp]

theorem cntAt_modify_reqfn (nw : Network) (li ni : ℕ) (c : ℚ) (lj nj : ℕ) :
    (nw.modifyMain li ni (fun n => n.request_nudge c)).cntAt lj nj = nw.cntAt lj nj := by
  refine cntAt_modify_keep nw li ni ?_ lj nj
  intro n
  rfl

theorem cntAt_modify_wsum (nw : Network) (li ni : ℕ) (c : ℚ) (iw : ℕ) (lj nj : ℕ) :
    (nw.modifyMain li ni (fun n =>
      { n with inp_w_nudge_sum := listModify (fun x => x + c) iw n.inp_w_nudge_sum })).cntAt
      lj nj = nw.cntAt lj nj := by
  refine cntAt_modify_keep nw li ni ?_ lj nj
  intro n
  rfl

theorem cntAt_modify_req (nw : Network) (li ni : ℕ) (c : ℚ) (lj nj : ℕ) :
    (nw.modifyMain li ni (fun n =>
      { n with requested_nudge := n.requested_nudge + c })).cntAt lj nj = nw.cntAt lj nj := by
  refine cntAt_modify_keep nw li ni ?_ lj nj
  intro n
  rfl

theorem cntAt_modify_bias (nw : Network) (li ni : ℕ) (c : ℚ) (lj nj : ℕ) :
    (nw.modifyMain li ni (fun n =>
      { n with bias_nudge_sum := n.bias_nudge_sum + c })).cntAt lj nj = nw.cntAt lj nj := by
  refine cntAt_modify_keep nw li ni ?_ lj nj
  intro n
  rfl

theorem cntAt_modify_inc (nw : Network) (li ni : ℕ) (lj nj : ℕ) :
    (nw.modifyMain li ni (fun m => { m with nudge_cnt := m.nudge_cnt + 1 })).cntAt lj nj
      = if li = lj ∧ ni = nj then (nw.cntAt lj nj).map (fun c => c + 1)
        else nw.cntAt lj nj := by
  unfold Network.cntAt
  rw [mainAt_modifyMain]
  by_cases hp : li = lj ∧ ni = nj
  · rw [if_pos hp, if_pos hp]
    cases nw.mainAt lj nj with
    | none => rfl
    | some n => rfl
  · rw [if_neg hp, if_neg hp]

theorem evalRange_cacheless (A : Act) (fuel li : ℕ) :
    ∀ (count start : ℕ) (nw nw' : Network) (vs : List ℚ),
      evalRange A fuel li nw start count = some (nw', vs) → nw'.cacheless = nw.cacheless := by
  intro count
  induction count with
  | zero =>
    intro start nw nw' vs h
    simp only [evalRange, Option.some.injEq, Prod.mk.injEq] at h
    obtain ⟨h1, _⟩ := h
    subst h1
    rfl
  | succ c ih =>
    intro start nw nw' vs h
    simp only [evalRange] at h
    cases h1 : getValueF A fuel nw li start with
    | none => simp only [h1] at h; exact Option.noConfusion h
    | some p =>
      obtain ⟨nw2, v⟩ := p
      simp only [h1] at h
      cases h2 : evalRange A fuel li nw2 (start + 1) c with
      | none => simp only [h2] at h; exact Option.noConfusion h
      | some q =>
        obtain ⟨nw3, rest⟩ := q
        simp only [h2, Option.some.injEq, Prod.mk.injEq] at h
        obtain ⟨h3, _⟩ := h
        subst h3
        exact (ih (start + 1) nw2 nw3 rest h2).trans
          (getValueF_cacheless A fuel nw li start nw2 v h1)

theorem get_outputs_cacheless {A : Act} {fuel : ℕ} {nw nw' : Network} {vs : List ℚ}
    (h : nw.get_outputs A fuel = some (nw', vs)) : nw'.cacheless = nw.cacheless := by
  unfold Network.get_outputs at h
  cases hL : nw.layers.length with
  | zero => rw [hL] at h; exact Option.noConfusion h
  | succ L =>
    rw [hL] at h
    exact evalRange_cacheless A fuel L _ 0 nw nw' vs h

theorem cnt_seedLoop {L : ℕ} {outs expected : List ℚ} :
    ∀ (count : ℕ) (nw : Network) (i : ℕ) (nw' : Network),
      seedLoop L outs expected nw i count = some nw' →
      ∀ lj nj, nw'.cntAt lj nj = nw.cntAt lj nj := by
  intro count
  induction count with
  | zero =>
    intro nw i nw' h lj nj
    simp only [seedLoop, Option.some.injEq] at h
    subst h
    rfl
  | succ c ih =>
    intro nw i nw' h lj nj
    simp only [seedLoop] at h
    cases ho : outs[i]? with
    | none => simp only [ho] at h; exact Option.noConfusion h
    | some o =>
      cases he : expected[i]? with
      | none => simp only [ho, he] at h; exact Option.noConfusion h
      | some e =>
        simp only [ho, he] at h
        cases hm : nw.mainAt L i with
        | none => simp only [hm] at h; exact Option.noConfusion h
        | some n =>
          simp only [hm] at h
          rw [ih _ (i + 1) nw' h lj nj]
          exact cntAt_modify_reqfn nw L i _ lj nj

theorem cnt_request_nudges_end {A : Act} {fuel : ℕ} {nw nw' : Network} {expected : List ℚ}
    (h : nw.request_nudges_end A fuel expected = some nw') :
    ∀ lj nj, nw'.cntAt lj nj = nw.cntAt lj nj := by
  unfold Network.request_nudges_end at h
  cases h1 : nw.get_outputs A fuel with
  | none => simp only [h1] at h; exact Option.noConfusion h
  | some p =>
    obtain ⟨nw1, outs⟩ := p
    simp only [h1] at h
    cases hL : nw1.layers.length with
    | zero => simp only [hL] at h; exact Option.noConfusion h
    | succ L =>
      simp only [hL] at h
      intro lj nj
      rw [cnt_seedLoop _ nw1 0 nw' h lj nj]
      exact cntAt_congr (get_outputs_cacheless h1) lj nj

theorem cnt_calcNudgeLoop {A : Act} {fuel li ni layerIdx : ℕ} {base : ℚ} :
    ∀ (ws : List ℚ) (i : ℕ) (nw nw' : Network),
      calcNudgeLoop A fuel li ni layerIdx base nw ws i = some nw' →
      ∀ lj nj, nw'.cntAt lj nj = nw.cntAt lj nj := by
  intro ws
  induction ws with
  | nil =>
    intro i nw nw' h lj nj
    simp only [calcNudgeLoop, Option.some.injEq] at h
    subst h
    rfl
  | cons w rest ih =>
    intro i nw nw' h lj nj
    simp only [calcNudgeLoop] at h
    cases h1 : getValueF A fuel nw (layerIdx - 1) i with
    | none => simp only [h1] at h; exact Option.noConfusion h
    | some p =>
      obtain ⟨nw2, v⟩ := p
      simp only [h1] at h
      cases h2 : (nw2.mainAt li ni).bind (fun n => n.inp_w_nudge_sum[i]?) with
      | none => simp only [h2] at h; exact Option.noConfusion h
      | some x =>
        simp only [h2] at h
        by_cases h3 : 1 < layerIdx
        · rw [if_pos h3] at h
          cases h4 : (nw2.modifyMain li ni (fun n =>
              { n with inp_w_nudge_sum :=
                  listModify (fun x => x + base * v) i n.inp_w_nudge_sum })).mainAt
                (layerIdx - 1) i with
          | none => simp only [h4] at h; exact Option.noConfusion h
          | some m =>
            simp only [h4] at h
            rw [ih (i + 1) _ nw' h lj nj,
              cntAt_modify_req _ (layerIdx - 1) i _ lj nj,
              cntAt_modify_wsum nw2 li ni _ i lj nj]
            exact cntAt_congr (getValueF_cacheless A fuel nw (layerIdx - 1) i nw2 v h1) lj nj
        · rw [if_neg h3] at h
          rw [ih (i + 1) _ nw' h lj nj,
            cntAt_modify_wsum nw2 li ni _ i lj nj]
          exact cntAt_congr (getValueF_cacheless A fuel nw (layerIdx - 1) i nw2 v h1) lj nj

theorem cnt_calcNudge {A : Act} {fuel : ℕ} {nw nw' : Network} {li ni : ℕ}
    (h : calcNudge A fuel nw li ni = some nw') (lj nj : ℕ) :
    nw'.cntAt lj nj =
      if li = lj ∧ ni = nj then (nw.cntAt lj nj).map (fun c => c + 1)
      else nw.cntAt lj nj := by
  unfold calcNudge at h
  cases h1 : getSumF A fuel nw li ni with
  | none => simp only [h1] at h; exact Option.noConfusion h
  | some p =>
    obtain ⟨nw1, s⟩ := p
    simp only [h1] at h
    cases h2 : nw1.mainAt li ni with
    | none => simp only [h2] at h; exact Option.noConfusion h
    | some n =>
      simp only [h2] at h
      cases h3 : calcNudgeLoop A fuel li ni n.layer
          (n.requested_nudge * A.sigDeriv s * nw1.config.learning_rate)
          (nw1.modifyMain li ni (fun m =>
            { m with bias_nudge_sum := m.bias_nudge_sum +
                n.requested_nudge * A.sigDeriv s * nw1.config.learning_rate })) n.inp_w 0 with
      | none => simp only [h3] at h; exact Option.noConfusion h
      | some nw3 =>
        simp only [h3, Option.some.injEq] at h
        subst h
        rw [cntAt_modify_inc nw3 li ni lj nj,
          cnt_calcNudgeLoop n.inp_w 0 _ nw3 h3 lj nj,
          cntAt_modify_bias nw1 li ni _ lj nj,
          cntAt_congr (getSumF_cacheless A fuel nw li ni nw1 s h1) lj nj]

theorem cnt_sweepLayerGo {A : Act} {fuel li : ℕ} :
    ∀ (count : ℕ) (nw : Network) (start : ℕ) (nw' : Network),
      sweepLayerGo A fuel li nw start count = some nw' →
      ∀ lj nj, nw'.cntAt lj nj =
        if lj = li ∧ start ≤ nj ∧ nj < start + count
        then (nw.cntAt lj nj).map (fun c => c + 1) else nw.cntAt lj nj := by
  intro count
  induction count with
  | zero =>
    intro nw start nw' h lj nj
    simp only [sweepLayerGo, Option.some.injEq] at h
    subst h
    rw [if_neg (by intro hq; omega)]
  | succ c ih =>
    intro nw start nw' h lj nj
    simp only [sweepLayerGo] at h
    cases h1 : calcNudge A fuel nw li start with
    | none => simp only [h1] at h; exact Option.noConfusion h
    | some nw2 =>
      simp only [h1] at h
      rw [ih nw2 (start + 1) nw' h lj nj, cnt_calcNudge h1 lj nj]
      by_cases hcur : li = lj ∧ start = nj
      · obtain ⟨he1, he2⟩ := hcur
        rw [if_neg (by intro hq; omega), if_pos ⟨he1, he2⟩,
          if_pos ⟨he1.symm, by omega, by omega⟩]
      · rw [if_neg hcur]
        by_cases hrange : lj = li ∧ start + 1 ≤ nj ∧ nj < start + 1 + c
        · rw [if_pos hrange, if_pos ⟨hrange.1, by omega, by omega⟩]
        · rw [if_neg hrange,
            if_neg (show ¬(lj = li ∧ start ≤ nj ∧ nj < start + (c + 1)) from fun hq => by
              by_cases hnj : nj = start
              · exact hcur ⟨hq.1.symm, hnj.symm⟩
              · exact hrange ⟨hq.1, by omega, by omega⟩)]

theorem cnt_sweepDown {A : Act} {fuel : ℕ} :
    ∀ (k : ℕ) (nw nw' : Network), sweepDown A fuel nw k = some nw' →
      ∀ lj nj, nw'.cntAt lj nj =
        if 1 ≤ lj ∧ lj ≤ k ∧ nj < (nw.layers.getD lj []).length
        then (nw.cntAt lj nj).map (fun c => c + 1) else nw.cntAt lj nj := by
  intro k
  induction k with
  | zero =>
    intro nw nw' h lj nj
    simp only [sweepDown, Option.some.injEq] at h
    subst h
    rw [if_neg (by intro hq; omega)]
  | succ m ih =>
    intro nw nw' h lj nj
    simp only [sweepDown] at h
    cases h1 : sweepLayerGo A fuel (m + 1) nw 0 ((nw.layers.getD (m + 1) []).length) with
    | none => simp only [h1] at h; exact Option.noConfusion h
    | some nw2 =>
      simp only [h1] at h
      have hsk : nw2.skel = nw.skel := skel_sweepLayerGo A fuel (m + 1) _ 0 nw nw2 h1
      have hlen : ∀ l2, (nw2.layers.getD l2 []).length = (nw.layers.getD l2 []).length := by
        intro l2
        rw [← getD_map_length, lensOf_congr_skel hsk, getD_map_length]
      rw [ih nw2 nw' h lj nj, hlen lj, cnt_sweepLayerGo _ nw 0 nw2 h1 lj nj]
      by_cases hcur : lj = m + 1 ∧ nj < (nw.layers.getD (m + 1) []).length
      · obtain ⟨hc1, hc2⟩ := hcur
        subst hc1
        rw [if_neg (show ¬(1 ≤ m + 1 ∧ m + 1 ≤ m ∧
              nj < (nw.layers.getD (m + 1) []).length) from by intro hq; omega),
          if_pos (show m + 1 = m + 1 ∧ 0 ≤ nj ∧
              nj < 0 + (nw.layers.getD (m + 1) []).length
            from ⟨rfl, Nat.zero_le nj, by omega⟩),
          if_pos (show 1 ≤ m + 1 ∧ m + 1 ≤ m + 1 ∧
              nj < (nw.layers.getD (m + 1) []).length
            from ⟨by omega, le_refl _, hc2⟩)]
      · rw [if_neg (show ¬(lj = m + 1 ∧ 0 ≤ nj ∧ nj < 0 + (nw.layers.getD (m + 1) []).length)
          from fun hq => hcur ⟨hq.1, by omega⟩)]
        by_cases hrange : 1 ≤ lj ∧ lj ≤ m ∧ nj < (nw.layers.getD lj []).length
        · rw [if_pos hrange, if_pos ⟨hrange.1, by omega, hrange.2.2⟩]
        · rw [if_neg hrange,
            if_neg (show ¬(1 ≤ lj ∧ lj ≤ m + 1 ∧ nj < (nw.layers.getD lj []).length)
              from fun hq => by
                by_cases hm1 : lj = m + 1
                · refine hcur ⟨hm1, ?_⟩
                  rw [← hm1]
                  exact hq.2.2
                · exact hrange ⟨hq.1, by omega, hq.2.2⟩)]

/-- Boolean test for a start slot. -/
def AnyNode.isStartb : AnyNode → Bool
  | .start _ => true
  | .main _ => false

theorem setStartValues_src_start :
    ∀ (l : List AnyNode) (vs : List ℚ) (l2 : List AnyNode), setStartValues l vs = some l2 →
      ∀ (j : ℕ) (n : Node), l[j]? = some (.main n) → False := by
  intro l
  induction l with
  | nil =>
    intro vs l2 _ j n hj
    rw [List.getElem?_nil] at hj
    exact Option.noConfusion hj
  | cons a rest ih =>
    intro vs l2 h j n hj
    cases a with
    | main m =>
      cases vs with
      | nil => exact Option.noConfusion h
      | cons v vs2 => exact Option.noConfusion h
    | start s0 =>
      cases vs with
      | nil => exact Option.noConfusion h
      | cons v vs2 =>
        simp only [setStartValues] at h
        cases h2 : setStartValues rest vs2 with
        | none => simp only [h2] at h; exact Option.noConfusion h
        | some r =>
          cases j with
          | zero =>
            rw [List.getElem?_cons_zero] at hj
            injection hj with hj2
            exact AnyNode.noConfusion hj2
          | succ mj =>
            rw [List.getElem?_cons_succ] at hj
            exact ih vs2 r h2 mj n hj

theorem mainAt_set_inputs {nw nw' : Network} {vs : List ℚ} (h : nw.set_inputs vs = some nw') :
    ∀ lj nj, nw'.mainAt lj nj = nw.mainAt lj nj := by
  unfold Network.set_inputs at h
  cases hls : nw.layers with
  | nil => rw [hls] at h; exact Option.noConfusion h
  | cons l0 rest =>
    rw [hls] at h
    simp only [] at h
    by_cases hlen : vs.length = l0.length
    · rw [if_pos hlen] at h
      cases h2 : setStartValues l0 vs with
      | none => simp only [h2] at h; exact Option.noConfusion h
      | some l0x =>
        simp only [h2, Option.map_some', Option.some.injEq] at h
        subst h
        intro lj nj
        unfold Network.mainAt Network.get_node
        rw [hls]
        show (match ((l0x :: rest)[lj]?.bind (fun l => l[nj]?)) with
          | some (.main n) => some n
          | _ => none) = _
        cases lj with
        | zero =>
          simp only [List.getElem?_cons_zero, Option.some_bind]
          cases hx : l0x[nj]? with
          | none =>
            cases hy : l0[nj]? with
            | none => rfl
            | some b =>
              cases b with
              | start s => rfl
              | main n => exact absurd hy (fun hy2 =>
                  setStartValues_src_start l0 vs l0x h2 nj n hy2)
          | some a =>
            have hstart := all_get
              (@all_setStartValues AnyNode.isStartb (fun s => rfl) l0 vs l0x h2) hx
            cases a with
            | start s =>
              cases hy : l0[nj]? with
              | none => rfl
              | some b =>
                cases b with
                | start s2 => rfl
                | main n => exact absurd hy (fun hy2 =>
                    setStartValues_src_start l0 vs l0x h2 nj n hy2)
            | main n => exact Bool.noConfusion hstart
        | succ mj =>
          simp only [List.getElem?_cons_succ]
    · rw [if_neg hlen] at h
      exact Option.noConfusion h

theorem cnt_set_inputs {nw nw' : Network} {vs : List ℚ} (h : nw.set_inputs vs = some nw')
    (lj nj : ℕ) : nw'.cntAt lj nj = nw.cntAt lj nj := by
  unfold Network.cntAt
  rw [mainAt_set_inputs h lj nj]

theorem cnt_invalidate (nw : Network) (lj nj : ℕ) :
    nw.invalidate.cntAt lj nj = nw.cntAt lj nj := by
  unfold Network.cntAt
  rw [mainAt_invalidate]
  by_cases h0 : lj = 0
  · rw [if_pos h0]
  · rw [if_neg h0]
    cases nw.mainAt lj nj with
    | none => rfl
    | some n => rfl

theorem cnt_train_on_current_data {A : Act} {fuel : ℕ} {nw nw' : Network}
    {expected : List ℚ} (h : nw.train_on_current_data A fuel expected = some nw') :
    ∀ lj nj, nw'.cntAt lj nj =
      if 1 ≤ lj ∧ lj ≤ nw.layers.length - 1 ∧ nj < (nw.layers.getD lj []).length
      then (nw.cntAt lj nj).map (fun c => c + 1) else nw.cntAt lj nj := by
  unfold Network.train_on_current_data at h
  cases h1 : nw.request_nudges_end A fuel expected with
  | none => simp only [h1] at h; exact Option.noConfusion h
  | some nw1 =>
    simp only [h1] at h
    intro lj nj
    have hsk : nw1.skel = nw.skel := skel_request_nudges_end A fuel h1
    have hlen : ∀ l2, (nw1.layers.getD l2 []).length = (nw.layers.getD l2 []).length := by
      intro l2
      rw [← getD_map_length, lensOf_congr_skel hsk, getD_map_length]
    rw [cnt_sweepDown _ nw1 nw' h lj nj, hlen lj, layers_length_congr_skel hsk,
      cnt_request_nudges_end h1 lj nj]

theorem cnt_train_on_data {A : Act} {fuel : ℕ} {nw nw' : Network} {ex : TrainingExample}
    (h : nw.train_on_data A fuel ex = some nw') :
    ∀ lj nj, nw'.cntAt lj nj =
      if 1 ≤ lj ∧ lj ≤ nw.layers.length - 1 ∧ nj < (nw.layers.getD lj []).length
      then (nw.cntAt lj nj).map (fun c => c + 1) else nw.cntAt lj nj := by
  unfold Network.train_on_data at h
  cases h1 : nw.set_inputs ex.inputs with
  | none => simp only [h1] at h; exact Option.noConfusion h
  | some nw1 =>
    simp only [h1] at h
    intro lj nj
    have hsk : nw1.invalidate.skel = nw.skel :=
      (skel_invalidate nw1).trans (skel_set_inputs h1)
    have hlen : ∀ l2, (nw1.invalidate.layers.getD l2 []).length
        = (nw.layers.getD l2 []).length := by
      intro l2
      rw [← getD_map_length, lensOf_congr_skel hsk, getD_map_length]
    rw [cnt_train_on_current_data h lj nj, hlen lj, layers_length_congr_skel hsk,
      cnt_invalidate nw1 lj nj, cnt_set_inputs h1 lj nj]

theorem cnt_trainFold {A : Act} {fuel : ℕ} :
    ∀ (batch : List TrainingExample) (nw nw' : Network),
      trainFold A fuel nw batch = some nw' →
      ∀ lj nj, nw'.cntAt lj nj =
        if 1 ≤ lj ∧ lj ≤ nw.layers.length - 1 ∧ nj < (nw.layers.getD lj []).length
        then (nw.cntAt lj nj).map (fun c => c + batch.length) else nw.cntAt lj nj := by
  intro batch
  induction batch with
  | nil =>
    intro nw nw' h lj nj
    simp only [trainFold, Option.some.injEq] at h
    subst h
    by_cases hc : 1 ≤ lj ∧ lj ≤ nw.layers.length - 1 ∧ nj < (nw.layers.getD lj []).length
    · rw [if_pos hc]
      cases nw.cntAt lj nj with
      | none => rfl
      | some c => simp
    · rw [if_neg hc]
  | cons ex rest ih =>
    intro nw nw' h lj nj
    simp only [trainFold] at h
    cases h1 : nw.train_on_data A fuel ex with
    | none => simp only [h1] at h; exact Option.noConfusion h
    | some nw1 =>
      simp only [h1] at h
      have hsk : nw1.skel = nw.skel := skel_train_on_data A fuel h1
      have hlen : ∀ l2, (nw1.layers.getD l2 []).length = (nw.layers.getD l2 []).length := by
        intro l2
        rw [← getD_map_length, lensOf_congr_skel hsk, getD_map_length]
      rw [ih nw1 nw' h lj nj, hlen lj, layers_length_congr_skel hsk,
        cnt_train_on_data h1 lj nj]
      by_cases hc : 1 ≤ lj ∧ lj ≤ nw.layers.length - 1 ∧ nj < (nw.layers.getD lj []).length
      · rw [if_pos hc, if_pos hc, if_pos hc]
        cases nw.cntAt lj nj with
        | none => rfl
        | some c =>
          simp only [Option.map_some', Option.some.injEq, List.length_cons]
          omega
      · rw [if_neg hc, if_neg hc, if_neg hc]

theorem trainFold_append (A : Act) (fuel : ℕ) :
    ∀ (b1 b2 : List TrainingExample) (nw : Network),
      trainFold A fuel nw (b1 ++ b2) =
        (trainFold A fuel nw b1).bind (fun nw1 => trainFold A fuel nw1 b2) := by
  intro b1
  induction b1 with
  | nil => intro b2 nw; rfl
  | cons ex rest ih =>
    intro b2 nw
    simp only [List.cons_append, trainFold]
    cases nw.train_on_data A fuel ex with
    | none => rfl
    | some nw1 => exact ih b2 nw1

/-- C1.  `train_on_batch` is the in-order fold of `train_on_data` over the
batch followed by exactly one `apply_nudges`; the fold runs example by
example and composes over concatenation with no clearing in between —
witnessed precisely by the counters: a fold over a `k`-example batch
leaves every compute node's `nudge_cnt` at its initial value plus `k`
(each example's backward sweep ran `calc_nudge` exactly once on every
node), so the accumulators hold the sum of the `k` per-example
contributions; and the single `apply_nudges` adds exactly
`accumulated sum / nudge_cnt` — the arithmetic mean of those
contributions — to the bias and to each weight. -/
theorem C1_batch_accumulation (A : Act) (fuel : ℕ) :
    (∀ (nw : Network) (batch : List TrainingExample),
      nw.train_on_batch A fuel batch =
        (trainFold A fuel nw batch).bind Network.apply_nudges) ∧
    (∀ (nw : Network) (ex : TrainingExample) (rest : List TrainingExample),
      trainFold A fuel nw (ex :: rest) =
        (nw.train_on_data A fuel ex).bind (fun nw1 => trainFold A fuel nw1 rest)) ∧
    (∀ (nw : Network) (b1 b2 : List TrainingExample),
      trainFold A fuel nw (b1 ++ b2) =
        (trainFold A fuel nw b1).bind (fun nw1 => trainFold A fuel nw1 b2)) ∧
    (∀ (batch : List TrainingExample) (nw nw' : Network),
      nw.wfb A = true → trainFold A fuel nw batch = some nw' →
      ∀ (li ni : ℕ) (n : Node), nw.mainAt li ni = some n →
        nw'.cntAt li ni = some (n.nudge_cnt + batch.length)) ∧
    (∀ (nw nw' : Network), nw.apply_nudges = some nw' →
      ∀ (li ni : ℕ) (n : Node), nw.mainAt (li + 1) ni = some n →
        ∃ n2 : Node, n.apply_nudges = some n2 ∧
          nw'.mainAt (li + 1) ni = some n2.clear_nudges ∧
          n2.bias = n.bias + n.bias_nudge_sum * (1 / (n.nudge_cnt : ℚ)) ∧
          ∀ (j : ℕ) (wn : ℚ), n.inp_w_nudge_sum[j]? = some wn →
            n2.inp_w[j]? = n.inp_w[j]?.map (fun w => w + wn * (1 / (n.nudge_cnt : ℚ)))) := by
  refine ⟨?_, ?_, ?_, ?_, ?_⟩
  · intro nw batch
    unfold Network.train_on_batch
    cases trainFold A fuel nw batch with
    | none => rfl
    | some nw1 => rfl
  · intro nw ex rest
    simp only [trainFold]
    cases nw.train_on_data A fuel ex with
    | none => rfl
    | some nw1 => rfl
  · intro nw b1 b2
    exact trainFold_append A fuel b1 b2 nw
  · intro batch nw nw' hwf hf li ni n hm
    have hg := get_node_of_mainAt hm
    have hli : 1 ≤ li := (layerOK_get_node (wfb_and.mp hwf).1 hg).2
    obtain ⟨l, hl, hni⟩ : ∃ l, nw.layers[li]? = some l ∧ l[ni]? = some (.main n) := by
      unfold Network.get_node at hg
      cases hl : nw.layers[li]? with
      | none => rw [hl] at hg; exact Option.noConfusion hg
      | some l =>
        rw [hl, Option.some_bind] at hg
        exact ⟨l, rfl, hg⟩
    have hliL : li < nw.layers.length := lt_length_of_getElem?_some hl
    have hgetD : nw.layers.getD li [] = l := by
      rw [List.getD_eq_getElem?_getD, hl]
      rfl
    have hniL : ni < (nw.layers.getD li []).length := by
      rw [hgetD]
      exact lt_length_of_getElem?_some hni
    rw [cnt_trainFold batch nw nw' hf li ni, if_pos ⟨hli, by omega, hniL⟩]
    unfold Network.cntAt
    rw [hm]
    rfl
  · intro nw nw' happ li ni n hm
    have hg := get_node_of_mainAt hm
    obtain ⟨b, hb⟩ := apply_nudges_node_success happ hg
    cases h2 : n.apply_nudges with
    | none =>
      exfalso
      simp only [applyNodeStep, h2] at hb
      exact Option.noConfusion hb
    | some n2 =>
      obtain ⟨hbias, hws⟩ := node_apply_formula h2
      refine ⟨n2, rfl, ?_, hbias, ?_⟩
      · have h4 := (apply_nudges_get_node happ).2.2.2 li ni
        rw [hg, Option.some_bind] at h4
        unfold Network.mainAt
        rw [h4]
        simp only [applyNodeStep, h2, Option.map_some']
      · intro j wn hwn
        have hj := hws j
        rw [hwn] at hj
        exact hj

/-- A one-example batch for the C1 witness. -/
def exC1 : TrainingExample := { inputs := [0], expected := [0] }

/-- Witness for C1 at a concrete network and a batch of size 1: the
counter ends at `0 + 1` and `apply_nudges` applies the mean formula. -/
theorem C1_witness :
    (∃ nw', trainFold idAct 3 nwC6 [exC1] = some nw' ∧
      nw'.cntAt 1 0 = some (0 + 1)) ∧
    (∃ nw2, nwC6.apply_nudges = some nw2 ∧
      ∃ n2 : Node, (Node.new 0 [0] 1).apply_nudges = some n2 ∧
        nw2.mainAt 1 0 = some n2.clear_nudges ∧
        n2.bias = 0 + 0 * (1 / ((0 : ℕ) : ℚ))) := by
  constructor
  · refine ⟨_, rfl, ?_⟩
    exact (C1_batch_accumulation idAct 3).2.2.2.1 [exC1] nwC6 _ (by decide) rfl 1 0
      (Node.new 0 [0] 1) rfl
  · refine ⟨_, rfl, ?_⟩
    obtain ⟨n2, h2, h3, h4, _⟩ := (C1_batch_accumulation idAct 3).2.2.2.2 nwC6 _ rfl 0 0
      (Node.new 0 [0] 1) rfl
    exact ⟨n2, h2, h3, h4⟩

end RustNN
